import Mathlib

/-! # Calculator and weather widget: a shallow embedding

Embeds `calculator.js` (`formatResult`, `factorial`, the angle-mode wrappers,
`evaluateExpression`, the `=` branch of the click handler) and `weather.js`
(`displayWeather`) and settles the specification's claims against them.

ECMAScript Numbers are IEEE-754 binary64 values.  They are modelled exactly:
a finite Number is the rational it denotes, and every arithmetic operation
rounds its exact result to the nearest binary64 value (ties to even).  The two
zeros are not told apart (`fin 0` stands for both); the only operation of the
embedded code that could observe the difference, a division by zero, is left
undefined by the expression evaluator below.
-/

/-! ## Numbers -/

/-- An ECMAScript Number: NaN, an infinity, or a finite binary64 value given by
the rational it denotes. -/
inductive JSNum where
  | nan
  | inf (neg : Bool)
  | fin (q : ℚ)
  deriving DecidableEq

namespace JSNum

/-- Floor of the base-`b` logarithm of a positive natural, by repeated division;
the second argument bounds the number of divisions. -/
def logFuel (b : ℕ) : ℕ → ℕ → ℕ
  | 0, _ => 0
  | f + 1, n => if n < b then 0 else logFuel b f (n / b) + 1

/-- Floor of the base-`b` logarithm of a natural number (0 at 0). -/
def natLog (b n : ℕ) : ℕ := logFuel b n n

/-- The power `b^e` for an integer exponent, as a rational. -/
def powInt (b : ℕ) (e : ℤ) : ℚ :=
  if 0 ≤ e then ((b ^ e.toNat : ℕ) : ℚ) else 1 / ((b ^ (-e).toNat : ℕ) : ℚ)

/-- Floor of the base-`b` logarithm of a positive rational: the integer `e` with
`b^e ≤ q < b^(e+1)`. -/
def floorLog (b : ℕ) (q : ℚ) : ℤ :=
  let e0 : ℤ := (natLog b q.num.natAbs : ℤ) - (natLog b q.den : ℤ)
  if powInt b e0 ≤ q then e0 else e0 - 1

/-- The power `2^e` for an integer exponent. -/
def pow2 (e : ℤ) : ℚ := powInt 2 e

/-- The binade of a positive rational: the integer `e` with `2^e ≤ q < 2^(e+1)`. -/
def binade (q : ℚ) : ℤ := floorLog 2 q

/-- Round a rational to the nearest integer, ties to the even one. -/
def roundHalfEven (q : ℚ) : ℤ :=
  let f := ⌊q⌋
  let r := q - f
  if r < 1 / 2 then f
  else if 1 / 2 < r then f + 1
  else if f % 2 = 0 then f else f + 1

/-- The unit in the last place at a positive rational: `2^(e - 52)` for the
binade `e`, which is at least `-1022` (below it the values are subnormal). -/
def ulp (a : ℚ) : ℚ := pow2 (max (binade a) (-1022) - 52)

/-- A positive rational rounded to the nearest multiple of its unit in the last
place, ties to the even multiple. -/
def roundMagnitude (a : ℚ) : ℚ := (roundHalfEven (a / ulp a) : ℚ) * ulp a

/-- The binary64 value nearest to an exact rational result (round to nearest,
ties to even; 53-bit significand, subnormals below `2^-1022`, overflow to an
infinity from `2^1024 - 2^970` on). -/
def roundDouble (q : ℚ) : JSNum :=
  if q = 0 then fin 0
  else if pow2 1024 ≤ roundMagnitude |q| then inf (decide (q < 0))
  else fin (if q < 0 then -roundMagnitude |q| else roundMagnitude |q|)

/-- The Number a decimal literal of the source denotes. -/
def lit (q : ℚ) : JSNum := roundDouble q

/-- The relation `a < b` of ECMAScript on Numbers (false when either is NaN). -/
def lt : JSNum → JSNum → Bool
  | fin a, fin b => decide (a < b)
  | fin _, inf n => !n
  | inf n, fin _ => n
  | inf n, inf m => n && !m
  | _, _ => false

/-- The relation `a <= b` of ECMAScript on Numbers (false when either is NaN). -/
def le : JSNum → JSNum → Bool
  | fin a, fin b => decide (a ≤ b)
  | fin _, inf n => !n
  | inf n, fin _ => n
  | inf n, inf m => n || !m
  | _, _ => false

/-- Strict equality `a === b` on Numbers (NaN equals nothing). -/
def strictEq : JSNum → JSNum → Bool
  | fin a, fin b => decide (a = b)
  | inf n, inf m => n == m
  | _, _ => false

/-- Unary minus. -/
def neg : JSNum → JSNum
  | nan => nan
  | inf n => inf (!n)
  | fin q => fin (-q)

/-- The operator `+` on Numbers. -/
def add : JSNum → JSNum → JSNum
  | fin a, fin b => roundDouble (a + b)
  | fin _, inf n => inf n
  | inf n, fin _ => inf n
  | inf n, inf m => if n = m then inf n else nan
  | _, _ => nan

/-- The operator `-` on Numbers. -/
def sub (a b : JSNum) : JSNum := add a (neg b)

/-- The operator `*` on Numbers. -/
def mul : JSNum → JSNum → JSNum
  | fin a, fin b => roundDouble (a * b)
  | fin a, inf n => if a = 0 then nan else inf (xor n (decide (a < 0)))
  | inf n, fin b => if b = 0 then nan else inf (xor n (decide (b < 0)))
  | inf n, inf m => inf (xor n m)
  | _, _ => nan

/-- `Math.abs`. -/
def abs : JSNum → JSNum
  | nan => nan
  | inf _ => inf false
  | fin q => fin |q|

/-- `Math.floor`. -/
def floor : JSNum → JSNum
  | fin q => fin (⌊q⌋ : ℤ)
  | x => x

/-- `Math.round`: the nearest integer, a tie going to the larger one. -/
def round : JSNum → JSNum
  | fin q => fin (⌊q + 1 / 2⌋ : ℤ)
  | x => x

end JSNum


/-! ## Number to string conversions -/

/-- The result of running a piece of the program: a value, a thrown exception,
or `undef` when the run lies outside the embedded fragment of ECMAScript or has
not finished within the given fuel. -/
inductive Outcome (α : Type) where
  | ok (a : α)
  | threw
  | undef
  deriving DecidableEq

namespace Outcome

/-- Sequencing: exceptions and undefinedness propagate. -/
def bind {α β : Type} : Outcome α → (α → Outcome β) → Outcome β
  | ok a, f => f a
  | threw, _ => threw
  | undef, _ => undef

/-- An optional value as an outcome, `none` being undefinedness. -/
def ofOption {α : Type} : Option α → Outcome α
  | some a => ok a
  | none => undef

end Outcome

namespace JSNum

/-- The power `10^e` for an integer exponent. -/
def pow10 (e : ℤ) : ℚ := powInt 10 e

/-- The decade of a positive rational: the integer `e` with `10^e ≤ q < 10^(e+1)`. -/
def decade (q : ℚ) : ℤ := floorLog 10 q

/-- The character of a decimal digit. -/
def digitChar (d : ℕ) : Char := Char.ofNat (48 + d % 10)

/-- Decimal digits of a positive natural, most significant first (none for 0);
the first argument bounds the number of digits. -/
def digitsFuel : Nat → Nat → List Char
  | 0, _ => []
  | f + 1, n => if n = 0 then [] else digitsFuel f (n / 10) ++ [digitChar n]

/-- The decimal numeral of a natural number. -/
def natDigits (n : ℕ) : List Char :=
  if n = 0 then ['0'] else digitsFuel n n

/-- The two decimals with `k` significant digits that enclose the positive
rational `x` of decade `e`, each as a pair `(s, n)` denoting `s * 10^(n - k)`
with `10^(k-1) ≤ s < 10^k` (for the lower one when it is not zero). -/
def enclosing (x : ℚ) (e : ℤ) (k : ℕ) : (ℕ × ℤ) × (ℕ × ℤ) :=
  let lo := ⌊x / pow10 (e + 1 - k)⌋.toNat
  ((lo, e + 1), if lo + 1 = 10 ^ k then (10 ^ (k - 1), e + 2) else (lo + 1, e + 1))

/-- The value `s * 10^(n - k)` of a `k`-digit decimal. -/
def decimalValue (k : ℕ) (c : ℕ × ℤ) : ℚ := (c.1 : ℚ) * pow10 (c.2 - k)

/-- The `k`-digit decimal that converts back to the binary64 value `x`, if there
is one: the closer one of the two that enclose `x`, the even one on a tie. -/
def pickDigits (x : ℚ) (e : ℤ) (k : ℕ) : Option (ℕ × ℤ) :=
  let c := enclosing x e k
  let okLo := decide (roundDouble (decimalValue k c.1) = fin x)
  let okHi := decide (roundDouble (decimalValue k c.2) = fin x)
  if okLo && okHi then
    let dLo := x - decimalValue k c.1
    let dHi := decimalValue k c.2 - x
    if dLo < dHi then some c.1
    else if dHi < dLo then some c.2
    else if c.1.1 % 2 = 0 then some c.1 else some c.2
  else if okLo then some c.1
  else if okHi then some c.2
  else none

/-- Search for the least number of digits `k`, from `k` upwards and for at most
`fuel` values, for which a `k`-digit decimal converts back to `x`; the result
is `(s, k, n)`. -/
def searchDigits (x : ℚ) (e : ℤ) : Nat → Nat → Option (ℕ × ℕ × ℤ)
  | 0, _ => none
  | fuel + 1, k =>
    match pickDigits x e k with
    | some c => some (c.1, k, c.2)
    | none => searchDigits x e fuel (k + 1)

/-- The integers `s`, `k`, `n` of `Number::toString` for a positive binary64
value `x`: `k` is as small as possible with `s * 10^(n - k)` converting back to
`x`.  Seventeen digits always suffice for a binary64 value; the search runs to
twenty-one. -/
def shortestDigits (x : ℚ) : Option (ℕ × ℕ × ℤ) := searchDigits x (decade x) 21 1

/-- The text `e+d` or `e-d` of an exponent. -/
def exponentText (e : ℤ) : List Char :=
  ['e', if e < 0 then '-' else '+'] ++ natDigits e.natAbs

/-- The steps of `Number::toString` (radix 10) that lay out the digits `s`, their
number `k` and the position `n` of the decimal point. -/
def layoutShortest (s k : ℕ) (n : ℤ) : List Char :=
  let ds := natDigits s
  if -5 ≤ n ∧ n ≤ 21 then
    if (k : ℤ) ≤ n then ds ++ List.replicate (n - k).toNat '0'
    else if 0 < n then ds.take n.toNat ++ ['.'] ++ ds.drop n.toNat
    else ['0', '.'] ++ List.replicate (-n).toNat '0' ++ ds
  else if k = 1 then ds ++ exponentText (n - 1)
  else ds.take 1 ++ ['.'] ++ ds.drop 1 ++ exponentText (n - 1)

/-- The abstract operation `Number::toString(x, 10)`, which `String(x)` and
template literals apply to a Number; `none` if `x` is not a binary64 value. -/
def numberToString : JSNum → Option (List Char)
  | nan => some "NaN".toList
  | inf false => some "Infinity".toList
  | inf true => some "-Infinity".toList
  | fin q =>
    if q = 0 then some ['0']
    else
      match shortestDigits |q| with
      | some (s, k, n) => some ((if q < 0 then ['-'] else []) ++ layoutShortest s k n)
      | none => none

/-- The method `Number.prototype.toPrecision` on a finite Number `x`, its argument
already converted to an integer `p`: a `RangeError` unless `1 ≤ p ≤ 100`. -/
def toPrecision (x : ℚ) (p : ℤ) : Outcome (List Char) :=
  if p < 1 ∨ 100 < p then Outcome.threw
  else
    let sign : List Char := if x < 0 then ['-'] else []
    let a := |x|
    let e0 : ℤ := if a = 0 then 0 else decade a
    let n0 : ℕ := ⌊a / pow10 (e0 - p + 1) + 1 / 2⌋.toNat
    let n : ℕ := if n0 = 10 ^ p.toNat then 10 ^ (p.toNat - 1) else n0
    let e : ℤ := if n0 = 10 ^ p.toNat then e0 + 1 else e0
    let m : List Char := if a = 0 then List.replicate p.toNat '0' else natDigits n
    if e < -6 ∨ p ≤ e then
      Outcome.ok (sign ++ (if p = 1 then m else m.take 1 ++ ['.'] ++ m.drop 1) ++ exponentText e)
    else if e = p - 1 then Outcome.ok (sign ++ m)
    else if 0 ≤ e then
      Outcome.ok (sign ++ m.take (e + 1).toNat ++ ['.'] ++ m.drop (e + 1).toNat)
    else Outcome.ok (sign ++ ['0', '.'] ++ List.replicate (-(e + 1)).toNat '0' ++ m)

/-- The integers `n` and `e` of `Number.prototype.toPrecision` for a positive
value `a` and `p` significant digits: `10^(p-1) ≤ n < 10^p`, and `n * 10^(e-p+1)`
is as close to `a` as possible, the larger `n` on a tie. -/
def precisionDigits (a : ℚ) (p : ℤ) : ℕ × ℤ :=
  let e0 : ℤ := decade a
  let n0 : ℕ := ⌊a / pow10 (e0 - p + 1) + 1 / 2⌋.toNat
  if n0 = 10 ^ p.toNat then (10 ^ (p.toNat - 1), e0 + 1) else (n0, e0)

/-- The steps of `Number.prototype.toPrecision` that lay out the sign, the
digits `n` and the exponent `e` of a non-zero value. -/
def precisionLayout (negative : Bool) (n : ℕ) (e p : ℤ) : List Char :=
  let sign : List Char := if negative then ['-'] else []
  let m : List Char := natDigits n
  if e < -6 ∨ p ≤ e then
    sign ++ (if p = 1 then m else m.take 1 ++ ['.'] ++ m.drop 1) ++ exponentText e
  else if e = p - 1 then sign ++ m
  else if 0 ≤ e then sign ++ m.take (e + 1).toNat ++ ['.'] ++ m.drop (e + 1).toNat
  else sign ++ ['0', '.'] ++ List.replicate (-(e + 1)).toNat '0' ++ m

end JSNum

namespace Calculator

/-! ## `factorial` -/

/-- The loop `for (let i = 2; i <= n; i++) r *= i` of `factorial`, run for at
most `fuel` tests of its condition; `none` when the loop is still running. -/
def factorialLoop : Nat → JSNum → JSNum → JSNum → Option JSNum
  | 0, _, _, _ => none
  | fuel + 1, n, i, r =>
    if JSNum.le i n then factorialLoop fuel n (JSNum.add i (JSNum.fin 1)) (JSNum.mul r i)
    else some r

/-- The function `factorial(n)` of calculator.js on a Number operand; `none`
when its loop has not finished within `fuel` tests of its condition. -/
def factorial (fuel : Nat) (x : JSNum) : Option JSNum :=
  let n := JSNum.floor x
  if JSNum.lt n (JSNum.fin 0) then some JSNum.nan
  else if JSNum.strictEq n (JSNum.fin 0) || JSNum.strictEq n (JSNum.fin 1) then some (JSNum.fin 1)
  else factorialLoop fuel n (JSNum.fin 2) (JSNum.fin 1)

/-! ## Values -/

/-- The functions of the evaluation namespace. -/
inductive Builtin where
  | sin | cos | tan | asin | acos | atan | log10 | ln | sqrt | exp | abs | fact | pow
  deriving DecidableEq

/-- The ECMAScript values the embedded fragment computes with. -/
inductive Value where
  | num (x : JSNum)
  | str (s : List Char)
  | undefined
  | fn (b : Builtin)
  deriving DecidableEq

/-- The conversion `String(v)`; the source text that `String` yields for a
function value is outside the fragment. -/
def toStringValue : Value → Option (List Char)
  | Value.num x => JSNum.numberToString x
  | Value.str s => some s
  | Value.undefined => some "undefined".toList
  | Value.fn _ => none

/-! ## `formatResult` -/

/-- The class `\d` of the regular expressions. -/
def isDigit (c : Char) : Bool := decide ('0' ≤ c ∧ c ≤ '9')

/-- White space that `parseInt` skips at the start of its input. -/
def isWhiteSpace (c : Char) : Bool :=
  c.toNat ∈ [0x09, 0x0A, 0x0B, 0x0C, 0x0D, 0x20, 0xA0, 0x1680, 0x2028, 0x2029, 0x202F, 0x205F,
    0x3000, 0xFEFF] || decide (0x2000 ≤ c.toNat ∧ c.toNat ≤ 0x200A)

/-- The value of a string of decimal digits. -/
def digitsValue (ds : List Char) : ℕ :=
  ds.foldl (fun acc c => 10 * acc + (c.toNat - 48)) 0

/-- The call `parseInt(s, 10)`: leading white space and a sign are skipped and
the longest prefix of digits is read; `none` stands for NaN. -/
def parseInt10 (s : List Char) : Option ℤ :=
  let s1 := s.dropWhile isWhiteSpace
  let neg := s1.head? = some '-'
  let s2 := if s1.head? = some '-' ∨ s1.head? = some '+' then s1.drop 1 else s1
  let ds := s2.takeWhile isDigit
  if ds = [] then none
  else some (if neg then -(digitsValue ds : ℤ) else (digitsValue ds : ℤ))

/-- The lazy part `(\.\d+?)0+$` of the trailing-zero pattern after its first
digit: `taken` is the text of the group so far; one more digit is taken only
when what follows is not a non-empty run of zeros up to the end. -/
def lazyDigits : List Char → List Char → Option (List Char)
  | _, [] => none
  | taken, c :: cs =>
    if (c :: cs).all (fun d => d = '0') then some taken
    else if isDigit c then lazyDigits (taken ++ [c]) cs
    else none

/-- A match of `(?:\.0+|(\.\d+?)0+)$` starting at the head of the text: the value
of the group `$1` (empty when the first alternative matched). -/
def matchTrailingZeros : List Char → Option (List Char)
  | '.' :: c :: cs =>
    if (c :: cs).all (fun d => d = '0') then some []
    else if isDigit c then lazyDigits ['.', c] cs
    else none
  | _ => none

/-- The call `s.replace(/(?:\.0+|(\.\d+?)0+)$/, '$1')`: the leftmost match, which
reaches the end of the text, is replaced by its group. -/
def stripTrailingZeros : List Char → List Char
  | [] => []
  | c :: cs =>
    match matchTrailingZeros (c :: cs) with
    | some g => g
    | none => c :: stripTrailingZeros cs

/-- The statement `if (s.indexOf('.') !== -1) s = s.replace(...)` of
`formatResult`. -/
def trimFraction (s : List Char) : List Char :=
  if '.' ∈ s then stripTrailingZeros s else s

/-- A list of characters without its maximal run of trailing zeros (used to
state what `stripTrailingZeros` computes). -/
def dropZeros : List Char → List Char
  | [] => []
  | c :: cs => if (c :: cs).all (fun d => d = '0') then [] else c :: dropZeros cs

/-- The test `Math.abs(Math.round(v) - v) < 1e-12` of `formatResult`. -/
def nearInteger (x : JSNum) : Bool :=
  JSNum.lt (JSNum.abs (JSNum.sub (JSNum.round x) x)) (JSNum.lit (1 / 10 ^ 12))

/-- The function `formatResult(v)` of calculator.js; `precision` is the value of
the precision selector, `precisionEl.value`. -/
def formatResult (precision : List Char) (v : Value) : Outcome (List Char) :=
  match v with
  | Value.num (JSNum.fin q) =>
    let sig := parseInt10 (if precision = [] then "12".toList else precision)
    if nearInteger (JSNum.fin q) then
      Outcome.ofOption (JSNum.numberToString (JSNum.round (JSNum.fin q)))
    else
      (JSNum.toPrecision q (sig.getD 0)).bind fun s => Outcome.ok (trimFraction s)
  | v => Outcome.ofOption (toStringValue v)

/-! ## The rewrite pass of `evaluateExpression` -/

/-- The class `\w` of the regular expressions. -/
def isWordChar (c : Char) : Bool := c.isAlphanum || c = '_'

/-- Whether there is a word character just before the current position. -/
def wordBefore : Option Char → Bool
  | some c => isWordChar c
  | none => false

/-- Whether the text at the current position starts with a word character. -/
def wordAhead : List Char → Bool
  | c :: _ => isWordChar c
  | [] => false

/-- The last character a match has consumed, given the text at its start and
the text left after it. -/
def lastConsumed (s rest : List Char) : Option Char :=
  (s.take (s.length - rest.length)).getLast?

/-- The call `s.replace(/re/g, ...)` for a pattern that matches no empty text:
the text is scanned from the left; where `m` (given the character before the
position and the text from it) finds a match it yields the replacement and the
text after the match, and the scan goes on after the match. -/
def replaceAll (m : Option Char → List Char → Option (List Char × List Char)) :
    Nat → Option Char → List Char → List Char
  | 0, _, s => s
  | _ + 1, _, [] => []
  | f + 1, prev, c :: cs =>
    match m prev (c :: cs) with
    | some (out, rest) => out ++ replaceAll m f (lastConsumed (c :: cs) rest) rest
    | none => c :: replaceAll m f (some c) cs

/-- A global replacement over a whole text. -/
def replaceGlobal (m : Option Char → List Char → Option (List Char × List Char))
    (s : List Char) : List Char :=
  replaceAll m (s.length + 1) none s

/-- Matcher of a single glyph, replaced by `rep`. -/
def matchGlyph (g : Char) (rep : List Char) (_ : Option Char) :
    List Char → Option (List Char × List Char)
  | c :: cs => if c = g then some (rep, cs) else none
  | [] => none

/-- Matcher of `/\be\b/`, replaced by `E`. -/
def matchStandaloneE (prev : Option Char) : List Char → Option (List Char × List Char)
  | c :: cs => if c = 'e' ∧ wordBefore prev = false ∧ wordAhead cs = false then some (['E'], cs)
    else none
  | [] => none

/-- Matcher of `/(\d+(\.\d+)?)%/`, replaced by `($1/100)`: a maximal run of
digits, then either a point with a maximal non-empty run of digits and the
percent sign, or the percent sign at once. -/
def matchPercent (_ : Option Char) (s : List Char) : Option (List Char × List Char) :=
  let ds := s.takeWhile isDigit
  if ds = [] then none
  else
    match s.dropWhile isDigit with
    | '%' :: r => some (['('] ++ ds ++ "/100)".toList, r)
    | '.' :: r2 =>
      match r2.takeWhile isDigit, r2.dropWhile isDigit with
      | f :: fs, '%' :: r => some (['('] ++ ds ++ ['.'] ++ (f :: fs) ++ "/100)".toList, r)
      | _, _ => none
    | _ => none

/-- Matcher of `/([0-9.]+|\([^\)]+\))!/`, replaced by `fact($1)`: a maximal run of
digits and points followed by `!`, or else a parenthesis, a maximal non-empty
run of characters other than `)`, then `)!`. -/
def matchFactorial (_ : Option Char) (s : List Char) : Option (List Char × List Char) :=
  let isNumChar : Char → Bool := fun c => isDigit c || c = '.'
  match s.takeWhile isNumChar, s.dropWhile isNumChar with
  | d :: ds, '!' :: r => some ("fact(".toList ++ (d :: ds) ++ [')'], r)
  | _, _ =>
    match s with
    | '(' :: t =>
      match t.takeWhile (fun c => c != ')'), t.dropWhile (fun c => c != ')') with
      | x :: xs, ')' :: '!' :: r => some ("fact(".toList ++ ['('] ++ (x :: xs) ++ [')', ')'], r)
      | _, _ => none
    | _ => none

/-- Matcher of `/\bWORD/` for a literal text, replaced by `rep`. -/
def matchWord (word rep : List Char) (prev : Option Char) (s : List Char) :
    Option (List Char × List Char) :=
  if wordBefore prev = false ∧ word.isPrefixOf s then some (rep, s.drop word.length) else none

/-- The rewrite pass of `evaluateExpression`, in the order of the source. -/
def rewrite (inputExpr : List Char) : List Char :=
  let e1 := replaceGlobal (matchGlyph '×' ['*']) inputExpr
  let e2 := replaceGlobal (matchGlyph '÷' ['/']) e1
  let e3 := replaceGlobal (matchGlyph 'π' ['P', 'I']) e2
  let e4 := replaceGlobal matchStandaloneE e3
  let e5 := replaceGlobal matchPercent e4
  let e6 := replaceGlobal matchFactorial e5
  let e7 := replaceGlobal (matchGlyph '^' ['*', '*']) e6
  let e8 := replaceGlobal (matchWord "log(".toList "log10(".toList) e7
  replaceGlobal (matchWord "ln(".toList "ln(".toList) e8

/-! ## The expression fragment evaluated by `new Function`

`evaluateExpression` hands the rewritten text to the engine as the body
`"use strict"; return (` + text + `);` of a function whose parameters are the
names of the evaluation namespace.  The fragment embedded here is: decimal
literals, identifiers, parentheses, calls, unary and binary `+ - * / %`, `**`
and the comma operator.  A text with any other character or word is outside
the fragment (`Outcome.undef`); inside it, a `SyntaxError`, `ReferenceError` or
`TypeError` of the engine is `Outcome.threw`. -/

/-- Tokens of the fragment. -/
inductive Token where
  | num (q : ℚ)
  | ident (name : List Char)
  | lparen | rparen | comma | plus | minus | star | slash | percent | starstar | dot
  deriving DecidableEq

/-- Expressions of the fragment. -/
inductive Expr where
  | num (q : ℚ)
  | ident (name : List Char)
  | unary (negate : Bool) (e : Expr)
  | binary (op : Token) (l r : Expr)
  | comma (l r : Expr)
  | call (callee : Expr) (args : List Expr)

/-- First character of an identifier (ASCII). -/
def isIdentStart (c : Char) : Bool := c.isAlpha || c = '_' || c = '$'

/-- Further characters of an identifier (ASCII). -/
def isIdentPart (c : Char) : Bool := c.isAlphanum || c = '_' || c = '$'

/-- Words that are not plain identifier references in strict function code. -/
def specialWords : List String :=
  ["break", "case", "catch", "class", "const", "continue", "debugger", "default", "delete",
   "do", "else", "enum", "export", "extends", "false", "finally", "for", "function", "if",
   "import", "in", "instanceof", "new", "null", "return", "super", "switch", "this", "throw",
   "true", "try", "typeof", "var", "void", "while", "with", "yield", "let", "static",
   "implements", "interface", "package", "private", "protected", "public", "await", "async",
   "arguments", "eval"]

/-- The mathematical value of a decimal literal with integer digits `ds`,
fraction digits `fs` and exponent `ex`. -/
def decimalLiteralValue (ds fs : List Char) (ex : ℤ) : ℚ :=
  (digitsValue (ds ++ fs) : ℚ) * JSNum.pow10 (ex - fs.length)

/-- End of a numeric literal: a letter, `_` or `$` right after it (a BigInt
suffix, a radix prefix, a separator, or an error) is outside the fragment. -/
def finishNumber (ds fs : List Char) (ex : ℤ) (rest : List Char) : Outcome (ℚ × List Char) :=
  if wordAhead rest ∨ rest.head? = some '$' then Outcome.undef
  else Outcome.ok (decimalLiteralValue ds fs ex, rest)

/-- A decimal literal at the head of the text, which starts with a digit or
with a point and a digit.  In strict code a literal of several digits that
starts with `0` is a `SyntaxError`, as is an exponent without digits. -/
def lexNumber (s : List Char) : Outcome (ℚ × List Char) :=
  let ds := s.takeWhile isDigit
  let r1 := s.dropWhile isDigit
  if 1 < ds.length ∧ ds.head? = some '0' then Outcome.threw
  else
    let fs := match r1 with
      | '.' :: r => r.takeWhile isDigit
      | _ => []
    let r2 := match r1 with
      | '.' :: r => r.dropWhile isDigit
      | _ => r1
    match r2 with
    | c :: r3 =>
      if c = 'e' ∨ c = 'E' then
        let negative := r3.head? = some '-'
        let r4 := if r3.head? = some '-' ∨ r3.head? = some '+' then r3.drop 1 else r3
        let es := r4.takeWhile isDigit
        if es = [] then Outcome.threw
        else finishNumber ds fs (if negative then -(digitsValue es : ℤ) else digitsValue es)
          (r4.dropWhile isDigit)
      else finishNumber ds fs 0 r2
    | [] => finishNumber ds fs 0 r2

/-- Whether a `/` after this token is a division sign; elsewhere it would open
a regular expression literal. -/
def endsOperand : Option Token → Bool
  | some (Token.num _) => true
  | some (Token.ident _) => true
  | some Token.rparen => true
  | _ => false

/-- The tokens of a text; `prev` is the token before the current position. -/
def lex : Nat → Option Token → List Char → Outcome (List Token)
  | 0, _, _ => Outcome.undef
  | _ + 1, _, [] => Outcome.ok []
  | f + 1, prev, c :: cs =>
    let emit (t : Token) (rest : List Char) : Outcome (List Token) :=
      (lex f (some t) rest).bind fun ts => Outcome.ok (t :: ts)
    if c = ' ' ∨ c = '\t' then lex f prev cs
    else if isDigit c ∨ (c = '.' ∧ (cs.head?.map isDigit) = some true) then
      (lexNumber (c :: cs)).bind fun r =>
        if r.2.length < (c :: cs).length then emit (Token.num r.1) r.2 else Outcome.undef
    else if isIdentStart c then
      let name := c :: cs.takeWhile isIdentPart
      if String.mk name ∈ specialWords then Outcome.undef
      else emit (Token.ident name) (cs.dropWhile isIdentPart)
    else if c = '(' then emit Token.lparen cs
    else if c = ')' then emit Token.rparen cs
    else if c = ',' then emit Token.comma cs
    else if c = '.' then (if cs.head? = some '.' then Outcome.undef else emit Token.dot cs)
    else if c = '%' then emit Token.percent cs
    else if c = '+' then (if cs.head? = some '+' then Outcome.undef else emit Token.plus cs)
    else if c = '-' then (if cs.head? = some '-' then Outcome.undef else emit Token.minus cs)
    else if c = '*' then
      (if cs.head? = some '*' then emit Token.starstar (cs.drop 1) else emit Token.star cs)
    else if c = '/' then
      (if cs.head? = some '/' ∨ cs.head? = some '*' ∨ endsOperand prev = false then Outcome.undef
       else emit Token.slash cs)
    else Outcome.undef

mutual

/-- Expression: assignment-level expressions separated by the comma operator. -/
def parseExpression : Nat → List Token → Outcome (Expr × List Token)
  | 0, _ => Outcome.undef
  | f + 1, ts => (parseAdditive f ts).bind fun r => parseCommaRest f r.1 r.2

/-- Rest of a comma expression, `l` being the expression read so far. -/
def parseCommaRest : Nat → Expr → List Token → Outcome (Expr × List Token)
  | 0, _, _ => Outcome.undef
  | f + 1, l, Token.comma :: ts =>
    (parseAdditive f ts).bind fun r => parseCommaRest f (Expr.comma l r.1) r.2
  | _ + 1, l, ts => Outcome.ok (l, ts)

/-- Additive expression. -/
def parseAdditive : Nat → List Token → Outcome (Expr × List Token)
  | 0, _ => Outcome.undef
  | f + 1, ts => (parseMultiplicative f ts).bind fun r => parseAdditiveRest f r.1 r.2

/-- Rest of an additive expression (left associative). -/
def parseAdditiveRest : Nat → Expr → List Token → Outcome (Expr × List Token)
  | 0, _, _ => Outcome.undef
  | f + 1, l, Token.plus :: ts =>
    (parseMultiplicative f ts).bind fun r => parseAdditiveRest f (Expr.binary Token.plus l r.1) r.2
  | f + 1, l, Token.minus :: ts =>
    (parseMultiplicative f ts).bind fun r => parseAdditiveRest f (Expr.binary Token.minus l r.1) r.2
  | _ + 1, l, ts => Outcome.ok (l, ts)

/-- Multiplicative expression. -/
def parseMultiplicative : Nat → List Token → Outcome (Expr × List Token)
  | 0, _ => Outcome.undef
  | f + 1, ts => (parseExponent f ts).bind fun r => parseMultiplicativeRest f r.1 r.2

/-- Rest of a multiplicative expression (left associative). -/
def parseMultiplicativeRest : Nat → Expr → List Token → Outcome (Expr × List Token)
  | 0, _, _ => Outcome.undef
  | f + 1, l, Token.star :: ts =>
    (parseExponent f ts).bind fun r =>
      parseMultiplicativeRest f (Expr.binary Token.star l r.1) r.2
  | f + 1, l, Token.slash :: ts =>
    (parseExponent f ts).bind fun r =>
      parseMultiplicativeRest f (Expr.binary Token.slash l r.1) r.2
  | f + 1, l, Token.percent :: ts =>
    (parseExponent f ts).bind fun r =>
      parseMultiplicativeRest f (Expr.binary Token.percent l r.1) r.2
  | _ + 1, l, ts => Outcome.ok (l, ts)

/-- Exponentiation expression: a unary expression, or a call-level expression
followed by `**` and an exponentiation expression.  A unary operator applied to
the base of `**` is a `SyntaxError`. -/
def parseExponent : Nat → List Token → Outcome (Expr × List Token)
  | 0, _ => Outcome.undef
  | f + 1, Token.plus :: ts =>
    (parseUnary f (Token.plus :: ts)).bind fun r =>
      if r.2.head? = some Token.starstar then Outcome.threw else Outcome.ok r
  | f + 1, Token.minus :: ts =>
    (parseUnary f (Token.minus :: ts)).bind fun r =>
      if r.2.head? = some Token.starstar then Outcome.threw else Outcome.ok r
  | f + 1, ts =>
    (parseCall f ts).bind fun r =>
      match r.2 with
      | Token.starstar :: ts2 =>
        (parseExponent f ts2).bind fun r2 => Outcome.ok (Expr.binary Token.starstar r.1 r2.1, r2.2)
      | _ => Outcome.ok r

/-- Unary expression. -/
def parseUnary : Nat → List Token → Outcome (Expr × List Token)
  | 0, _ => Outcome.undef
  | f + 1, Token.plus :: ts => (parseUnary f ts).bind fun r => Outcome.ok (Expr.unary false r.1, r.2)
  | f + 1, Token.minus :: ts => (parseUnary f ts).bind fun r => Outcome.ok (Expr.unary true r.1, r.2)
  | f + 1, ts => parseCall f ts

/-- Call-level expression: a primary expression followed by argument lists. -/
def parseCall : Nat → List Token → Outcome (Expr × List Token)
  | 0, _ => Outcome.undef
  | f + 1, ts => (parsePrimary f ts).bind fun r => parseCallRest f r.1 r.2

/-- Argument lists after a call-level expression; a member access is outside
the fragment. -/
def parseCallRest : Nat → Expr → List Token → Outcome (Expr × List Token)
  | 0, _, _ => Outcome.undef
  | f + 1, c, Token.lparen :: Token.rparen :: ts => parseCallRest f (Expr.call c []) ts
  | f + 1, c, Token.lparen :: ts =>
    (parseArguments f ts).bind fun r => parseCallRest f (Expr.call c r.1) r.2
  | _ + 1, _, Token.dot :: _ => Outcome.undef
  | _ + 1, c, ts => Outcome.ok (c, ts)

/-- A non-empty argument list up to and including its closing parenthesis. -/
def parseArguments : Nat → List Token → Outcome (List Expr × List Token)
  | 0, _ => Outcome.undef
  | f + 1, ts =>
    (parseAdditive f ts).bind fun r =>
      match r.2 with
      | Token.rparen :: ts2 => Outcome.ok ([r.1], ts2)
      | Token.comma :: Token.rparen :: ts2 => Outcome.ok ([r.1], ts2)
      | Token.comma :: ts2 =>
        (parseArguments f ts2).bind fun r2 => Outcome.ok (r.1 :: r2.1, r2.2)
      | [] => Outcome.threw
      | _ => Outcome.threw

/-- Primary expression: a literal, an identifier or a parenthesised expression. -/
def parsePrimary : Nat → List Token → Outcome (Expr × List Token)
  | 0, _ => Outcome.undef
  | _ + 1, Token.num q :: ts => Outcome.ok (Expr.num q, ts)
  | _ + 1, Token.ident n :: ts => Outcome.ok (Expr.ident n, ts)
  | f + 1, Token.lparen :: ts =>
    (parseExpression f ts).bind fun r =>
      match r.2 with
      | Token.rparen :: ts2 => Outcome.ok (r.1, ts2)
      | _ => Outcome.threw
  | _ + 1, _ => Outcome.threw

end

/-! ## Evaluation -/

/-- The value `Math.PI`. -/
def mathPI : ℚ := 884279719003555 / 281474976710656

/-- The value `Math.E`. -/
def mathE : ℚ := 6121026514868073 / 2251799813685248

/-- The evaluation namespace: the keys of `context` in `evaluateExpression`,
which become the parameters of the constructed function. -/
def context (name : List Char) : Option Value :=
  match String.mk name with
  | "sin" => some (Value.fn Builtin.sin)
  | "cos" => some (Value.fn Builtin.cos)
  | "tan" => some (Value.fn Builtin.tan)
  | "asin" => some (Value.fn Builtin.asin)
  | "acos" => some (Value.fn Builtin.acos)
  | "atan" => some (Value.fn Builtin.atan)
  | "log10" => some (Value.fn Builtin.log10)
  | "ln" => some (Value.fn Builtin.ln)
  | "sqrt" => some (Value.fn Builtin.sqrt)
  | "exp" => some (Value.fn Builtin.exp)
  | "abs" => some (Value.fn Builtin.abs)
  | "fact" => some (Value.fn Builtin.fact)
  | "pow" => some (Value.fn Builtin.pow)
  | "PI" => some (Value.num (JSNum.fin mathPI))
  | "E" => some (Value.num (JSNum.fin mathE))
  | _ => none

/-- The value properties of the global object that every ECMAScript
environment has. -/
def standardGlobals (name : List Char) : Option Value :=
  match String.mk name with
  | "Infinity" => some (Value.num (JSNum.inf false))
  | "NaN" => some (Value.num JSNum.nan)
  | "undefined" => some Value.undefined
  | _ => none

/-- Resolution of an identifier in the constructed function: its parameters
first, then the global scope; an unresolvable reference is a `ReferenceError`. -/
def resolve (globals : List Char → Option Value) (name : List Char) : Outcome Value :=
  match context name with
  | some v => Outcome.ok v
  | none =>
    match globals name with
    | some v => Outcome.ok v
    | none => Outcome.threw

/-- The conversion `ToNumber` where the fragment needs it. -/
def toNumber : Value → Option JSNum
  | Value.num x => some x
  | Value.undefined => some JSNum.nan
  | Value.fn _ => some JSNum.nan
  | Value.str _ => none

/-- The operator `/` on Numbers.  A non-zero value divided by a zero has the
sign of that zero, which the model does not record: `none`. -/
def divide : JSNum → JSNum → Option JSNum
  | JSNum.fin a, JSNum.fin b =>
    if b = 0 then (if a = 0 then some JSNum.nan else none) else some (JSNum.roundDouble (a / b))
  | JSNum.fin _, JSNum.inf _ => some (JSNum.fin 0)
  | JSNum.inf n, JSNum.fin b => if b = 0 then none else some (JSNum.inf (xor n (decide (b < 0))))
  | _, _ => some JSNum.nan

/-- The operator `%` on Numbers: the remainder of the truncating division,
which is exact. -/
def remainder : JSNum → JSNum → JSNum
  | JSNum.fin a, JSNum.fin b =>
    if b = 0 then JSNum.nan
    else JSNum.fin (a - b * ((if 0 ≤ a / b then ⌊a / b⌋ else ⌈a / b⌉ : ℤ) : ℚ))
  | JSNum.fin a, JSNum.inf _ => JSNum.fin a
  | _, _ => JSNum.nan

/-- A binary operator on two values; operands that are not Numbers, and the
operator `**`, are outside the fragment. -/
def applyBinary (op : Token) : Value → Value → Outcome Value
  | Value.num a, Value.num b =>
    match op with
    | Token.plus => Outcome.ok (Value.num (JSNum.add a b))
    | Token.minus => Outcome.ok (Value.num (JSNum.sub a b))
    | Token.star => Outcome.ok (Value.num (JSNum.mul a b))
    | Token.slash => Outcome.ofOption ((divide a b).map Value.num)
    | Token.percent => Outcome.ok (Value.num (remainder a b))
    | _ => Outcome.undef
  | _, _ => Outcome.undef

/-- A call of a function of the namespace.  Only `fact` and `abs` are exact;
the others are approximated by the engine and outside the fragment. -/
def applyBuiltin (fuel : Nat) (b : Builtin) (args : List Value) : Outcome Value :=
  match b, toNumber (args.headD Value.undefined) with
  | Builtin.fact, some x => Outcome.ofOption ((factorial fuel x).map Value.num)
  | Builtin.abs, some x => Outcome.ok (Value.num (JSNum.abs x))
  | _, _ => Outcome.undef

/-- Evaluation of a list of arguments from left to right. -/
def mapOutcome {α β : Type} (f : α → Outcome β) : List α → Outcome (List β)
  | [] => Outcome.ok []
  | a :: as => (f a).bind fun b => (mapOutcome f as).bind fun bs => Outcome.ok (b :: bs)

/-- Evaluation of an expression; `fuel` bounds the depth of the expression and
the number of iterations of a `fact` loop. -/
def eval (globals : List Char → Option Value) : Nat → Expr → Outcome Value
  | 0, _ => Outcome.undef
  | _ + 1, Expr.num q => Outcome.ok (Value.num (JSNum.roundDouble q))
  | _ + 1, Expr.ident n => resolve globals n
  | f + 1, Expr.unary negate e =>
    (eval globals f e).bind fun v =>
      match v with
      | Value.num x => Outcome.ok (Value.num (if negate then JSNum.neg x else x))
      | _ => Outcome.undef
  | f + 1, Expr.binary op l r =>
    (eval globals f l).bind fun a => (eval globals f r).bind fun b => applyBinary op a b
  | f + 1, Expr.comma l r => (eval globals f l).bind fun _ => eval globals f r
  | f + 1, Expr.call c args =>
    (eval globals f c).bind fun fv =>
      (mapOutcome (eval globals f) args).bind fun vs =>
        match fv with
        | Value.fn b => applyBuiltin f b vs
        | _ => Outcome.threw

/-- The construction and call of the function with body
`"use strict"; return (` + text + `);`: the expression between `return` and the
final `;` is parsed and evaluated; tokens left over are a `SyntaxError`. -/
def runFunction (globals : List Char → Option Value) (fuel : Nat) (text : List Char) :
    Outcome Value :=
  let body := ['('] ++ text ++ [')']
  (lex (body.length + 1) none body).bind fun ts =>
    (parseExpression (10 * ts.length + 10) ts).bind fun r =>
      match r.2 with
      | [] => eval globals fuel r.1
      | _ => Outcome.threw

/-- The function `evaluateExpression(inputExpr)` of calculator.js: the empty
input yields the empty string; any exception of the constructed function is
caught and NaN returned. -/
def evaluateExpression (globals : List Char → Option Value) (fuel : Nat)
    (inputExpr : List Char) : Outcome Value :=
  if inputExpr = [] then Outcome.ok (Value.str [])
  else
    match runFunction globals fuel (rewrite inputExpr) with
    | Outcome.ok raw => Outcome.ok raw
    | Outcome.threw => Outcome.ok (Value.num JSNum.nan)
    | Outcome.undef => Outcome.undef

/-! ## The `=` branch of the click handler -/

/-- The state the click handler reads and writes: the input buffer, the last
result, the display and the expression line. -/
structure CalcState where
  currentInput : List Char
  lastResult : List Char
  display : List Char
  exprText : List Char
  deriving DecidableEq

/-- The branch `value === '='` of the click handler; `precision` is the value of
the precision selector. -/
def pressEquals (globals : List Char → Option Value) (precision : List Char) (fuel : Nat)
    (st : CalcState) : Outcome CalcState :=
  match (evaluateExpression globals fuel st.currentInput).bind (formatResult precision) with
  | Outcome.ok formatted =>
    Outcome.ok { currentInput := formatted, lastResult := formatted, display := formatted,
                 exprText := st.currentInput ++ " =".toList }
  | Outcome.threw =>
    Outcome.ok { currentInput := [], lastResult := st.lastResult, display := "Error".toList,
                 exprText := [] }
  | Outcome.undef => Outcome.undef

/-! ## Angle-mode wrappers -/

/-- The functions and the constant of `Math` that the wrappers use, over a
number type `α`. -/
structure MathFns (α : Type) where
  sin : α → α
  cos : α → α
  tan : α → α
  asin : α → α
  acos : α → α
  atan : α → α
  PI : α

section Wrappers

variable {α : Type} [Mul α] [Div α] [OfNat α 180]

/-- The function `toRadians(x)`: `x * Math.PI / 180`. -/
def toRadians (M : MathFns α) (x : α) : α := x * M.PI / 180

/-- The function `fromRadians(x)`: `x * 180 / Math.PI`. -/
def fromRadians (M : MathFns α) (x : α) : α := x * 180 / M.PI

/-- The wrapper `sin_w`; `angleMode` is `angleModeEl.value`. -/
def sin_w (M : MathFns α) (angleMode : String) (x : α) : α :=
  if angleMode = "DEG" then M.sin (toRadians M x) else M.sin x

/-- The wrapper `cos_w`. -/
def cos_w (M : MathFns α) (angleMode : String) (x : α) : α :=
  if angleMode = "DEG" then M.cos (toRadians M x) else M.cos x

/-- The wrapper `tan_w`. -/
def tan_w (M : MathFns α) (angleMode : String) (x : α) : α :=
  if angleMode = "DEG" then M.tan (toRadians M x) else M.tan x

/-- The wrapper `asin_w`. -/
def asin_w (M : MathFns α) (angleMode : String) (x : α) : α :=
  let v := M.asin x
  if angleMode = "DEG" then fromRadians M v else v

/-- The wrapper `acos_w`. -/
def acos_w (M : MathFns α) (angleMode : String) (x : α) : α :=
  let v := M.acos x
  if angleMode = "DEG" then fromRadians M v else v

/-- The wrapper `atan_w`. -/
def atan_w (M : MathFns α) (angleMode : String) (x : α) : α :=
  let v := M.atan x
  if angleMode = "DEG" then fromRadians M v else v

end Wrappers

end Calculator

namespace Weather

/-! ## `displayWeather` -/

/-- The fields of the response body that `displayWeather` reads: `name`,
`sys.country`, `main.temp`, `main.humidity`, `wind.speed`,
`weather[0].description` and `weather[0].icon`. -/
structure WeatherData where
  name : List Char
  country : List Char
  temp : JSNum
  humidity : JSNum
  windSpeed : JSNum
  description : List Char
  icon : List Char

/-- The elements `displayWeather` writes: the text of the location, temperature,
description, humidity and wind-speed fields and the source of the icon. -/
structure WeatherView where
  locationName : List Char
  temperature : List Char
  description : List Char
  humidity : List Char
  windSpeed : List Char
  iconSrc : List Char
  deriving DecidableEq

/-- The two characters U+00C2 U+00B0 that follow the temperature in the template
literal of weather.js (bytes `c3 82 c2 b0` of the source file). -/
def temperatureSuffix : List Char := [Char.ofNat 0xC2, Char.ofNat 0xB0]

/-- The function `displayWeather(data)` of weather.js; `none` when a Number of
the record is not a binary64 value. -/
def displayWeather (data : WeatherData) : Option WeatherView :=
  match JSNum.numberToString (JSNum.round data.temp), JSNum.numberToString data.humidity,
      JSNum.numberToString data.windSpeed with
  | some t, some h, some w =>
    some
      { locationName := data.name ++ ", ".toList ++ data.country
        temperature := t ++ temperatureSuffix
        description := data.description
        humidity := h ++ ['%']
        windSpeed := w ++ " km/h".toList
        iconSrc := "http://openweathermap.org/img/wn/".toList ++ data.icon ++ "@2x.png".toList }
  | _, _, _ => none

/-- The mock response of the specification: Paris, FR, 18.4 degrees. -/
def parisRecord : WeatherData :=
  { name := "Paris".toList
    country := "FR".toList
    temp := JSNum.lit (184 / 10)
    humidity := JSNum.lit 60
    windSpeed := JSNum.lit (32 / 10)
    description := "clear sky".toList
    icon := "01d".toList }

end Weather

/-! # Theorems -/

/-! ## Rounding to binary64 and decimal numerals -/

namespace JSNum

theorem powInt_eq (b : ℕ) (e : ℤ) : powInt b e = (b : ℚ) ^ e := by
  unfold powInt
  split_ifs with h
  · lift e to ℕ using h
    simp
  · push_neg at h
    have : e = -((-e).toNat : ℤ) := by omega
    rw [Nat.cast_pow]
    conv_rhs => rw [this]
    rw [zpow_neg, zpow_natCast]
    simp

theorem pow2_eq (e : ℤ) : pow2 e = (2 : ℚ) ^ e := by
  simpa using powInt_eq 2 e

theorem pow10_eq (e : ℤ) : pow10 e = (10 : ℚ) ^ e := by
  simpa using powInt_eq 10 e

theorem logFuel_spec (b : ℕ) (hb : 2 ≤ b) : ∀ (f n : ℕ), 0 < n → n ≤ f →
    b ^ logFuel b f n ≤ n ∧ n < b ^ (logFuel b f n + 1) := by
  intro f
  induction f with
  | zero => intro n h0 h; omega
  | succ f ih =>
    intro n h0 h
    unfold logFuel
    split_ifs with hlt
    · simp; omega
    · push_neg at hlt
      have hpos : 0 < n / b := Nat.div_pos hlt (by omega)
      have hle : n / b ≤ f := by
        have : n / b < n := Nat.div_lt_self h0 (by omega)
        omega
      obtain ⟨h1, h2⟩ := ih (n / b) hpos hle
      constructor
      · calc b ^ (logFuel b f (n / b) + 1) = b ^ logFuel b f (n / b) * b := by ring
          _ ≤ (n / b) * b := Nat.mul_le_mul_right _ h1
          _ ≤ n := Nat.div_mul_le_self n b
      · have : n / b + 1 ≤ b ^ (logFuel b f (n / b) + 1) := h2
        calc n < (n / b + 1) * b := by
              have := Nat.lt_succ_iff.mpr (le_refl (n / b))
              exact (Nat.div_lt_iff_lt_mul (by omega)).mp (by omega)
          _ ≤ b ^ (logFuel b f (n / b) + 1) * b := Nat.mul_le_mul_right _ this
          _ = b ^ (logFuel b f (n / b) + 1 + 1) := by ring

theorem natLog_spec (b : ℕ) (hb : 2 ≤ b) (n : ℕ) (h0 : 0 < n) :
    b ^ natLog b n ≤ n ∧ n < b ^ (natLog b n + 1) :=
  logFuel_spec b hb n n h0 le_rfl

theorem floorLog_spec (b : ℕ) (hb : 2 ≤ b) (q : ℚ) (hq : 0 < q) :
    (b : ℚ) ^ floorLog b q ≤ q ∧ q < (b : ℚ) ^ (floorLog b q + 1) := by
  have hb0 : (0 : ℚ) < b := by exact_mod_cast (by omega : 0 < b)
  have hb1 : (1 : ℚ) < b := by exact_mod_cast (by omega : 1 < b)
  have hnum : 0 < q.num := Rat.num_pos.mpr hq
  have hden : 0 < q.den := q.den_pos
  obtain ⟨n1, n2⟩ := natLog_spec b hb q.num.natAbs (by omega)
  obtain ⟨d1, d2⟩ := natLog_spec b hb q.den hden
  set a := natLog b q.num.natAbs with ha
  set d := natLog b q.den with hd
  have hqn : q = (q.num.natAbs : ℚ) / (q.den : ℚ) := by
    have : ((q.num.natAbs : ℤ) : ℚ) = (q.num : ℚ) := by
      rw [Int.natCast_natAbs, abs_of_pos hnum]
    rw [← Int.cast_natCast, this]
    exact (Rat.num_div_den q).symm
  have hdq : (0 : ℚ) < (q.den : ℚ) := by exact_mod_cast hden
  have n1' : (b : ℚ) ^ a ≤ (q.num.natAbs : ℚ) := by exact_mod_cast n1
  have n2' : (q.num.natAbs : ℚ) < (b : ℚ) ^ (a + 1) := by exact_mod_cast n2
  have d1' : (b : ℚ) ^ d ≤ (q.den : ℚ) := by exact_mod_cast d1
  have d2' : (q.den : ℚ) < (b : ℚ) ^ (d + 1) := by exact_mod_cast d2
  have hbd : (0 : ℚ) < (b : ℚ) ^ d := pow_pos hb0 d
  -- upper bound q < b^(a - d + 1)
  have up : q < (b : ℚ) ^ ((a : ℤ) - d + 1) := by
    have e : (b : ℚ) ^ ((a : ℤ) - d + 1) = (b : ℚ) ^ (a + 1) / (b : ℚ) ^ d := by
      rw [show (a : ℤ) - d + 1 = ((a + 1 : ℕ) : ℤ) - (d : ℤ) by push_cast; ring]
      rw [zpow_sub₀ hb0.ne', zpow_natCast, zpow_natCast]
    rw [e, hqn, div_lt_div_iff₀ hdq hbd]
    calc (q.num.natAbs : ℚ) * (b : ℚ) ^ d < (b : ℚ) ^ (a + 1) * (b : ℚ) ^ d := by
          exact mul_lt_mul_of_pos_right n2' hbd
      _ ≤ (b : ℚ) ^ (a + 1) * (q.den : ℚ) := by
          exact mul_le_mul_of_nonneg_left d1' (pow_pos hb0 _).le
  have lo : (b : ℚ) ^ ((a : ℤ) - d - 1) ≤ q := by
    have e : (b : ℚ) ^ ((a : ℤ) - d - 1) = (b : ℚ) ^ a / (b : ℚ) ^ (d + 1) := by
      rw [show (a : ℤ) - d - 1 = ((a : ℕ) : ℤ) - ((d + 1 : ℕ) : ℤ) by push_cast; ring]
      rw [zpow_sub₀ hb0.ne', zpow_natCast, zpow_natCast]
    rw [e, hqn, div_le_div_iff₀ (pow_pos hb0 _) hdq]
    calc (b : ℚ) ^ a * (q.den : ℚ) ≤ (q.num.natAbs : ℚ) * (q.den : ℚ) :=
          mul_le_mul_of_nonneg_right n1' hdq.le
      _ ≤ (q.num.natAbs : ℚ) * (b : ℚ) ^ (d + 1) :=
          mul_le_mul_of_nonneg_left d2'.le (by positivity)
  unfold floorLog
  simp only [← ha, ← hd]
  rw [powInt_eq]
  split_ifs with h
  · exact ⟨h, up⟩
  · push_neg at h
    refine ⟨lo, ?_⟩
    simpa using h

theorem binade_spec (q : ℚ) (hq : 0 < q) :
    (2 : ℚ) ^ binade q ≤ q ∧ q < (2 : ℚ) ^ (binade q + 1) := by
  simpa [binade] using floorLog_spec 2 le_rfl q hq

theorem decade_spec (q : ℚ) (hq : 0 < q) :
    (10 : ℚ) ^ decade q ≤ q ∧ q < (10 : ℚ) ^ (decade q + 1) := by
  simpa [decade] using floorLog_spec 10 (by norm_num) q hq


theorem roundHalfEven_intCast (k : ℤ) : roundHalfEven (k : ℚ) = k := by
  simp [roundHalfEven]

theorem floor_le_roundHalfEven (q : ℚ) : ⌊q⌋ ≤ roundHalfEven q := by
  unfold roundHalfEven
  dsimp only
  split_ifs <;> omega

theorem roundHalfEven_le (q : ℚ) : roundHalfEven q ≤ ⌊q⌋ + 1 := by
  unfold roundHalfEven
  dsimp only
  split_ifs <;> omega

theorem ulp_pos (a : ℚ) : 0 < ulp a := by
  unfold ulp
  rw [pow2_eq]
  positivity

/-- Exponent of the unit in the last place of a value at least `2^-1022`. -/
theorem ulp_of_binade (a : ℚ) (h : -1022 ≤ binade a) : ulp a = (2 : ℚ) ^ (binade a - 52) := by
  unfold ulp
  rw [pow2_eq, max_eq_left h]

theorem binade_nonneg_of_one_le (a : ℚ) (h : 1 ≤ a) : 0 ≤ binade a := by
  obtain ⟨_, h2⟩ := binade_spec a (by linarith)
  by_contra hneg
  push_neg at hneg
  have : (2 : ℚ) ^ (binade a + 1) ≤ 2 ^ (0 : ℤ) :=
    zpow_le_zpow_right₀ (by norm_num) (by omega)
  simp at this
  linarith

theorem binade_ge (a : ℚ) (k : ℤ) (h : (2 : ℚ) ^ k ≤ a) : k ≤ binade a := by
  have hpos : 0 < a := lt_of_lt_of_le (by positivity) h
  obtain ⟨_, h2⟩ := binade_spec a hpos
  by_contra hneg
  push_neg at hneg
  have : (2 : ℚ) ^ (binade a + 1) ≤ 2 ^ k :=
    zpow_le_zpow_right₀ (by norm_num) (by omega)
  linarith

theorem binade_le (a : ℚ) (k : ℤ) (h0 : 0 < a) (h : a < (2 : ℚ) ^ (k + 1)) : binade a ≤ k := by
  obtain ⟨h1, _⟩ := binade_spec a h0
  by_contra hneg
  push_neg at hneg
  have : (2 : ℚ) ^ (k + 1) ≤ 2 ^ binade a :=
    zpow_le_zpow_right₀ (by norm_num) (by omega)
  linarith

/-- A positive rational that is an integer multiple of its unit in the last
place rounds to itself. -/
theorem roundMagnitude_of_multiple (a : ℚ) (k : ℤ) (h : a = (k : ℚ) * ulp a) :
    roundMagnitude a = a := by
  unfold roundMagnitude
  have hu := ulp_pos a
  have : a / ulp a = (k : ℚ) := by
    rw [div_eq_iff hu.ne']
    exact h
  rw [this, roundHalfEven_intCast]
  exact h.symm

/-- Natural numbers up to `2^53` are binary64 values. -/
theorem roundMagnitude_natCast (c : ℕ) (h0 : 0 < c) (h : c ≤ 2 ^ 53) :
    roundMagnitude (c : ℚ) = c := by
  have hc1 : (1 : ℚ) ≤ c := by exact_mod_cast h0
  have hcpos : (0 : ℚ) < c := by linarith
  have he0 : 0 ≤ binade (c : ℚ) := binade_nonneg_of_one_le _ hc1
  obtain ⟨b1, b2⟩ := binade_spec (c : ℚ) hcpos
  have hu : ulp (c : ℚ) = (2 : ℚ) ^ (binade (c : ℚ) - 52) := ulp_of_binade _ (by omega)
  rcases Nat.lt_or_ge c (2 ^ 53) with hlt | hge
  · have he : binade (c : ℚ) ≤ 52 := by
      apply binade_le _ _ hcpos
      have : (c : ℚ) < ((2 ^ 53 : ℕ) : ℚ) := by exact_mod_cast hlt
      norm_num at this ⊢
      exact this
    obtain ⟨j, hj⟩ : ∃ j : ℕ, (j : ℤ) = 52 - binade (c : ℚ) := ⟨(52 - binade (c : ℚ)).toNat, by omega⟩
    apply roundMagnitude_of_multiple _ ((c * 2 ^ j : ℕ) : ℤ)
    rw [hu, show binade (c : ℚ) - 52 = -(j : ℤ) by omega, zpow_neg, zpow_natCast]
    push_cast
    field_simp
  · have hc : c = 2 ^ 53 := le_antisymm h hge
    have he : binade (c : ℚ) = 53 := by
      apply le_antisymm
      · apply binade_le _ _ hcpos
        rw [hc]; norm_num
      · apply binade_ge
        rw [hc]; norm_num
    apply roundMagnitude_of_multiple _ ((2 ^ 52 : ℕ) : ℤ)
    rw [hu, he, hc]
    norm_num

theorem roundDouble_natCast (c : ℕ) (h : c ≤ 2 ^ 53) : roundDouble (c : ℚ) = fin c := by
  rcases Nat.eq_zero_or_pos c with rfl | h0
  · simp [roundDouble]
  · have hcpos : (0 : ℚ) < c := by exact_mod_cast h0
    unfold roundDouble
    rw [if_neg hcpos.ne', abs_of_pos hcpos, roundMagnitude_natCast c h0 h]
    have : ¬ pow2 1024 ≤ (c : ℚ) := by
      rw [pow2_eq]
      push_neg
      have : (c : ℚ) ≤ 2 ^ 53 := by exact_mod_cast h
      calc (c : ℚ) ≤ 2 ^ 53 := this
        _ < 2 ^ (1024 : ℤ) := by norm_num
    rw [if_neg this, if_neg (by linarith)]

theorem roundDouble_neg (q : ℚ) : roundDouble (-q) = neg (roundDouble q) := by
  unfold roundDouble
  by_cases h0 : q = 0
  · simp [h0, neg]
  · have : -q ≠ 0 := by simpa using h0
    rw [if_neg this, if_neg h0, abs_neg]
    rcases lt_or_gt_of_ne h0 with hneg | hpos
    · have h1 : ¬ (-q < 0) := by linarith
      split_ifs <;> simp_all [neg]
    · have h1 : (-q < 0) := by linarith
      have h2 : ¬ (q < 0) := by linarith
      split_ifs <;> simp_all [neg]

theorem roundDouble_intCast (z : ℤ) (h : |z| ≤ 2 ^ 53) : roundDouble (z : ℚ) = fin z := by
  rcases le_or_lt 0 z with hz | hz
  · lift z to ℕ using hz
    have : z ≤ 2 ^ 53 := by
      rw [abs_of_nonneg (by omega)] at h
      exact_mod_cast h
    simpa using roundDouble_natCast z this
  · obtain ⟨n, rfl⟩ : ∃ n : ℕ, z = -(n : ℤ) := ⟨z.natAbs, by omega⟩
    have : n ≤ 2 ^ 53 := by
      rw [abs_neg, abs_of_nonneg (by omega)] at h
      exact_mod_cast h
    push_cast
    rw [roundDouble_neg, roundDouble_natCast n this]
    simp [neg]

/-- The rounded magnitude of a value is at least the power of two at the start
of its binade. -/
theorem le_roundMagnitude (a : ℚ) (h0 : 0 < a) (h : -1022 ≤ binade a) :
    (2 : ℚ) ^ binade a ≤ roundMagnitude a := by
  obtain ⟨b1, _⟩ := binade_spec a h0
  have hu := ulp_of_binade a h
  have hup := ulp_pos a
  unfold roundMagnitude
  have h52 : (2 : ℚ) ^ (52 : ℤ) ≤ a / ulp a := by
    rw [le_div_iff₀ hup, hu, ← zpow_add₀ (by norm_num)]
    simpa using b1
  have hfl : ((2 ^ 52 : ℕ) : ℤ) ≤ ⌊a / ulp a⌋ := by
    rw [Int.le_floor]
    have := h52
    norm_num at this ⊢
    exact this
  have hr : ((2 ^ 52 : ℕ) : ℤ) ≤ roundHalfEven (a / ulp a) := le_trans hfl (floor_le_roundHalfEven _)
  have hr' : ((2 : ℚ) ^ (52 : ℤ)) ≤ (roundHalfEven (a / ulp a) : ℚ) := by
    have : (((2 ^ 52 : ℕ) : ℤ) : ℚ) ≤ (roundHalfEven (a / ulp a) : ℚ) := by exact_mod_cast hr
    norm_num at this ⊢
    exact this
  calc (2 : ℚ) ^ binade a = 2 ^ (52 : ℤ) * ulp a := by
        rw [hu, ← zpow_add₀ (by norm_num)]; congr 1; ring
    _ ≤ (roundHalfEven (a / ulp a) : ℚ) * ulp a :=
        mul_le_mul_of_nonneg_right hr' hup.le

/-- A natural number that converts to a natural binary64 value below `2^53` is
that value. -/
theorem natCast_eq_of_roundDouble (d m : ℕ) (hm : m < 2 ^ 53)
    (h : roundDouble (d : ℚ) = fin m) : d = m := by
  rcases Nat.lt_or_ge (2 ^ 53) d with hbig | hsmall
  · exfalso
    have hdpos : (0 : ℚ) < d := by exact_mod_cast (by omega : 0 < d)
    have hd53 : (2 : ℚ) ^ (53 : ℤ) ≤ d := by
      have : ((2 ^ 53 : ℕ) : ℚ) ≤ d := by exact_mod_cast hbig.le
      norm_num at this ⊢
      exact this
    have hb : 53 ≤ binade (d : ℚ) := binade_ge _ _ hd53
    have hle := le_roundMagnitude (d : ℚ) hdpos (by omega)
    have h53 : (2 : ℚ) ^ (53 : ℤ) ≤ roundMagnitude (d : ℚ) :=
      le_trans (zpow_le_zpow_right₀ (by norm_num) hb) hle
    unfold roundDouble at h
    rw [if_neg hdpos.ne', abs_of_pos hdpos] at h
    split_ifs at h with h1 h2
    · linarith
    · injection h with h
      have : (m : ℚ) < 2 ^ 53 := by exact_mod_cast hm
      rw [← h] at this
      norm_num at h53
      linarith
  · rw [roundDouble_natCast d hsmall] at h
    injection h with h
    exact_mod_cast h


/-- A binary64 value of magnitude at least `2^52` is an integer. -/
theorem integer_of_large_double (q : ℚ) (hq : roundDouble q = fin q)
    (hbig : (2 : ℚ) ^ (52 : ℤ) ≤ |q|) : ∃ z : ℤ, q = z := by
  have hapos : 0 < |q| := lt_of_lt_of_le (by positivity) hbig
  have hq0 : q ≠ 0 := abs_pos.mp hapos
  have hb : 52 ≤ binade |q| := binade_ge _ _ hbig
  have hu := ulp_of_binade |q| (by omega)
  obtain ⟨j, hj⟩ : ∃ j : ℕ, (j : ℤ) = binade |q| - 52 := ⟨(binade |q| - 52).toNat, by omega⟩
  have hm : roundMagnitude |q| = ((roundHalfEven (|q| / ulp |q|) * 2 ^ j : ℤ) : ℚ) := by
    unfold roundMagnitude
    rw [hu, ← hj, zpow_natCast]
    push_cast
    ring
  unfold roundDouble at hq
  rw [if_neg hq0] at hq
  split_ifs at hq with h1 h2
  · injection hq with hq
    exact ⟨-(roundHalfEven (|q| / ulp |q|) * 2 ^ j), by rw [Int.cast_neg, ← hm]; exact hq.symm⟩
  · injection hq with hq
    exact ⟨roundHalfEven (|q| / ulp |q|) * 2 ^ j, hq.symm.trans hm⟩

/-- `Math.round` of a binary64 value is a binary64 value. -/
theorem roundDouble_round (q : ℚ) (hq : roundDouble q = fin q) :
    roundDouble ((⌊q + 1 / 2⌋ : ℤ) : ℚ) = fin ((⌊q + 1 / 2⌋ : ℤ) : ℚ) := by
  rcases le_or_lt ((2 : ℚ) ^ (52 : ℤ)) |q| with hbig | hsmall
  · obtain ⟨z, rfl⟩ := integer_of_large_double q hq hbig
    have : ⌊(z : ℚ) + 1 / 2⌋ = z := by
      rw [Int.floor_eq_iff]
      constructor <;> norm_num
    rw [this]
    exact hq
  · apply roundDouble_intCast
    have h1 : (⌊q + 1 / 2⌋ : ℚ) ≤ q + 1 / 2 := Int.floor_le _
    have h2 : q + 1 / 2 < (⌊q + 1 / 2⌋ : ℚ) + 1 := Int.lt_floor_add_one _
    have h3 := abs_lt.mp hsmall
    norm_num at h3
    rw [abs_le]
    constructor
    · have : (-(2 ^ 53 : ℤ) : ℚ) ≤ (⌊q + 1 / 2⌋ : ℚ) := by
        push_cast
        linarith [h3.1]
      exact_mod_cast this
    · have : (⌊q + 1 / 2⌋ : ℚ) ≤ ((2 ^ 53 : ℤ) : ℚ) := by
        push_cast
        linarith [h3.2]
      exact_mod_cast this

/-! ### Decimal numerals -/

theorem digitChar_mod (d : ℕ) : digitChar (d % 10) = digitChar d := by
  simp [digitChar]

theorem digitsFuel_eq (f : ℕ) : ∀ n : ℕ, n ≤ f →
    digitsFuel f n = ((Nat.digits 10 n).reverse.map digitChar) := by
  induction f with
  | zero =>
    intro n h
    have : n = 0 := by omega
    subst this
    simp [digitsFuel]
  | succ f ih =>
    intro n h
    unfold digitsFuel
    split_ifs with h0
    · subst h0; simp
    · have hpos : 0 < n := Nat.pos_of_ne_zero h0
      have hlt : n / 10 < n := Nat.div_lt_self hpos (by norm_num)
      rw [ih (n / 10) (by omega), Nat.digits_def' (by norm_num) hpos]
      simp [digitChar_mod]

theorem natDigits_eq (n : ℕ) (h : 0 < n) :
    natDigits n = ((Nat.digits 10 n).reverse.map digitChar) := by
  unfold natDigits
  rw [if_neg (by omega), digitsFuel_eq n n le_rfl]

theorem natDigits_mul_pow (s j : ℕ) (hs : 0 < s) :
    natDigits (s * 10 ^ j) = natDigits s ++ List.replicate j '0' := by
  have hpos : 0 < s * 10 ^ j := Nat.mul_pos hs (by positivity)
  rw [natDigits_eq _ hpos, natDigits_eq _ hs, Nat.mul_comm,
    Nat.digits_base_pow_mul (by norm_num) hs]
  simp [digitChar]

theorem digitChar_isDigit (d : ℕ) : Calculator.isDigit (digitChar d) = true := by
  unfold digitChar
  have h : d % 10 < 10 := Nat.mod_lt _ (by norm_num)
  generalize d % 10 = r at h
  interval_cases r <;> decide

theorem natDigits_isDigit (n : ℕ) : ∀ c ∈ natDigits n, Calculator.isDigit c = true := by
  intro c hc
  rcases Nat.eq_zero_or_pos n with rfl | h
  · simp [natDigits] at hc
    subst hc
    decide
  · rw [natDigits_eq n h] at hc
    simp only [List.mem_map] at hc
    obtain ⟨d, _, rfl⟩ := hc
    exact digitChar_isDigit d


theorem pow10_natCast (j : ℕ) : pow10 (j : ℤ) = ((10 ^ j : ℕ) : ℚ) := by
  simp [pow10, powInt]

theorem pickDigits_some (x : ℚ) (e : ℤ) (k : ℕ) (c : ℕ × ℤ) (h : pickDigits x e k = some c) :
    (c = (enclosing x e k).1 ∨ c = (enclosing x e k).2)
      ∧ roundDouble (decimalValue k c) = fin x := by
  unfold pickDigits at h
  dsimp only at h
  split_ifs at h with h1 h2 h3 h4 h5 h6 <;> injection h with h <;> subst h <;>
    simp_all

theorem pickDigits_isSome_of_lo (x : ℚ) (e : ℤ) (k : ℕ)
    (h : roundDouble (decimalValue k (enclosing x e k).1) = fin x) :
    (pickDigits x e k).isSome = true := by
  unfold pickDigits
  dsimp only
  split_ifs <;> simp_all

theorem searchDigits_finds (x : ℚ) (e : ℤ) : ∀ (fuel k0 j : ℕ), j < fuel →
    (pickDigits x e (k0 + j)).isSome = true →
    ∃ s k n, searchDigits x e fuel k0 = some (s, k, n) ∧ k0 ≤ k ∧ k ≤ k0 + j
      ∧ pickDigits x e k = some (s, n) := by
  intro fuel
  induction fuel with
  | zero => intro k0 j h; omega
  | succ f ih =>
    intro k0 j hj hs
    unfold searchDigits
    cases hp : pickDigits x e k0 with
    | some c => exact ⟨c.1, k0, c.2, rfl, le_rfl, by omega, hp⟩
    | none =>
      cases j with
      | zero => simp [hp] at hs
      | succ j =>
        obtain ⟨s, k, n, h1, h2, h3, h4⟩ := ih (k0 + 1) j (by omega)
          (by rw [show k0 + 1 + j = k0 + (j + 1) by omega]; exact hs)
        exact ⟨s, k, n, h1, by omega, by omega, h4⟩


/-- The layout of `Number::toString` for a digit string that ends at or before
the decimal point, up to position 21: the numeral of an integer. -/
theorem layoutShortest_integer (s k : ℕ) (j : ℕ) (hs : 0 < s) (hn : k + j ≤ 21) :
    layoutShortest s k ((k + j : ℕ) : ℤ) = natDigits (s * 10 ^ j) := by
  unfold layoutShortest
  dsimp only
  rw [if_pos (by constructor <;> omega), if_pos (by omega), natDigits_mul_pow s j hs]
  congr 2
  omega

theorem floor_div_toNat (m u : ℕ) : ⌊(m : ℚ) / (u : ℚ)⌋.toNat = m / u := by
  rw [Rat.floor_natCast_div_natCast, ← Int.natCast_div, Int.toNat_natCast]

/-- Main lemma on `Number::toString` for a natural binary64 value below `10^21`:
the digits found are those of a natural number that converts back to the value,
laid out without point or exponent. -/
theorem shortestDigits_natCast (m : ℕ) (h0 : 0 < m) (h21 : m < 10 ^ 21)
    (hm : roundDouble (m : ℚ) = fin m) :
    ∃ s k n d, shortestDigits (m : ℚ) = some (s, k, n)
      ∧ layoutShortest s k n = natDigits d ∧ roundDouble (d : ℚ) = fin m := by
  have hx1 : (1 : ℚ) ≤ m := by exact_mod_cast h0
  have hxpos : (0 : ℚ) < m := by linarith
  obtain ⟨e1, e2⟩ := decade_spec (m : ℚ) hxpos
  -- the decade is a natural number `E ≤ 20`
  have he0 : 0 ≤ decade (m : ℚ) := by
    by_contra hneg
    push_neg at hneg
    have : (10 : ℚ) ^ (decade (m : ℚ) + 1) ≤ 10 ^ (0 : ℤ) :=
      zpow_le_zpow_right₀ (by norm_num) (by omega)
    simp at this
    linarith
  obtain ⟨E, hE⟩ : ∃ E : ℕ, (E : ℤ) = decade (m : ℚ) := ⟨(decade (m : ℚ)).toNat, by omega⟩
  rw [← hE] at e1 e2
  have e1' : 10 ^ E ≤ m := by
    have : ((10 ^ E : ℕ) : ℚ) ≤ (m : ℚ) := by push_cast; simpa using e1
    exact_mod_cast this
  have e2' : m < 10 ^ (E + 1) := by
    have : (m : ℚ) < ((10 ^ (E + 1) : ℕ) : ℚ) := by
      push_cast
      have := e2
      rw [show (E : ℤ) + 1 = ((E + 1 : ℕ) : ℤ) by push_cast; ring, zpow_natCast] at this
      exact this
    exact_mod_cast this
  have hE20 : E ≤ 20 := by
    by_contra hneg
    push_neg at hneg
    have : 10 ^ 21 ≤ 10 ^ E := Nat.pow_le_pow_right (by norm_num) hneg
    omega
  -- the candidate with `E + 1` digits is `m` itself
  have hunit : ∀ k : ℕ, k ≤ E + 1 →
      pow10 (decade (m : ℚ) + 1 - k) = ((10 ^ (E + 1 - k) : ℕ) : ℚ) := by
    intro k hk
    rw [← hE, show (E : ℤ) + 1 - k = ((E + 1 - k : ℕ) : ℤ) by omega, pow10_natCast]
  have hlo : ∀ k : ℕ, k ≤ E + 1 →
      (enclosing (m : ℚ) (decade (m : ℚ)) k).1 = (m / 10 ^ (E + 1 - k), (E : ℤ) + 1) := by
    intro k hk
    unfold enclosing
    dsimp only
    rw [hunit k hk, floor_div_toNat, hE]
  have hfull : (pickDigits (m : ℚ) (decade (m : ℚ)) (1 + E)).isSome = true := by
    apply pickDigits_isSome_of_lo
    rw [hlo (1 + E) (by omega)]
    unfold decimalValue
    dsimp only
    rw [show (E : ℤ) + 1 - ((1 + E : ℕ) : ℤ) = ((0 : ℕ) : ℤ) by push_cast; ring, pow10_natCast,
      show E + 1 - (1 + E) = 0 by omega]
    simpa using hm
  obtain ⟨s, k, n, hsearch, hk1, hk2, hpick⟩ :=
    searchDigits_finds (m : ℚ) (decade (m : ℚ)) 21 1 E (by omega) hfull
  obtain ⟨hc, hround⟩ := pickDigits_some _ _ _ _ hpick
  have hkE : k ≤ E + 1 := by omega
  set U := 10 ^ (E + 1 - k) with hU
  have hUpos : 0 < U := by positivity
  have hUle : U ≤ 10 ^ E := Nat.pow_le_pow_right (by norm_num) (by omega)
  have hlopos : 0 < m / U := Nat.div_pos (le_trans hUle e1') hUpos
  rcases hc with hc | hc
  · -- the lower candidate
    rw [hlo k hkE] at hc
    injection hc with hs hn
    subst hs hn
    refine ⟨_, _, _, m / U * U, hsearch, ?_, ?_⟩
    · rw [show (E : ℤ) + 1 = ((k + (E + 1 - k) : ℕ) : ℤ) by omega]
      exact layoutShortest_integer _ _ _ hlopos (by omega)
    · rw [← hround]
      unfold decimalValue
      dsimp only
      rw [hE, hunit k hkE, Nat.cast_mul]
  · -- the upper candidate
    unfold enclosing at hc
    dsimp only at hc
    rw [hunit k hkE, floor_div_toNat] at hc
    split_ifs at hc with hroll
    · -- the upper candidate is the next power of ten
      injection hc with hs hn
      subst hs hn
      have hval : decimalValue k (10 ^ (k - 1), decade (m : ℚ) + 2) = ((10 ^ (E + 1) : ℕ) : ℚ) := by
        unfold decimalValue
        dsimp only
        rw [← hE, show (E : ℤ) + 2 - k = ((E + 2 - k : ℕ) : ℤ) by omega, pow10_natCast]
        rw [← Nat.cast_mul, ← pow_add]
        congr 2
        omega
      rw [hval] at hround
      have hE19 : E ≤ 19 := by
        by_contra hneg
        push_neg at hneg
        have hE' : E = 20 := by omega
        rw [hE'] at hround
        have h1 : roundDouble ((10 ^ (20 + 1) : ℕ) : ℚ) = fin ((10 ^ 21 : ℕ) : ℚ) := by decide!
        rw [h1] at hround
        injection hround with hround
        have : (10 ^ 21 : ℕ) = m := by exact_mod_cast hround
        omega
      refine ⟨_, _, _, 10 ^ (k - 1) * 10 ^ (E + 2 - k), hsearch, ?_, ?_⟩
      · rw [← hE, show (E : ℤ) + 2 = ((k + (E + 2 - k) : ℕ) : ℤ) by omega]
        exact layoutShortest_integer _ _ _ (by positivity) (by omega)
      · rw [← hround, ← pow_add]
        congr 3
        omega
    · injection hc with hs hn
      subst hs hn
      refine ⟨_, _, _, (m / U + 1) * U, hsearch, ?_, ?_⟩
      · rw [← hE, show (E : ℤ) + 1 = ((k + (E + 1 - k) : ℕ) : ℤ) by omega]
        exact layoutShortest_integer _ _ _ (Nat.succ_pos _) (by omega)
      · rw [← hround]
        unfold decimalValue
        dsimp only
        rw [hunit k hkE, Nat.cast_mul]


/-- `Number::toString` on an integer binary64 value of magnitude below `10^21`:
an optional minus sign and the numeral of a natural number that converts back to
the magnitude, and that is the magnitude itself below `2^53`. -/
theorem numberToString_intCast (z : ℤ) (hz : |z| < 10 ^ 21) (hd : roundDouble (z : ℚ) = fin z) :
    ∃ d : ℕ, numberToString (fin z) = some ((if z < 0 then ['-'] else []) ++ natDigits d)
      ∧ roundDouble (d : ℚ) = fin ((|z| : ℤ) : ℚ) ∧ (|z| < 2 ^ 53 → (d : ℤ) = |z|) := by
  rcases eq_or_ne z 0 with rfl | h0
  · exact ⟨0, by simp [numberToString, natDigits], by simp [roundDouble], by simp⟩
  · have habs : |(z : ℚ)| = ((z.natAbs : ℕ) : ℚ) := by
      rw [Nat.cast_natAbs, Int.cast_abs]
    have hzq : (z : ℚ) ≠ 0 := by exact_mod_cast h0
    have hmpos : 0 < z.natAbs := Int.natAbs_pos.mpr h0
    have hm21 : z.natAbs < 10 ^ 21 := by
      have : ((z.natAbs : ℕ) : ℤ) < 10 ^ 21 := by rw [Int.natCast_natAbs]; exact hz
      exact_mod_cast this
    have hmd : roundDouble ((z.natAbs : ℕ) : ℚ) = fin ((z.natAbs : ℕ) : ℚ) := by
      rcases le_or_lt 0 z with hpos | hneg
      · have : ((z.natAbs : ℕ) : ℚ) = (z : ℚ) := by
          rw [← habs, abs_of_nonneg (by exact_mod_cast hpos)]
        rw [this]
        exact hd
      · have : ((z.natAbs : ℕ) : ℚ) = -(z : ℚ) := by
          rw [← habs, abs_of_neg (by exact_mod_cast hneg)]
        rw [this, roundDouble_neg, hd]
        simp [neg]
    obtain ⟨s, k, n, d, hs, hl, hr⟩ := shortestDigits_natCast z.natAbs hmpos hm21 hmd
    have hzabs : ((|z| : ℤ) : ℚ) = ((z.natAbs : ℕ) : ℚ) := by
      rw [Nat.cast_natAbs]
    refine ⟨d, ?_, ?_, ?_⟩
    · unfold numberToString
      simp only [hzq, if_false, habs, hs, hl]
      congr 2
      simp
    · rw [hzabs]
      exact hr
    · intro h53
      have h53' : z.natAbs < 2 ^ 53 := by
        have : ((z.natAbs : ℕ) : ℤ) < 2 ^ 53 := by rw [Int.natCast_natAbs]; exact h53
        exact_mod_cast this
      have := natCast_eq_of_roundDouble d z.natAbs h53' hr
      rw [this, Int.natCast_natAbs]

theorem natDigits_ne_nil (n : ℕ) : natDigits n ≠ [] := by
  rcases Nat.eq_zero_or_pos n with rfl | h
  · simp [natDigits]
  · rw [natDigits_eq n h]
    simp only [ne_eq, List.map_eq_nil_iff, List.reverse_eq_nil_iff]
    exact Nat.digits_ne_nil_iff_ne_zero.mpr (by omega)

theorem natDigits_length_gt (n k : ℕ) (h : 10 ^ k ≤ n) : k < (natDigits n).length := by
  have hpos : 0 < n := lt_of_lt_of_le (by positivity) h
  rw [natDigits_eq n hpos]
  simp only [List.length_map, List.length_reverse]
  by_contra hle
  push_neg at hle
  have h1 : n < 10 ^ (Nat.digits 10 n).length := Nat.lt_base_pow_length_digits (by norm_num)
  have h2 : 10 ^ (Nat.digits 10 n).length ≤ 10 ^ k := Nat.pow_le_pow_right (by norm_num) hle
  omega

theorem exponentText_no_point (e : ℤ) : '.' ∉ exponentText e := by
  unfold exponentText
  intro h
  simp only [List.mem_append, List.mem_cons, List.mem_singleton, List.not_mem_nil, or_false] at h
  rcases h with (h | h) | h
  · exact absurd h (by decide)
  · split_ifs at h <;> exact absurd h (by decide)
  · exact absurd (natDigits_isDigit _ _ h) (by decide)

theorem exponentText_has_e (e : ℤ) : 'e' ∈ exponentText e := by
  simp [exponentText]

/-- The significand that `toPrecision` lays out has at least `p` digits'
worth of magnitude. -/
theorem toPrecision_significand_ge (a : ℚ) (ha : 0 < a) (P : ℕ) (hP : 1 ≤ P) :
    10 ^ (P - 1) ≤ ⌊a / pow10 (decade a - (P : ℤ) + 1) + 1 / 2⌋.toNat := by
  obtain ⟨d1, _⟩ := decade_spec a ha
  rw [pow10_eq]
  have hpos : (0 : ℚ) < (10 : ℚ) ^ (decade a - (P : ℤ) + 1) := by positivity
  have hge : ((10 ^ (P - 1) : ℕ) : ℚ) ≤ a / (10 : ℚ) ^ (decade a - (P : ℤ) + 1) := by
    rw [le_div_iff₀ hpos]
    push_cast
    rw [← zpow_natCast, ← zpow_add₀ (by norm_num)]
    have : ((P - 1 : ℕ) : ℤ) + (decade a - (P : ℤ) + 1) = decade a := by omega
    rw [this]
    exact d1
  have hfl : ((10 ^ (P - 1) : ℕ) : ℤ) ≤ ⌊a / (10 : ℚ) ^ (decade a - (P : ℤ) + 1) + 1 / 2⌋ := by
    rw [Int.le_floor]
    have : (((10 ^ (P - 1) : ℕ) : ℤ) : ℚ) = ((10 ^ (P - 1) : ℕ) : ℚ) := by norm_cast
    rw [this]
    linarith
  omega

/-! ### `toPrecision` and the conversion of its decimal back to binary64 -/

theorem toPrecision_eq_layout (x : ℚ) (hx : x ≠ 0) (p : ℤ) (h1 : 1 ≤ p) (h100 : p ≤ 100) :
    toPrecision x p
      = Outcome.ok (precisionLayout (decide (x < 0)) (precisionDigits |x| p).1
          (precisionDigits |x| p).2 p) := by
  have ha : |x| ≠ 0 := abs_ne_zero.mpr hx
  unfold toPrecision precisionLayout precisionDigits
  rw [if_neg (by omega)]
  simp only [ha, if_false, decide_eq_true_eq]
  by_cases h : ⌊|x| / pow10 (decade |x| - p + 1) + 1 / 2⌋.toNat = 10 ^ p.toNat
  · simp only [h, if_true]
    split_ifs <;> rfl
  · simp only [h, if_false]
    split_ifs <;> rfl

theorem roundHalfEven_sub_le (q : ℚ) : |(roundHalfEven q : ℚ) - q| ≤ 1 / 2 := by
  have h1 := Int.floor_le q
  have h2 := Int.lt_floor_add_one q
  unfold roundHalfEven
  dsimp only
  rw [abs_le]
  split_ifs with a b c
  · constructor <;> linarith
  · constructor <;> push_cast <;> linarith
  · constructor <;> linarith
  · constructor <;> push_cast <;> linarith

theorem roundMagnitude_sub_le (a : ℚ) : |roundMagnitude a - a| ≤ ulp a / 2 := by
  have hu := ulp_pos a
  unfold roundMagnitude
  have : (roundHalfEven (a / ulp a) : ℚ) * ulp a - a
      = ((roundHalfEven (a / ulp a) : ℚ) - a / ulp a) * ulp a := by
    field_simp
  rw [this, abs_mul, abs_of_pos hu]
  have := roundHalfEven_sub_le (a / ulp a)
  nlinarith

/-- Relative error of rounding to binary64 in the normal range. -/
theorem roundMagnitude_rel (a : ℚ) (h : (2 : ℚ) ^ (-1022 : ℤ) ≤ a) :
    |roundMagnitude a - a| ≤ a / 2 ^ 53 := by
  have h0 : 0 < a := lt_of_lt_of_le (by positivity) h
  have hb := binade_ge a (-1022) h
  obtain ⟨b1, _⟩ := binade_spec a h0
  have hu : ulp a ≤ a / 2 ^ 52 := by
    rw [ulp_of_binade a hb, le_div_iff₀ (by positivity)]
    have : (2 : ℚ) ^ (binade a - 52) * 2 ^ 52 = 2 ^ binade a := by
      rw [← zpow_natCast, ← zpow_add₀ (by norm_num)]
      congr 1
      norm_num
    rw [this]
    exact b1
  have := roundMagnitude_sub_le a
  have e : a / 2 ^ 53 = a / 2 ^ 52 / 2 := by ring
  rw [e]
  linarith

theorem decade_eq (a : ℚ) (k : ℤ) (h1 : (10 : ℚ) ^ k ≤ a) (h2 : a < (10 : ℚ) ^ (k + 1)) :
    decade a = k := by
  have ha : 0 < a := lt_of_lt_of_le (by positivity) h1
  obtain ⟨d1, d2⟩ := decade_spec a ha
  rcases lt_trichotomy (decade a) k with h | h | h
  · exfalso
    have : (10 : ℚ) ^ (decade a + 1) ≤ 10 ^ k := zpow_le_zpow_right₀ (by norm_num) (by omega)
    linarith
  · exact h
  · exfalso
    have : (10 : ℚ) ^ (k + 1) ≤ 10 ^ decade a := zpow_le_zpow_right₀ (by norm_num) (by omega)
    linarith

/-- A decimal of at most 15 significant digits survives the conversion to
binary64 and back: the value nearest to `n * 10^(e-P+1)` has the digits `n` and
the exponent `e` again. -/
theorem precisionDigits_roundMagnitude (n P : ℕ) (e : ℤ) (hP1 : 1 ≤ P) (hP : P ≤ 15)
    (hn1 : 10 ^ (P - 1) ≤ n) (hn2 : n < 10 ^ P) (he : -6 ≤ e) :
    precisionDigits (roundMagnitude ((n : ℚ) * (10 : ℚ) ^ (e - (P : ℤ) + 1))) (P : ℤ) = (n, e) := by
  set u : ℚ := (10 : ℚ) ^ (e - (P : ℤ) + 1) with hu
  have hupos : 0 < u := by positivity
  set D : ℚ := (n : ℚ) * u with hD
  set w : ℚ := roundMagnitude D with hw
  -- powers of ten
  have hPu : ((10 : ℚ) ^ P) * u = (10 : ℚ) ^ (e + 1) := by
    rw [hu, ← zpow_natCast, ← zpow_add₀ (by norm_num)]
    congr 1
    ring
  have hP1u : ((10 : ℚ) ^ (P - 1)) * u = (10 : ℚ) ^ e := by
    rw [hu, ← zpow_natCast, ← zpow_add₀ (by norm_num)]
    congr 1
    have : ((P - 1 : ℕ) : ℤ) = (P : ℤ) - 1 := by omega
    rw [this]
    ring
  have hn1q : ((10 : ℚ) ^ (P - 1)) ≤ (n : ℚ) := by exact_mod_cast hn1
  have hn2q : (n : ℚ) + 1 ≤ (10 : ℚ) ^ P := by exact_mod_cast hn2
  have hP15 : ((10 : ℚ) ^ P) ≤ 10 ^ 15 := by
    have : 10 ^ P ≤ 10 ^ 15 := Nat.pow_le_pow_right (by norm_num) hP
    exact_mod_cast this
  have hP14 : ((10 : ℚ) ^ (P - 1)) ≤ 10 ^ 14 := by
    have : 10 ^ (P - 1) ≤ 10 ^ 14 := Nat.pow_le_pow_right (by norm_num) (by omega)
    exact_mod_cast this
  have hnpos : (0 : ℚ) < n := lt_of_lt_of_le (by positivity) hn1q
  have hDpos : 0 < D := mul_pos hnpos hupos
  have hDe : (10 : ℚ) ^ e ≤ D := by
    rw [← hP1u, hD]
    exact mul_le_mul_of_nonneg_right hn1q hupos.le
  have h1022 : (2 : ℚ) ^ (-1022 : ℤ) ≤ D := by
    have a1 : (2 : ℚ) ^ (-1022 : ℤ) ≤ 2 ^ (-20 : ℤ) := zpow_le_zpow_right₀ (by norm_num) (by norm_num)
    have a2 : (2 : ℚ) ^ (-20 : ℤ) ≤ 10 ^ (-6 : ℤ) := by norm_num
    have a3 : (10 : ℚ) ^ (-6 : ℤ) ≤ 10 ^ e := zpow_le_zpow_right₀ (by norm_num) he
    linarith
  have hrel := roundMagnitude_rel D h1022
  rw [← hw] at hrel
  -- the relative position of `w`
  obtain ⟨δ, hδ⟩ : ∃ δ : ℚ, w = ((n : ℚ) + δ) * u := ⟨(w - D) / u, by rw [hD]; field_simp⟩
  have hδabs : |δ| ≤ (n : ℚ) / 2 ^ 53 := by
    have e1 : w - D = δ * u := by rw [hδ, hD]; ring
    rw [e1, abs_mul, abs_of_pos hupos, hD] at hrel
    have e2 : (n : ℚ) * u / 2 ^ 53 = (n : ℚ) / 2 ^ 53 * u := by ring
    rw [e2] at hrel
    exact le_of_mul_le_mul_right hrel hupos
  have hδ8 : |δ| < 1 / 8 := by
    have : (n : ℚ) / 2 ^ 53 < 1 / 8 := by
      rw [div_lt_iff₀ (by positivity)]
      calc (n : ℚ) < 10 ^ 15 := by linarith
        _ ≤ 1 / 8 * 2 ^ 53 := by norm_num
    linarith
  obtain ⟨hδl, hδr⟩ := abs_lt.mp hδ8
  have hwlt : w < (10 : ℚ) ^ (e + 1) := by
    rw [hδ, ← hPu]
    apply mul_lt_mul_of_pos_right _ hupos
    linarith
  have hPt : ((P : ℤ)).toNat = P := Int.toNat_natCast P
  by_cases hwe : (10 : ℚ) ^ e ≤ w
  · -- the same decade
    have hdec := decade_eq w e hwe hwlt
    have hfl : ⌊w / u + 1 / 2⌋ = (n : ℤ) := by
      rw [hδ, mul_div_assoc, div_self hupos.ne', mul_one, Int.floor_eq_iff]
      constructor
      · push_cast; linarith
      · push_cast; linarith
    unfold precisionDigits
    simp only [hdec, pow10_eq, hPt]
    rw [← hu, hfl, Int.toNat_natCast, if_neg (by omega)]
  · -- just below the decade
    push_neg at hwe
    have hlt : (n : ℚ) + δ < (10 : ℚ) ^ (P - 1) := by
      rw [hδ, ← hP1u] at hwe
      exact lt_of_mul_lt_mul_right hwe hupos.le
    have hneq : n = 10 ^ (P - 1) := by
      have : (n : ℚ) < ((10 ^ (P - 1) : ℕ) : ℚ) + 1 := by push_cast; linarith
      have : n < 10 ^ (P - 1) + 1 := by exact_mod_cast this
      omega
    have hnq : (n : ℚ) = (10 : ℚ) ^ (P - 1) := by rw [hneq]; push_cast; rfl
    have hδneg : δ < 0 := by linarith
    have hδ80 : -(1 / 80) < δ := by
      have : (n : ℚ) / 2 ^ 53 < 1 / 80 := by
        rw [div_lt_iff₀ (by positivity), hnq]
        calc (10 : ℚ) ^ (P - 1) ≤ 10 ^ 14 := hP14
          _ < 1 / 80 * 2 ^ 53 := by norm_num
      have := neg_abs_le δ
      linarith
    have hone : (1 : ℚ) ≤ (10 : ℚ) ^ (P - 1) := one_le_pow₀ (by norm_num)
    have hu10 : (10 : ℚ) ^ (e - 1 - (P : ℤ) + 1) = u / 10 := by
      rw [hu, show e - 1 - (P : ℤ) + 1 = (e - (P : ℤ) + 1) - 1 by ring, zpow_sub_one₀ (by norm_num)]
      rfl
    have hwe1 : (10 : ℚ) ^ (e - 1) ≤ w := by
      have : (10 : ℚ) ^ (e - 1) = (10 : ℚ) ^ (P - 1) / 10 * u := by
        rw [zpow_sub_one₀ (by norm_num), ← hP1u]
        ring
      rw [this, hδ]
      apply mul_le_mul_of_nonneg_right _ hupos.le
      linarith
    have hdec := decade_eq w (e - 1) hwe1 (by simpa using hwe)
    have hPP : (10 : ℚ) ^ P = 10 * (10 : ℚ) ^ (P - 1) := by
      obtain ⟨k, rfl⟩ : ∃ k, P = k + 1 := ⟨P - 1, by omega⟩
      simp [pow_succ]
      ring
    have hfl : ⌊w / (u / 10) + 1 / 2⌋ = ((10 ^ P : ℕ) : ℤ) := by
      have : w / (u / 10) = 10 * ((n : ℚ) + δ) := by
        rw [hδ]
        field_simp
        ring
      rw [this, hnq, Int.floor_eq_iff]
      push_cast
      rw [hPP]
      constructor <;> linarith
    unfold precisionDigits
    simp only [hdec, pow10_eq, hPt]
    rw [hu10, hfl, Int.toNat_natCast, if_pos rfl, hneq]
    congr 1
    omega

/-- The conversion of a decimal `n * 10^(e-P+1)` of the fixed-notation range to
binary64 neither vanishes nor overflows. -/
theorem roundDouble_decimal (n P : ℕ) (e : ℤ) (hP1 : 1 ≤ P)
    (hn1 : 10 ^ (P - 1) ≤ n) (hn2 : n < 10 ^ P) (he : -6 ≤ e) (he2 : e < 100) :
    roundDouble ((n : ℚ) * (10 : ℚ) ^ (e - (P : ℤ) + 1))
        = fin (roundMagnitude ((n : ℚ) * (10 : ℚ) ^ (e - (P : ℤ) + 1)))
      ∧ 0 < roundMagnitude ((n : ℚ) * (10 : ℚ) ^ (e - (P : ℤ) + 1))
      ∧ |roundMagnitude ((n : ℚ) * (10 : ℚ) ^ (e - (P : ℤ) + 1))
            - (n : ℚ) * (10 : ℚ) ^ (e - (P : ℤ) + 1)|
          ≤ (n : ℚ) * (10 : ℚ) ^ (e - (P : ℤ) + 1) / 2 ^ 53 := by
  set u : ℚ := (10 : ℚ) ^ (e - (P : ℤ) + 1) with hu
  have hupos : 0 < u := by positivity
  set D : ℚ := (n : ℚ) * u with hD
  have hPu : ((10 : ℚ) ^ P) * u = (10 : ℚ) ^ (e + 1) := by
    rw [hu, ← zpow_natCast, ← zpow_add₀ (by norm_num)]
    congr 1
    ring
  have hP1u : ((10 : ℚ) ^ (P - 1)) * u = (10 : ℚ) ^ e := by
    rw [hu, ← zpow_natCast, ← zpow_add₀ (by norm_num)]
    congr 1
    have : ((P - 1 : ℕ) : ℤ) = (P : ℤ) - 1 := by omega
    rw [this]
    ring
  have hn1q : ((10 : ℚ) ^ (P - 1)) ≤ (n : ℚ) := by exact_mod_cast hn1
  have hn2q : (n : ℚ) + 1 ≤ (10 : ℚ) ^ P := by exact_mod_cast hn2
  have hnpos : (0 : ℚ) < n := lt_of_lt_of_le (by positivity) hn1q
  have hDpos : 0 < D := mul_pos hnpos hupos
  have hDe : (10 : ℚ) ^ e ≤ D := by
    rw [← hP1u, hD]
    exact mul_le_mul_of_nonneg_right hn1q hupos.le
  have hDlt : D < (10 : ℚ) ^ (e + 1) := by
    rw [← hPu, hD]
    apply mul_lt_mul_of_pos_right _ hupos
    linarith
  have h1022 : (2 : ℚ) ^ (-1022 : ℤ) ≤ D := by
    have a1 : (2 : ℚ) ^ (-1022 : ℤ) ≤ 2 ^ (-20 : ℤ) := zpow_le_zpow_right₀ (by norm_num) (by norm_num)
    have a2 : (2 : ℚ) ^ (-20 : ℤ) ≤ 10 ^ (-6 : ℤ) := by norm_num
    have a3 : (10 : ℚ) ^ (-6 : ℤ) ≤ 10 ^ e := zpow_le_zpow_right₀ (by norm_num) he
    linarith
  have hrel := roundMagnitude_rel D h1022
  obtain ⟨hl, hr⟩ := abs_le.mp hrel
  have h53 : D / 2 ^ 53 < D := by
    rw [div_lt_iff₀ (by positivity)]
    nlinarith
  have hwpos : 0 < roundMagnitude D := by linarith
  have hD100 : D < (10 : ℚ) ^ (100 : ℤ) :=
    lt_of_lt_of_le hDlt (zpow_le_zpow_right₀ (by norm_num) (by omega))
  have hbig : (10 : ℚ) ^ (100 : ℤ) * 2 ≤ (2 : ℚ) ^ (1024 : ℤ) := by norm_num
  have hov : ¬ pow2 1024 ≤ roundMagnitude D := by
    rw [pow2_eq]
    push_neg
    linarith
  refine ⟨?_, hwpos, hrel⟩
  unfold roundDouble
  rw [if_neg hDpos.ne', abs_of_pos hDpos, if_neg hov, if_neg (not_lt.mpr hDpos.le)]

/-- A decimal of at most 11 significant digits that is not an integer, and any
value within the binary64 rounding error of it, is at least `4e-12` away from
every integer. -/
theorem decimal_far (n P : ℕ) (e : ℤ) (hP1 : 1 ≤ P) (hP : P ≤ 11)
    (hn1 : 10 ^ (P - 1) ≤ n) (hn2 : n < 10 ^ P) (he : -6 ≤ e) (he2 : e < P)
    (hnon : ∀ k : ℤ, (k : ℚ) ≠ (n : ℚ) * (10 : ℚ) ^ (e - (P : ℤ) + 1)) (w : ℚ)
    (hw : |w - (n : ℚ) * (10 : ℚ) ^ (e - (P : ℤ) + 1)|
      ≤ (n : ℚ) * (10 : ℚ) ^ (e - (P : ℤ) + 1) / 2 ^ 53) :
    ∀ k : ℤ, 4 / 10 ^ 12 ≤ |(k : ℚ) - w| := by
  set u : ℚ := (10 : ℚ) ^ (e - (P : ℤ) + 1) with hu
  have hupos : 0 < u := by positivity
  set D : ℚ := (n : ℚ) * u with hD
  have hPu : ((10 : ℚ) ^ P) * u = (10 : ℚ) ^ (e + 1) := by
    rw [hu, ← zpow_natCast, ← zpow_add₀ (by norm_num)]
    congr 1
    ring
  have hP1u : ((10 : ℚ) ^ (P - 1)) * u = (10 : ℚ) ^ e := by
    rw [hu, ← zpow_natCast, ← zpow_add₀ (by norm_num)]
    congr 1
    have : ((P - 1 : ℕ) : ℤ) = (P : ℤ) - 1 := by omega
    rw [this]
    ring
  have hn1q : ((10 : ℚ) ^ (P - 1)) ≤ (n : ℚ) := by exact_mod_cast hn1
  have hn2q : (n : ℚ) + 1 ≤ (10 : ℚ) ^ P := by exact_mod_cast hn2
  have hP11 : ((10 : ℚ) ^ P) ≤ 10 ^ 11 := by
    have : 10 ^ P ≤ 10 ^ 11 := Nat.pow_le_pow_right (by norm_num) hP
    exact_mod_cast this
  have hnpos : (0 : ℚ) < n := lt_of_lt_of_le (by positivity) hn1q
  have hDpos : 0 < D := mul_pos hnpos hupos
  have hDe : (10 : ℚ) ^ e ≤ D := by
    rw [← hP1u, hD]
    exact mul_le_mul_of_nonneg_right hn1q hupos.le
  have hDle : D + u ≤ (10 : ℚ) ^ (e + 1) := by
    rw [← hPu, hD]
    have : (n : ℚ) * u + u = ((n : ℚ) + 1) * u := by ring
    rw [this]
    exact mul_le_mul_of_nonneg_right hn2q hupos.le
  obtain ⟨hwl, hwr⟩ := abs_le.mp hw
  intro k
  rcases le_or_lt 0 e with hpos | hneg
  · -- the point lies inside the digits
    have hne : e ≠ (P : ℤ) - 1 := by
      intro h
      apply hnon (n : ℤ)
      have hu1 : u = 1 := by
        rw [hu, h]
        simp
      rw [hD, hu1]
      simp
    obtain ⟨j, hj⟩ : ∃ j : ℕ, (j : ℤ) = (P : ℤ) - 1 - e := ⟨((P : ℤ) - 1 - e).toNat, by omega⟩
    have hj1 : 1 ≤ j := by omega
    have hj10 : j ≤ 10 := by omega
    set T : ℚ := (10 : ℚ) ^ j with hT
    have hTpos : 0 < T := by positivity
    have hT10 : T ≤ 10 ^ 10 := by
      have : 10 ^ j ≤ 10 ^ 10 := Nat.pow_le_pow_right (by norm_num) hj10
      rw [hT]
      exact_mod_cast this
    have huT : u * T = 1 := by
      rw [hu, hT, ← zpow_natCast, ← zpow_add₀ (by norm_num), hj]
      have : e - (P : ℤ) + 1 + ((P : ℤ) - 1 - e) = 0 := by ring
      rw [this, zpow_zero]
    have hDT : D * T = n := by rw [hD, mul_assoc, huT, mul_one]
    have hA : (1 : ℚ) ≤ |(k : ℚ) * T - n| := by
      have hz : k * (10 : ℤ) ^ j - (n : ℤ) ≠ 0 := by
        intro h0
        apply hnon k
        have h1 : ((k * (10 : ℤ) ^ j - (n : ℤ) : ℤ) : ℚ) = 0 := by rw [h0]; rfl
        push_cast at h1
        rw [← hT] at h1
        have : (k : ℚ) * T = D * T := by rw [hDT]; linarith
        exact mul_right_cancel₀ hTpos.ne' this
      have : (1 : ℤ) ≤ |k * (10 : ℤ) ^ j - (n : ℤ)| := Int.one_le_abs hz
      have h2 : ((1 : ℤ) : ℚ) ≤ ((|k * (10 : ℤ) ^ j - (n : ℤ)| : ℤ) : ℚ) := by exact_mod_cast this
      rw [Int.cast_abs] at h2
      push_cast at h2
      rw [hT]
      exact h2
    have hn11 : (n : ℚ) < 10 ^ 11 := by linarith
    have hB : |(w - D) * T| ≤ 1 / 80000 := by
      rw [abs_mul, abs_of_pos hTpos]
      have : D / 2 ^ 53 * T = (n : ℚ) / 2 ^ 53 := by rw [← hDT]; ring
      have h3 : |w - D| * T ≤ D / 2 ^ 53 * T := mul_le_mul_of_nonneg_right hw hTpos.le
      rw [this] at h3
      have h4 : (n : ℚ) / 2 ^ 53 ≤ 1 / 80000 := by
        rw [div_le_iff₀ (by positivity)]
        calc (n : ℚ) ≤ 10 ^ 11 := hn11.le
          _ ≤ 1 / 80000 * 2 ^ 53 := by norm_num
      linarith
    have hkw : (1 : ℚ) / 2 ≤ |(k : ℚ) - w| * T := by
      rw [← abs_of_pos hTpos, ← abs_mul]
      have : ((k : ℚ) - w) * T = ((k : ℚ) * T - n) - (w - D) * T := by rw [← hDT]; ring
      rw [this]
      have := abs_sub_abs_le_abs_sub ((k : ℚ) * T - n) ((w - D) * T)
      linarith
    have : |(k : ℚ) - w| * T ≤ |(k : ℚ) - w| * 10 ^ 10 :=
      mul_le_mul_of_nonneg_left hT10 (abs_nonneg _)
    have h5 : (1 : ℚ) / 2 ≤ |(k : ℚ) - w| * 10 ^ 10 := le_trans hkw this
    rw [div_le_iff₀ (by positivity)]
    norm_num at h5 ⊢
    linarith
  · -- below one
    have hD6 : (1 : ℚ) / 10 ^ 6 ≤ D := by
      have : (10 : ℚ) ^ (-6 : ℤ) ≤ 10 ^ e := zpow_le_zpow_right₀ (by norm_num) he
      have e6 : (1 : ℚ) / 10 ^ 6 = (10 : ℚ) ^ (-6 : ℤ) := by norm_num
      rw [e6]
      exact le_trans this hDe
    have hD1 : D + 1 / 10 ^ 11 ≤ 1 := by
      rcases eq_or_lt_of_le (show e ≤ -1 by omega) with h1 | h2
      · have hu11 : (1 : ℚ) / 10 ^ 11 ≤ u := by
          rw [hu, h1]
          have : (10 : ℚ) ^ (-11 : ℤ) ≤ 10 ^ (-1 - (P : ℤ) + 1) :=
            zpow_le_zpow_right₀ (by norm_num) (by omega)
          have e11 : (1 : ℚ) / 10 ^ 11 = (10 : ℚ) ^ (-11 : ℤ) := by norm_num
          rw [e11]
          exact this
        have h10 : (10 : ℚ) ^ (e + 1) = 1 := by rw [h1]; norm_num
        rw [h10] at hDle
        linarith
      · have h10 : (10 : ℚ) ^ (e + 1) ≤ 10 ^ (-1 : ℤ) :=
          zpow_le_zpow_right₀ (by norm_num) (by omega)
        have e1 : (10 : ℚ) ^ (-1 : ℤ) = 1 / 10 := by norm_num
        rw [e1] at h10
        have hD10 : D ≤ 1 / 10 := by linarith
        have c : (1 : ℚ) / 10 + 1 / 10 ^ 11 ≤ 1 := by norm_num
        linarith
    have h53 : D / 2 ^ 53 ≤ 1 / 2 ^ 53 := by
      apply div_le_div_of_nonneg_right _ (by positivity)
      linarith [show (0 : ℚ) < 1 / 10 ^ 11 by positivity]
    have c53 : (1 : ℚ) / 2 ^ 53 ≤ 1 / 10 ^ 12 := by norm_num
    have c6 : (4 : ℚ) / 10 ^ 12 + 1 / 10 ^ 12 ≤ 1 / 10 ^ 6 := by norm_num
    have c11 : (4 : ℚ) / 10 ^ 12 + 1 / 10 ^ 12 ≤ 1 / 10 ^ 11 := by norm_num
    have c1 : (4 : ℚ) / 10 ^ 12 ≤ 1 := by norm_num
    have hwlo : 4 / 10 ^ 12 ≤ w := by linarith
    have hwhi : w + 4 / 10 ^ 12 ≤ 1 := by linarith
    rcases le_or_lt k 0 with hk | hk
    · have hkq : (k : ℚ) ≤ 0 := by exact_mod_cast hk
      rw [abs_of_nonpos (by linarith)]
      linarith
    · have hkq : (1 : ℚ) ≤ (k : ℚ) := by exact_mod_cast hk
      rw [abs_of_nonneg (by linarith)]
      linarith

/-- The digits of `toPrecision` form a number of exactly `P` digits. -/
theorem precisionDigits_bounds (a : ℚ) (ha : 0 < a) (P : ℕ) (hP1 : 1 ≤ P) :
    10 ^ (P - 1) ≤ (precisionDigits a (P : ℤ)).1 ∧ (precisionDigits a (P : ℤ)).1 < 10 ^ P := by
  obtain ⟨_, d2⟩ := decade_spec a ha
  have hge := toPrecision_significand_ge a ha P hP1
  have hle : ⌊a / pow10 (decade a - (P : ℤ) + 1) + 1 / 2⌋.toNat ≤ 10 ^ P := by
    rw [pow10_eq]
    have hpos : (0 : ℚ) < (10 : ℚ) ^ (decade a - (P : ℤ) + 1) := by positivity
    have hlt : a / (10 : ℚ) ^ (decade a - (P : ℤ) + 1) < ((10 ^ P : ℕ) : ℚ) := by
      rw [div_lt_iff₀ hpos]
      push_cast
      rw [← zpow_natCast, ← zpow_add₀ (by norm_num)]
      have : (P : ℤ) + (decade a - (P : ℤ) + 1) = decade a + 1 := by ring
      rw [this]
      exact d2
    have hfl : ⌊a / (10 : ℚ) ^ (decade a - (P : ℤ) + 1) + 1 / 2⌋ ≤ ((10 ^ P : ℕ) : ℤ) := by
      have : ⌊a / (10 : ℚ) ^ (decade a - (P : ℤ) + 1) + 1 / 2⌋ < ((10 ^ P : ℕ) : ℤ) + 1 := by
        rw [Int.floor_lt]
        push_cast
        push_cast at hlt
        linarith
      omega
    rw [Int.toNat_le]
    exact hfl
  have hPt : ((P : ℤ)).toNat = P := Int.toNat_natCast P
  have hpow : 10 ^ (P - 1) < 10 ^ P := Nat.pow_lt_pow_right (by norm_num) (by omega)
  unfold precisionDigits
  simp only [hPt]
  split_ifs with h
  · exact ⟨le_rfl, hpow⟩
  · exact ⟨hge, lt_of_le_of_ne hle h⟩

end JSNum


namespace Calculator

/-! ## The trailing-zero pattern -/

theorem dropZeros_append_zeros : ∀ l : List Char,
    ∃ zs, l = dropZeros l ++ zs ∧ ∀ c ∈ zs, c = '0' := by
  intro l
  induction l with
  | nil => exact ⟨[], rfl, by simp⟩
  | cons c cs ih =>
    unfold dropZeros
    split_ifs with h
    · refine ⟨c :: cs, rfl, ?_⟩
      intro d hd
      have := List.all_eq_true.mp h d hd
      simpa using this
    · obtain ⟨zs, h1, h2⟩ := ih
      exact ⟨zs, by rw [List.cons_append, ← h1], h2⟩

theorem dropZeros_getLast : ∀ l : List Char, dropZeros l ≠ [] →
    (dropZeros l).getLast? ≠ some '0' ∧ ∃ c ∈ l, (dropZeros l).getLast? = some c := by
  intro l
  induction l with
  | nil => intro h; simp [dropZeros] at h
  | cons c cs ih =>
    intro h
    unfold dropZeros at h ⊢
    split_ifs at h ⊢ with hz
    · exact absurd rfl h
    · by_cases hcs : dropZeros cs = []
      · rw [hcs]
        refine ⟨?_, c, by simp, by simp⟩
        simp only [List.getLast?_singleton, ne_eq, Option.some.injEq]
        intro hc
        apply hz
        obtain ⟨zs, h1, h2⟩ := dropZeros_append_zeros cs
        rw [hcs] at h1
        have hall : cs.all (fun d => decide (d = '0')) = true := by
          rw [List.all_eq_true]
          intro d hd
          rw [h1] at hd
          simpa using h2 d hd
        simp [List.all_cons, hc, hall]
      · obtain ⟨g1, d, hd, g2⟩ := ih hcs
        obtain ⟨x, xs, hx⟩ := List.exists_cons_of_ne_nil hcs
        rw [hx] at g1 g2 ⊢
        rw [List.getLast?_cons_cons]
        exact ⟨g1, d, List.mem_cons_of_mem _ hd, g2⟩

theorem lazyDigits_spec : ∀ (rest taken : List Char), (∀ c ∈ rest, isDigit c = true) →
    (∀ g, lazyDigits taken rest = some g → g = taken ++ dropZeros rest)
    ∧ (lazyDigits taken rest = none → dropZeros rest = rest) := by
  intro rest
  induction rest with
  | nil => intro taken _; simp [lazyDigits, dropZeros]
  | cons c cs ih =>
    intro taken hd
    have hc : isDigit c = true := hd c (by simp)
    have hcs : ∀ d ∈ cs, isDigit d = true := fun d h => hd d (List.mem_cons_of_mem _ h)
    unfold lazyDigits dropZeros
    split_ifs with hz
    · simp
    · obtain ⟨i1, i2⟩ := ih (taken ++ [c]) hcs
      constructor
      · intro g hg
        rw [i1 g hg]
        simp
      · intro hn
        rw [i2 hn]

theorem lazyDigits_none_of_nondigit : ∀ (rest taken : List Char),
    (∃ c ∈ rest, isDigit c = false) → lazyDigits taken rest = none := by
  intro rest
  induction rest with
  | nil => intro taken h; simp at h
  | cons c cs ih =>
    intro taken h
    obtain ⟨d, hd, hnd⟩ := h
    unfold lazyDigits
    have hz : ¬ ((c :: cs).all (fun d => d = '0') = true) := by
      intro hall
      have := List.all_eq_true.mp hall d hd
      simp only [decide_eq_true_eq] at this
      rw [this] at hnd
      exact absurd hnd (by decide)
    rw [if_neg hz]
    split_ifs with hc
    · apply ih
      rcases List.mem_cons.mp hd with rfl | hmem
      · rw [hc] at hnd; exact absurd hnd (by decide)
      · exact ⟨d, hmem, hnd⟩
    · rfl

theorem matchTrailingZeros_of_ne (c : Char) (cs : List Char) (h : c ≠ '.') :
    matchTrailingZeros (c :: cs) = none := by
  unfold matchTrailingZeros
  split
  · rename_i heq
    injection heq with h1 _
    exact absurd h1 h
  · rfl

theorem stripTrailingZeros_of_no_point : ∀ s : List Char, '.' ∉ s → stripTrailingZeros s = s := by
  intro s
  induction s with
  | nil => intro _; rfl
  | cons c cs ih =>
    intro h
    have hc : c ≠ '.' := fun e => h (by simp [e])
    have hcs : '.' ∉ cs := fun e => h (List.mem_cons_of_mem _ e)
    unfold stripTrailingZeros
    rw [matchTrailingZeros_of_ne c cs hc, ih hcs]

/-- In a text with a non-digit after its last point, such as an exponent, the
trailing-zero pattern matches nowhere. -/
theorem stripTrailingZeros_exponent : ∀ (a r : List Char), '.' ∉ r →
    (∃ c ∈ r, isDigit c = false) → stripTrailingZeros (a ++ r) = a ++ r := by
  intro a
  induction a with
  | nil => intro r h _; exact stripTrailingZeros_of_no_point r h
  | cons c cs ih =>
    intro r h hnd
    rw [List.cons_append]
    unfold stripTrailingZeros
    have hm : matchTrailingZeros (c :: (cs ++ r)) = none := by
      by_cases hc : c = '.'
      · subst hc
        obtain ⟨d, hd, hdn⟩ := hnd
        cases hrest : cs ++ r with
        | nil => rfl
        | cons x xs =>
          have hmem : d ∈ x :: xs := by rw [← hrest]; exact List.mem_append_right _ hd
          have hz : ¬ ((x :: xs).all (fun d => d = '0') = true) := by
            intro hall
            have := List.all_eq_true.mp hall d hmem
            simp only [decide_eq_true_eq] at this
            rw [this] at hdn
            exact absurd hdn (by decide)
          show (if (x :: xs).all (fun d => d = '0') = true then some []
            else if isDigit x = true then lazyDigits ['.', x] xs else none) = none
          rw [if_neg hz]
          by_cases hx : isDigit x = true
          · rw [if_pos hx]
            apply lazyDigits_none_of_nondigit
            rcases List.mem_cons.mp hmem with rfl | hm2
            · rw [hx] at hdn; exact absurd hdn (by decide)
            · exact ⟨d, hm2, hdn⟩
          · rw [if_neg hx]
      · exact matchTrailingZeros_of_ne c _ hc
    rw [hm, ih r h hnd]

/-- On a text in fixed notation, digits `f` after the only point, the replacement
removes the trailing zeros of `f`, and the point with them when nothing else
is left. -/
theorem stripTrailingZeros_fixed : ∀ (a f : List Char), '.' ∉ a → f ≠ [] →
    (∀ c ∈ f, isDigit c = true) →
    stripTrailingZeros (a ++ '.' :: f)
      = a ++ (if dropZeros f = [] then [] else '.' :: dropZeros f) := by
  intro a
  induction a with
  | nil =>
    intro f _ hf hd
    cases f with
    | nil => exact absurd rfl hf
    | cons c cs =>
      have hc : isDigit c = true := hd c (by simp)
      have hcs : ∀ d ∈ cs, isDigit d = true := fun d h => hd d (List.mem_cons_of_mem _ h)
      have hnp : '.' ∉ c :: cs := by
        intro hmem
        have := hd '.' hmem
        exact absurd this (by decide)
      simp only [List.nil_append]
      unfold stripTrailingZeros matchTrailingZeros
      by_cases hz : (c :: cs).all (fun d => d = '0') = true
      · simp [hz, dropZeros]
      · simp only [hz, if_false, hc, if_true]
        obtain ⟨i1, i2⟩ := lazyDigits_spec cs ['.', c] hcs
        cases hl : lazyDigits ['.', c] cs with
        | some g =>
          rw [i1 g hl]
          simp [dropZeros, hz]
        | none =>
          rw [stripTrailingZeros_of_no_point _ hnp]
          have : dropZeros (c :: cs) = c :: cs := by
            unfold dropZeros
            rw [if_neg hz, i2 hl]
          rw [this]
          simp
  | cons c cs ih =>
    intro f ha hf hd
    have hc : c ≠ '.' := fun e => ha (by simp [e])
    have hcs : '.' ∉ cs := fun e => ha (List.mem_cons_of_mem _ e)
    rw [List.cons_append]
    unfold stripTrailingZeros
    rw [matchTrailingZeros_of_ne c _ hc, ih f hcs hf hd]
    simp

theorem getLast?_digit (a i : List Char) (hi : i ≠ []) (hd : ∀ c ∈ i, isDigit c = true) :
    ∃ c, (a ++ i).getLast? = some c ∧ isDigit c = true := by
  rcases List.eq_nil_or_concat i with h | ⟨ys, c, rfl⟩
  · exact absurd h hi
  · refine ⟨c, ?_, hd c (by simp)⟩
    rw [List.concat_eq_append, ← List.append_assoc, List.getLast?_concat]

/-- What `trimFraction` does to a text in fixed notation with a fractional part. -/
theorem trimFraction_fixed (a f : List Char) (ha : '.' ∉ a)
    (hal : ∃ c, a.getLast? = some c ∧ isDigit c = true) (hf : f ≠ [])
    (hfd : ∀ c ∈ f, isDigit c = true) :
    ∃ zs, a ++ '.' :: f = trimFraction (a ++ '.' :: f) ++ zs
      ∧ (∀ c ∈ zs, c = '0' ∨ c = '.')
      ∧ (trimFraction (a ++ '.' :: f)).getLast? ≠ some '.'
      ∧ ('.' ∈ trimFraction (a ++ '.' :: f) →
          (trimFraction (a ++ '.' :: f)).getLast? ≠ some '0') := by
  have hmem : '.' ∈ a ++ '.' :: f := by simp
  have hout : trimFraction (a ++ '.' :: f)
      = a ++ (if dropZeros f = [] then [] else '.' :: dropZeros f) := by
    unfold trimFraction
    rw [if_pos hmem, stripTrailingZeros_fixed a f ha hf hfd]
  obtain ⟨zs, hz1, hz2⟩ := dropZeros_append_zeros f
  obtain ⟨c, hc1, hc2⟩ := hal
  rw [hout]
  by_cases hd : dropZeros f = []
  · rw [if_pos hd, List.append_nil]
    refine ⟨'.' :: f, rfl, ?_, ?_, ?_⟩
    · intro d hdm
      rcases List.mem_cons.mp hdm with rfl | hdf
      · right; rfl
      · left
        rw [hz1, hd] at hdf
        exact hz2 d hdf
    · rw [hc1]
      intro h
      injection h with h
      rw [h] at hc2
      exact absurd hc2 (by decide)
    · intro h
      exact absurd h ha
  · rw [if_neg hd]
    obtain ⟨g1, d, hdf, g2⟩ := dropZeros_getLast f hd
    have hlast : (a ++ '.' :: dropZeros f).getLast? = (dropZeros f).getLast? := by
      obtain ⟨x, xs, hx⟩ := List.exists_cons_of_ne_nil hd
      rw [hx, List.getLast?_append, List.getLast?_cons_cons]
      rw [List.getLast?_eq_getLast_of_ne_nil (List.cons_ne_nil x xs)]
      rfl
    refine ⟨zs, ?_, fun d hdz => Or.inl (hz2 d hdz), ?_, fun _ => ?_⟩
    · rw [List.append_assoc, List.cons_append, ← hz1]
    · rw [hlast, g2]
      intro h
      injection h with h
      have := hfd d hdf
      rw [h] at this
      exact absurd this (by decide)
    · rw [hlast]
      exact g1

theorem trimFraction_of_no_point (s : List Char) (h : '.' ∉ s) : trimFraction s = s := by
  unfold trimFraction
  rw [if_neg h]

theorem trimFraction_exponent (a r : List Char) (hr : '.' ∉ r)
    (hnd : ∃ c ∈ r, isDigit c = false) : trimFraction (a ++ r) = a ++ r := by
  unfold trimFraction
  split_ifs
  · exact stripTrailingZeros_exponent a r hr hnd
  · rfl

theorem isDigit_ne_point (c : Char) (h : isDigit c = true) : c ≠ '.' := by
  intro e
  rw [e] at h
  exact absurd h (by decide)

theorem isDigit_ne_e (c : Char) (h : isDigit c = true) : c ≠ 'e' := by
  intro e
  rw [e] at h
  exact absurd h (by decide)

/-- The text of `toPrecision` and what `trimFraction` makes of it. -/
theorem toPrecision_trim (q : ℚ) (p : ℤ) (h1 : 1 ≤ p) (h100 : p ≤ 100) :
    ∃ s zs, JSNum.toPrecision q p = Outcome.ok s
      ∧ s = trimFraction s ++ zs
      ∧ (∀ c ∈ zs, c = '0' ∨ c = '.')
      ∧ ('e' ∈ s → zs = [])
      ∧ ('e' ∉ s → (trimFraction s).getLast? ≠ some '.'
          ∧ ('.' ∈ trimFraction s → (trimFraction s).getLast? ≠ some '0')) := by
  obtain ⟨P, hP⟩ : ∃ P : ℕ, (P : ℤ) = p := ⟨p.toNat, by omega⟩
  have hP1 : 1 ≤ P := by omega
  unfold JSNum.toPrecision
  rw [if_neg (by omega)]
  dsimp only
  have hPt : p.toNat = P := by omega
  rw [hPt]
  -- the sign
  set sg : List Char := (if q < 0 then ['-'] else []) with hsg
  have hsgp : '.' ∉ sg := by
    rw [hsg]; split_ifs <;> simp
  have hsge : 'e' ∉ sg := by
    rw [hsg]; split_ifs <;> simp
  -- the exponent and the digits
  set e0 : ℤ := (if |q| = 0 then 0 else JSNum.decade |q|) with he0
  set n0 : ℕ := ⌊|q| / JSNum.pow10 (e0 - p + 1) + 1 / 2⌋.toNat with hn0
  set n : ℕ := (if n0 = 10 ^ P then 10 ^ (P - 1) else n0) with hn
  set e : ℤ := (if n0 = 10 ^ P then e0 + 1 else e0) with he
  set m : List Char := (if |q| = 0 then List.replicate P '0' else JSNum.natDigits n) with hm
  have hmd : ∀ c ∈ m, isDigit c = true := by
    intro c hc
    rw [hm] at hc
    split_ifs at hc
    · rw [List.mem_replicate] at hc
      rw [hc.2]; decide
    · exact JSNum.natDigits_isDigit _ _ hc
  have hmne : m ≠ [] := by
    rw [hm]
    split_ifs
    · intro h
      rw [List.replicate_eq_nil_iff] at h
      omega
    · exact JSNum.natDigits_ne_nil _
  have hmp : '.' ∉ m := fun h => isDigit_ne_point _ (hmd _ h) rfl
  have hme : 'e' ∉ m := fun h => isDigit_ne_e _ (hmd _ h) rfl
  have hmlen : e ≠ p - 1 → 0 ≤ e → P ≤ m.length ∧ (0 < |q| ∨ 2 ≤ P) := by
    intro hne hnn
    rw [hm]
    split_ifs with hq0
    · refine ⟨by simp, Or.inr ?_⟩
      have : n0 = 0 := by
        rw [hn0, hq0, zero_div, zero_add]
        have hfl : ⌊(1 / 2 : ℚ)⌋ = 0 := by
          rw [Int.floor_eq_iff]
          norm_num
        rw [hfl]
        rfl
      have hne0 : n0 ≠ 10 ^ P := by
        rw [this]
        exact (Nat.pos_of_ne_zero (by positivity)).ne
      have : e = 0 := by
        rw [he, if_neg hne0, he0, if_pos hq0]
      omega
    · have hqpos : 0 < |q| := lt_of_le_of_ne (abs_nonneg q) (Ne.symm hq0)
      refine ⟨?_, Or.inl hqpos⟩
      have hge : 10 ^ (P - 1) ≤ n0 := by
        rw [hn0, he0, if_neg hq0, ← hP]
        exact JSNum.toPrecision_significand_ge |q| hqpos P hP1
      have hn' : 10 ^ (P - 1) ≤ n := by
        rw [hn]
        split_ifs
        · exact le_rfl
        · exact hge
      have := JSNum.natDigits_length_gt n (P - 1) hn'
      omega
  by_cases c1 : e < -6 ∨ p ≤ e
  · -- exponent notation
    rw [if_pos c1]
    refine ⟨_, [], rfl, ?_, by simp, fun _ => rfl, fun hne => ?_⟩
    · rw [List.append_nil, trimFraction_exponent _ _ (JSNum.exponentText_no_point e)
        ⟨'e', JSNum.exponentText_has_e e, by decide⟩]
    · exact absurd (List.mem_append_right _ (JSNum.exponentText_has_e e)) hne
  · rw [if_neg c1]
    push_neg at c1
    by_cases c2 : e = p - 1
    · -- all digits before the point
      rw [if_pos c2]
      have hnp : '.' ∉ sg ++ m := by
        intro h
        rcases List.mem_append.mp h with h | h
        · exact hsgp h
        · exact hmp h
      obtain ⟨c, hc1, hc2⟩ := getLast?_digit sg m hmne hmd
      refine ⟨_, [], rfl, ?_, by simp, fun _ => rfl, fun _ => ⟨?_, ?_⟩⟩
      · rw [List.append_nil, trimFraction_of_no_point _ hnp]
      · rw [trimFraction_of_no_point _ hnp, hc1]
        intro h
        injection h with h
        exact isDigit_ne_point c hc2 h
      · rw [trimFraction_of_no_point _ hnp]
        intro h
        exact absurd h hnp
    · rw [if_neg c2]
      by_cases c3 : 0 ≤ e
      · -- the point inside the digits
        rw [if_pos c3]
        obtain ⟨hlen, _⟩ := hmlen c2 c3
        have htake : m.take (e + 1).toNat ≠ [] := by
          intro h
          rw [List.take_eq_nil_iff] at h
          rcases h with h | h
          · omega
          · exact hmne h
        have hdrop : m.drop (e + 1).toNat ≠ [] := by
          intro h
          rw [List.drop_eq_nil_iff] at h
          omega
        have htd : ∀ c ∈ m.take (e + 1).toNat, isDigit c = true :=
          fun c hc => hmd c (List.mem_of_mem_take hc)
        have hdd : ∀ c ∈ m.drop (e + 1).toNat, isDigit c = true :=
          fun c hc => hmd c (List.mem_of_mem_drop hc)
        have hap : '.' ∉ sg ++ m.take (e + 1).toNat := by
          intro h
          rcases List.mem_append.mp h with h | h
          · exact hsgp h
          · exact isDigit_ne_point _ (htd _ h) rfl
        have hshape : sg ++ m.take (e + 1).toNat ++ ['.'] ++ m.drop (e + 1).toNat
            = (sg ++ m.take (e + 1).toNat) ++ '.' :: m.drop (e + 1).toNat := by
          simp
        rw [hshape]
        obtain ⟨zs, z1, z2, z3, z4⟩ := trimFraction_fixed _ _ hap
          (getLast?_digit sg _ htake htd) hdrop hdd
        refine ⟨_, zs, rfl, z1, z2, fun he' => ?_, fun _ => ⟨z3, z4⟩⟩
        exfalso
        simp only [List.mem_append, List.mem_cons] at he'
        rcases he' with (h | h) | h | h
        · exact hsge h
        · exact isDigit_ne_e _ (htd _ h) rfl
        · exact absurd h (by decide)
        · exact isDigit_ne_e _ (hdd _ h) rfl
      · -- zeros between the point and the digits
        rw [if_neg c3]
        have hfd : ∀ c ∈ List.replicate (-(e + 1)).toNat '0' ++ m, isDigit c = true := by
          intro c hc
          rcases List.mem_append.mp hc with h | h
          · rw [List.mem_replicate] at h
            rw [h.2]; decide
          · exact hmd c h
        have hfne : List.replicate (-(e + 1)).toNat '0' ++ m ≠ [] := by
          intro h
          exact hmne (List.append_eq_nil.mp h).2
        have hap : '.' ∉ sg ++ ['0'] := by
          intro h
          rcases List.mem_append.mp h with h | h
          · exact hsgp h
          · simp at h
        have hshape : sg ++ ['0', '.'] ++ List.replicate (-(e + 1)).toNat '0' ++ m
            = (sg ++ ['0']) ++ '.' :: (List.replicate (-(e + 1)).toNat '0' ++ m) := by
          simp
        rw [hshape]
        obtain ⟨zs, z1, z2, z3, z4⟩ := trimFraction_fixed _ _ hap
          (getLast?_digit sg ['0'] (by simp) (by intro c hc; simp at hc; rw [hc]; decide))
          hfne hfd
        refine ⟨_, zs, rfl, z1, z2, fun he' => ?_, fun _ => ⟨z3, z4⟩⟩
        exfalso
        simp only [List.mem_append, List.mem_cons, List.mem_singleton, List.not_mem_nil,
          or_false] at he'
        rcases he' with (h | h) | h | h
        · exact hsge h
        · exact absurd h (by decide)
        · exact absurd h (by decide)
        · exact isDigit_ne_e _ (hfd _ (List.mem_append.mpr h)) rfl

/-! ## Evaluation of a natural numeral -/

theorem replaceAll_digits (m : Option Char → List Char → Option (List Char × List Char))
    (hm : ∀ prev c cs, (∀ d ∈ c :: cs, isDigit d = true) → m prev (c :: cs) = none) :
    ∀ (f : ℕ) (prev : Option Char) (s : List Char), (∀ c ∈ s, isDigit c = true) →
      replaceAll m f prev s = s := by
  intro f
  induction f with
  | zero => intro prev s _; rfl
  | succ f ih =>
    intro prev s hs
    cases s with
    | nil => rfl
    | cons c cs =>
      unfold replaceAll
      rw [hm prev c cs hs]
      simp only
      rw [ih (some c) cs (fun d hd => hs d (List.mem_cons_of_mem _ hd))]

theorem takeWhile_digits (ds rest : List Char) (hd : ∀ c ∈ ds, isDigit c = true)
    (hr : ∀ c, rest.head? = some c → isDigit c = false) :
    (ds ++ rest).takeWhile isDigit = ds ∧ (ds ++ rest).dropWhile isDigit = rest := by
  induction ds with
  | nil =>
    cases rest with
    | nil => simp
    | cons c cs =>
      have := hr c rfl
      simp [List.takeWhile, List.dropWhile, this]
  | cons d ds ih =>
    have hd' : isDigit d = true := hd d (by simp)
    obtain ⟨i1, i2⟩ := ih (fun c hc => hd c (List.mem_cons_of_mem _ hc))
    simp [List.takeWhile, List.dropWhile, hd', i1, i2]

theorem matchGlyph_digit (g : Char) (rep : List Char) (hg : isDigit g = false)
    (prev : Option Char) (c : Char) (cs : List Char) (hc : isDigit c = true) :
    matchGlyph g rep prev (c :: cs) = none := by
  unfold matchGlyph
  have : c ≠ g := by
    intro e
    rw [e, hg] at hc
    exact absurd hc (by decide)
  simp [this]

theorem matchStandaloneE_digit (prev : Option Char) (c : Char) (cs : List Char)
    (hc : isDigit c = true) : matchStandaloneE prev (c :: cs) = none := by
  unfold matchStandaloneE
  have : c ≠ 'e' := isDigit_ne_e c hc
  simp [this]

theorem matchWord_digit (word rep : List Char) (w : Char) (ws : List Char)
    (hw : word = w :: ws) (hwd : isDigit w = false)
    (prev : Option Char) (c : Char) (cs : List Char) (hc : isDigit c = true) :
    matchWord word rep prev (c :: cs) = none := by
  unfold matchWord
  have : w ≠ c := by
    intro e
    rw [e, hc] at hwd
    exact absurd hwd (by decide)
  have hp : word.isPrefixOf (c :: cs) = false := by
    rw [hw]
    simp [List.isPrefixOf, this]
  simp [hp]

theorem matchPercent_digits (prev : Option Char) (s : List Char)
    (hs : ∀ d ∈ s, isDigit d = true) : matchPercent prev s = none := by
  obtain ⟨h1, h2⟩ := takeWhile_digits s [] hs (by simp)
  rw [List.append_nil] at h1 h2
  unfold matchPercent
  simp only [h1, h2]
  split_ifs <;> rfl

theorem matchFactorial_digits (prev : Option Char) (c : Char) (cs : List Char)
    (hs : ∀ d ∈ c :: cs, isDigit d = true) : matchFactorial prev (c :: cs) = none := by
  have hall : ∀ d ∈ c :: cs, (isDigit d || decide (d = '.')) = true := by
    intro d hd
    simp [hs d hd]
  have h1 : (c :: cs).takeWhile (fun c => isDigit c || decide (c = '.')) = c :: cs :=
    List.takeWhile_eq_self_iff.mpr hall
  have h2 : (c :: cs).dropWhile (fun c => isDigit c || decide (c = '.')) = [] :=
    List.dropWhile_eq_nil_iff.mpr hall
  have hc : c ≠ '(' := by
    intro e
    have := hs c (by simp)
    rw [e] at this
    exact absurd this (by decide)
  unfold matchFactorial
  simp only [h1, h2]
  split
  · rename_i heq
    simp only [List.cons.injEq] at heq
    exact absurd heq.1 hc
  · rfl

theorem rewrite_digits (s : List Char) (hs : ∀ d ∈ s, isDigit d = true) : rewrite s = s := by
  have g : ∀ (g : Char) (rep : List Char), isDigit g = false →
      replaceGlobal (matchGlyph g rep) s = s := by
    intro g rep hg
    exact replaceAll_digits _
      (fun prev c cs h => matchGlyph_digit g rep hg prev c cs (h c (by simp))) _ _ s hs
  have w : ∀ (word rep : List Char) (w : Char) (ws : List Char), word = w :: ws →
      isDigit w = false → replaceGlobal (matchWord word rep) s = s := by
    intro word rep w ws hw hwd
    exact replaceAll_digits _
      (fun prev c cs h => matchWord_digit word rep w ws hw hwd prev c cs (h c (by simp))) _ _ s hs
  have e : replaceGlobal matchStandaloneE s = s :=
    replaceAll_digits _ (fun prev c cs h => matchStandaloneE_digit prev c cs (h c (by simp)))
      _ _ s hs
  have p : replaceGlobal matchPercent s = s :=
    replaceAll_digits _ (fun prev c cs h => matchPercent_digits prev (c :: cs) h) _ _ s hs
  have f : replaceGlobal matchFactorial s = s :=
    replaceAll_digits _ (fun prev c cs h => matchFactorial_digits prev c cs h) _ _ s hs
  unfold rewrite
  simp only [g '×' _ (by decide), g '÷' _ (by decide), g 'π' _ (by decide), e, p, f,
    g '^' _ (by decide), w "log(".toList _ 'l' "og(".toList rfl (by decide),
    w "ln(".toList _ 'l' "n(".toList rfl (by decide)]

theorem digitChar_toNat (n : ℕ) : (JSNum.digitChar n).toNat - 48 = n % 10 := by
  unfold JSNum.digitChar
  have h : n % 10 < 10 := Nat.mod_lt _ (by norm_num)
  generalize n % 10 = r at h
  interval_cases r <;> rfl

theorem digitChar_ne_zero (n : ℕ) (h : n % 10 ≠ 0) : JSNum.digitChar n ≠ '0' := by
  intro e
  have := digitChar_toNat n
  rw [e] at this
  have h0 : ('0' : Char).toNat - 48 = 0 := by decide
  omega

theorem digitsValue_append (a : List Char) (c : Char) :
    digitsValue (a ++ [c]) = 10 * digitsValue a + (c.toNat - 48) := by
  simp [digitsValue, List.foldl_append]

theorem digitsValue_digitsFuel (f : ℕ) : ∀ n : ℕ, n ≤ f →
    digitsValue (JSNum.digitsFuel f n) = n := by
  induction f with
  | zero =>
    intro n h
    have : n = 0 := by omega
    subst this
    rfl
  | succ f ih =>
    intro n h
    unfold JSNum.digitsFuel
    split_ifs with h0
    · subst h0; rfl
    · have hlt : n / 10 < n := Nat.div_lt_self (Nat.pos_of_ne_zero h0) (by norm_num)
      rw [digitsValue_append, ih (n / 10) (by omega), digitChar_toNat]
      omega

theorem digitsValue_natDigits (n : ℕ) : digitsValue (JSNum.natDigits n) = n := by
  unfold JSNum.natDigits
  split_ifs with h
  · subst h; rfl
  · exact digitsValue_digitsFuel n n le_rfl

theorem digitsFuel_head (f : ℕ) : ∀ n : ℕ, 0 < n → n ≤ f →
    ∃ c cs, JSNum.digitsFuel f n = c :: cs ∧ c ≠ '0' := by
  induction f with
  | zero => intro n h0 h; omega
  | succ f ih =>
    intro n h0 h
    unfold JSNum.digitsFuel
    rw [if_neg (by omega)]
    rcases Nat.lt_or_ge n 10 with hlt | hge
    · have hz : n / 10 = 0 := Nat.div_eq_of_lt hlt
      have hd : JSNum.digitsFuel f (n / 10) = [] := by
        rw [hz]
        cases f <;> simp [JSNum.digitsFuel]
      rw [hd]
      refine ⟨JSNum.digitChar n, [], rfl, digitChar_ne_zero n ?_⟩
      rw [Nat.mod_eq_of_lt hlt]
      omega
    · have hpos : 0 < n / 10 := Nat.div_pos hge (by norm_num)
      have hlt : n / 10 < n := Nat.div_lt_self h0 (by norm_num)
      obtain ⟨c, cs, h1, h2⟩ := ih (n / 10) hpos (by omega)
      exact ⟨c, cs ++ [JSNum.digitChar n], by rw [h1]; rfl, h2⟩

/-- The numeral of a natural number has no superfluous leading zero. -/
theorem natDigits_leading (n : ℕ) :
    ¬ (1 < (JSNum.natDigits n).length ∧ (JSNum.natDigits n).head? = some '0') := by
  unfold JSNum.natDigits
  split_ifs with h
  · simp
  · obtain ⟨c, cs, h1, h2⟩ := digitsFuel_head n n (Nat.pos_of_ne_zero h) le_rfl
    rw [h1]
    simp [h2]

theorem lexNumber_natDigits (n : ℕ) :
    lexNumber (JSNum.natDigits n ++ [')']) = Outcome.ok ((n : ℚ), [')']) := by
  obtain ⟨h1, h2⟩ := takeWhile_digits (JSNum.natDigits n) [')']
    (JSNum.natDigits_isDigit n) (by intro c hc; simp at hc; rw [← hc]; decide)
  unfold lexNumber
  simp only [h1, h2]
  rw [if_neg (natDigits_leading n)]
  simp [finishNumber, wordAhead, isWordChar, decimalLiteralValue, digitsValue_natDigits,
    JSNum.pow10, JSNum.powInt]

theorem lex_natDigits (n f : ℕ) :
    lex (f + 4) none (['('] ++ JSNum.natDigits n ++ [')'])
      = Outcome.ok [Token.lparen, Token.num (n : ℚ), Token.rparen] := by
  obtain ⟨c, cs, hcs⟩ := List.exists_cons_of_ne_nil (JSNum.natDigits_ne_nil n)
  have hc : isDigit c = true := JSNum.natDigits_isDigit n c (by rw [hcs]; simp)
  have hsp : c ≠ ' ' := by
    intro e; rw [e] at hc; exact absurd hc (by decide)
  have htab : c ≠ '\t' := by
    intro e; rw [e] at hc; exact absurd hc (by decide)
  have hnum := lexNumber_natDigits n
  rw [hcs] at hnum
  have step1 : lex (f + 4) none (['('] ++ JSNum.natDigits n ++ [')'])
      = (lex (f + 3) (some Token.lparen) (JSNum.natDigits n ++ [')'])).bind
          fun ts => Outcome.ok (Token.lparen :: ts) := by
    simp [lex, isDigit, isIdentStart]
  have step2 : lex (f + 3) (some Token.lparen) (JSNum.natDigits n ++ [')'])
      = (lex (f + 2) (some (Token.num (n : ℚ))) [')']).bind
          fun ts => Outcome.ok (Token.num (n : ℚ) :: ts) := by
    rw [hcs, List.cons_append]
    conv_lhs => rw [lex]
    simp only [hsp, htab, or_self, if_false, hc, true_or, if_true]
    rw [← List.cons_append, hnum]
    simp [Outcome.bind]
  have step3 : lex (f + 2) (some (Token.num (n : ℚ))) [')']
      = Outcome.ok [Token.rparen] := by
    simp [lex, isDigit, isIdentStart, Outcome.bind]
  rw [step1, step2, step3]
  rfl

theorem parse_number (q : ℚ) :
    parseExpression 40 [Token.lparen, Token.num q, Token.rparen]
      = Outcome.ok (Expr.num q, []) := by
  rfl

theorem runFunction_natDigits (globals : List Char → Option Value) (fuel n : ℕ) :
    runFunction globals (fuel + 1) (JSNum.natDigits n)
      = Outcome.ok (Value.num (JSNum.roundDouble (n : ℚ))) := by
  obtain ⟨k, hk⟩ : ∃ k, (['('] ++ JSNum.natDigits n ++ [')']).length + 1 = k + 4 := by
    have : 0 < (JSNum.natDigits n).length :=
      List.length_pos.mpr (JSNum.natDigits_ne_nil n)
    refine ⟨(JSNum.natDigits n).length - 1, ?_⟩
    simp only [List.length_append, List.length_cons, List.length_nil]
    omega
  unfold runFunction
  simp only [hk, lex_natDigits, Outcome.bind]
  have : 10 * [Token.lparen, Token.num (n : ℚ), Token.rparen].length + 10 = 40 := rfl
  rw [this, parse_number]
  rfl

theorem evaluateExpression_natDigits (globals : List Char → Option Value) (fuel n : ℕ) :
    evaluateExpression globals (fuel + 1) (JSNum.natDigits n)
      = Outcome.ok (Value.num (JSNum.roundDouble (n : ℚ))) := by
  unfold evaluateExpression
  rw [if_neg (JSNum.natDigits_ne_nil n), rewrite_digits _ (JSNum.natDigits_isDigit n),
    runFunction_natDigits]

theorem floor_natCast_add_half (n : ℕ) : ⌊(n : ℚ) + 1 / 2⌋ = (n : ℤ) := by
  rw [Int.floor_eq_iff]
  constructor
  · push_cast; linarith
  · push_cast; linarith

theorem nearInteger_natCast (n : ℕ) : nearInteger (JSNum.fin (n : ℚ)) = true := by
  have h0 : JSNum.lt (JSNum.fin 0) (JSNum.lit (1 / 10 ^ 12)) = true := by decide!
  unfold nearInteger
  simp only [JSNum.round, floor_natCast_add_half, JSNum.sub, JSNum.neg, JSNum.add]
  have : ((n : ℤ) : ℚ) + -(n : ℚ) = 0 := by push_cast; ring
  rw [this]
  simpa [JSNum.roundDouble, JSNum.abs] using h0

/-- The formatted text of a natural number below `2^53` is its numeral. -/
theorem formatResult_natCast (precision : List Char) (n : ℕ) (hn : n < 2 ^ 53) :
    formatResult precision (Value.num (JSNum.fin (n : ℚ))) = Outcome.ok (JSNum.natDigits n) := by
  have hn' : (n : ℤ) < 2 ^ 53 := by exact_mod_cast hn
  have habs : |(n : ℤ)| = (n : ℤ) := abs_of_nonneg (by positivity)
  have hd := JSNum.roundDouble_natCast n hn.le
  obtain ⟨d, h1, _, h3⟩ := JSNum.numberToString_intCast (n : ℤ)
    (by rw [habs]; omega) (by simpa using hd)
  have hdn : d = n := by
    have := h3 (by rw [habs]; exact hn')
    rw [habs] at this
    exact_mod_cast this
  have hneg : ¬ ((n : ℤ) < 0) := by omega
  rw [if_neg hneg, hdn, List.nil_append] at h1
  unfold formatResult
  simp only [nearInteger_natCast, if_true, JSNum.round, floor_natCast_add_half, h1,
    Outcome.ofOption]

/-! ## Evaluation of an unresolvable identifier -/

theorem isIdentStart_not_digit (c : Char) (h : isIdentStart c = true) : isDigit c = false := by
  by_contra hd
  rw [Bool.not_eq_false] at hd
  have h1 : 48 ≤ c.toNat ∧ c.toNat ≤ 57 := by
    simp only [isDigit, decide_eq_true_eq] at hd
    exact ⟨hd.1, hd.2⟩
  have h2 : ¬ (isIdentStart c = true) := by
    simp only [isIdentStart, Char.isAlpha, Char.isUpper, Char.isLower, Bool.or_eq_true,
      Bool.and_eq_true, decide_eq_true_eq, not_or, not_and]
    have hu : c.val.toNat = c.toNat := rfl
    refine ⟨⟨⟨?_, ?_⟩, ?_⟩, ?_⟩
    · intro h3
      have : (65 : ℕ) ≤ c.val.toNat := h3
      omega
    · intro h3
      have : (97 : ℕ) ≤ c.val.toNat := h3
      omega
    · intro e
      rw [e] at h1
      exact absurd h1 (by decide)
    · intro e
      rw [e] at h1
      exact absurd h1 (by decide)
  exact h2 h

theorem takeWhile_identPart (cs : List Char) (h : cs.all isIdentPart = true) :
    (cs ++ [')']).takeWhile isIdentPart = cs ∧ (cs ++ [')']).dropWhile isIdentPart = [')'] := by
  induction cs with
  | nil => exact ⟨by decide, by decide⟩
  | cons d ds ih =>
    simp only [List.all_cons, Bool.and_eq_true] at h
    obtain ⟨i1, i2⟩ := ih h.2
    simp [List.takeWhile, List.dropWhile, h.1, i1, i2]

theorem lex_identifier (c : Char) (cs : List Char) (f : ℕ) (hc : isIdentStart c = true)
    (hcs : cs.all isIdentPart = true) (hsp : String.mk (c :: cs) ∉ specialWords) :
    lex (f + 4) none (['('] ++ (c :: cs) ++ [')'])
      = Outcome.ok [Token.lparen, Token.ident (c :: cs), Token.rparen] := by
  have hd : isDigit c = false := isIdentStart_not_digit c hc
  have h1 : c ≠ ' ' := by
    intro e; rw [e] at hc; exact absurd hc (by decide)
  have h2 : c ≠ '\t' := by
    intro e; rw [e] at hc; exact absurd hc (by decide)
  have h3 : c ≠ '.' := by
    intro e; rw [e] at hc; exact absurd hc (by decide)
  obtain ⟨t1, t2⟩ := takeWhile_identPart cs hcs
  have step1 : lex (f + 4) none (['('] ++ (c :: cs) ++ [')'])
      = (lex (f + 3) (some Token.lparen) ((c :: cs) ++ [')'])).bind
          fun ts => Outcome.ok (Token.lparen :: ts) := by
    simp [lex, isDigit, isIdentStart]
  have step2 : lex (f + 3) (some Token.lparen) ((c :: cs) ++ [')'])
      = (lex (f + 2) (some (Token.ident (c :: cs))) [')']).bind
          fun ts => Outcome.ok (Token.ident (c :: cs) :: ts) := by
    rw [List.cons_append]
    conv_lhs => rw [lex]
    simp only [h1, h2, h3, or_self, if_false, hd, false_and, Bool.false_eq_true, hc, if_true,
      t1, t2, hsp]
  have step3 : lex (f + 2) (some (Token.ident (c :: cs))) [')']
      = Outcome.ok [Token.rparen] := by
    simp [lex, isDigit, isIdentStart, Outcome.bind]
  rw [step1, step2, step3]
  rfl

theorem parse_identifier (name : List Char) :
    parseExpression 40 [Token.lparen, Token.ident name, Token.rparen]
      = Outcome.ok (Expr.ident name, []) := by
  rfl

/-- A reference to an identifier that is neither a name of the namespace nor
bound in the global scope makes the constructed function throw. -/
theorem runFunction_unresolvable (globals : List Char → Option Value) (fuel : ℕ) (c : Char)
    (cs : List Char) (hc : isIdentStart c = true) (hcs : cs.all isIdentPart = true)
    (hsp : String.mk (c :: cs) ∉ specialWords) (hctx : context (c :: cs) = none)
    (hglob : globals (c :: cs) = none) :
    runFunction globals (fuel + 1) (c :: cs) = Outcome.threw := by
  obtain ⟨k, hk⟩ : ∃ k, (['('] ++ (c :: cs) ++ [')']).length + 1 = k + 4 := by
    refine ⟨cs.length, ?_⟩
    simp only [List.length_append, List.length_cons, List.length_nil]
    omega
  unfold runFunction
  simp only [hk, lex_identifier c cs _ hc hcs hsp, Outcome.bind]
  have : 10 * [Token.lparen, Token.ident (c :: cs), Token.rparen].length + 10 = 40 := rfl
  rw [this, parse_identifier]
  simp [eval, resolve, hctx, hglob]

/-! ## Evaluation of a decimal numeral -/

theorem replaceAll_of_none (m : Option Char → List Char → Option (List Char × List Char))
    (P : Char → Prop)
    (hm : ∀ prev c cs, (∀ d ∈ c :: cs, P d) → m prev (c :: cs) = none) :
    ∀ (f : ℕ) (prev : Option Char) (s : List Char), (∀ c ∈ s, P c) →
      replaceAll m f prev s = s := by
  intro f
  induction f with
  | zero => intro prev s _; rfl
  | succ f ih =>
    intro prev s hs
    cases s with
    | nil => rfl
    | cons c cs =>
      unfold replaceAll
      rw [hm prev c cs hs]
      simp only
      rw [ih (some c) cs (fun d hd => hs d (List.mem_cons_of_mem _ hd))]

theorem matchGlyph_of_ne (g : Char) (rep : List Char) (prev : Option Char) (c : Char)
    (cs : List Char) (h : c ≠ g) : matchGlyph g rep prev (c :: cs) = none := by
  simp [matchGlyph, h]

theorem matchStandaloneE_of_ne (prev : Option Char) (c : Char) (cs : List Char)
    (h : c ≠ 'e') : matchStandaloneE prev (c :: cs) = none := by
  simp [matchStandaloneE, h]

theorem matchWord_of_ne (word rep : List Char) (w : Char) (ws : List Char)
    (hw : word = w :: ws) (prev : Option Char) (c : Char) (cs : List Char) (h : c ≠ w) :
    matchWord word rep prev (c :: cs) = none := by
  unfold matchWord
  have hp : word.isPrefixOf (c :: cs) = false := by
    rw [hw]
    simp [List.isPrefixOf, Ne.symm h]
  simp [hp]

theorem mem_of_dropWhile_eq {p : Char → Bool} {s r : List Char} {c : Char}
    (h : s.dropWhile p = c :: r) : c ∈ s := by
  have : c ∈ s.dropWhile p := by rw [h]; simp
  exact (List.dropWhile_suffix p).subset this

theorem matchPercent_none (prev : Option Char) (s : List Char) (h : '%' ∉ s) :
    matchPercent prev s = none := by
  unfold matchPercent
  dsimp only
  split_ifs with h0
  · rfl
  · split
    · rename_i r heq
      exact absurd (mem_of_dropWhile_eq heq) h
    · rename_i r2 heq
      split
      · rename_i f fs r h1 h2
        have h3 : '%' ∈ r2 := mem_of_dropWhile_eq h2
        have h4 : '.' :: r2 = s.dropWhile isDigit := heq.symm
        have h5 : '%' ∈ s.dropWhile isDigit := by rw [← h4]; exact List.mem_cons_of_mem _ h3
        exact absurd ((List.dropWhile_suffix _).subset h5) h
      · rfl
    · rfl

theorem matchFactorial_none (prev : Option Char) (s : List Char) (h : '!' ∉ s) :
    matchFactorial prev s = none := by
  unfold matchFactorial
  dsimp only
  split
  · rename_i d ds r h1 h2
    exact absurd (mem_of_dropWhile_eq h2) h
  · split
    · rename_i t _
      split
      · rename_i x xs r h1 h2
        have h4 : '!' ∈ t := by
          apply (List.dropWhile_suffix (fun c => c != ')')).subset
          rw [h2]
          simp
        exact absurd (List.mem_cons_of_mem _ h4) h
      · rfl
    · rfl

/-- The rewrite pass leaves a text of digits, points and minus signs as it is. -/
theorem rewrite_plain (s : List Char)
    (hs : ∀ c ∈ s, isDigit c = true ∨ c = '.' ∨ c = '-') : rewrite s = s := by
  have hne : ∀ (g : Char), isDigit g = false → g ≠ '.' → g ≠ '-' →
      ∀ c, (isDigit c = true ∨ c = '.' ∨ c = '-') → c ≠ g := by
    intro g h1 h2 h3 c hc e
    subst e
    rcases hc with h | h | h
    · rw [h1] at h; exact absurd h (by decide)
    · exact h2 h
    · exact h3 h
  have hmem : ∀ (g : Char), isDigit g = false → g ≠ '.' → g ≠ '-' → g ∉ s := by
    intro g h1 h2 h3 hg
    exact hne g h1 h2 h3 g (hs g hg) rfl
  have g : ∀ (g : Char) (rep : List Char), isDigit g = false → g ≠ '.' → g ≠ '-' →
      replaceGlobal (matchGlyph g rep) s = s := by
    intro g rep h1 h2 h3
    exact replaceAll_of_none _ _
      (fun prev c cs h => matchGlyph_of_ne g rep prev c cs (hne g h1 h2 h3 c (h c (by simp))))
      _ _ s hs
  have w : ∀ (word rep : List Char) (w : Char) (ws : List Char), word = w :: ws →
      isDigit w = false → w ≠ '.' → w ≠ '-' → replaceGlobal (matchWord word rep) s = s := by
    intro word rep w ws hw h1 h2 h3
    exact replaceAll_of_none _ _
      (fun prev c cs h => matchWord_of_ne word rep w ws hw prev c cs
        (hne w h1 h2 h3 c (h c (by simp)))) _ _ s hs
  have e : replaceGlobal matchStandaloneE s = s :=
    replaceAll_of_none _ _
      (fun prev c cs h => matchStandaloneE_of_ne prev c cs
        (hne 'e' (by decide) (by decide) (by decide) c (h c (by simp)))) _ _ s hs
  have p : replaceGlobal matchPercent s = s :=
    replaceAll_of_none _ _
      (fun prev c cs h => matchPercent_none prev (c :: cs) (fun hm =>
        hne '%' (by decide) (by decide) (by decide) _ (h _ hm) rfl)) _ _ s hs
  have f : replaceGlobal matchFactorial s = s :=
    replaceAll_of_none _ _
      (fun prev c cs h => matchFactorial_none prev (c :: cs) (fun hm =>
        hne '!' (by decide) (by decide) (by decide) _ (h _ hm) rfl)) _ _ s hs
  unfold rewrite
  simp only [g '×' _ (by decide) (by decide) (by decide),
    g '÷' _ (by decide) (by decide) (by decide), g 'π' _ (by decide) (by decide) (by decide),
    e, p, f, g '^' _ (by decide) (by decide) (by decide),
    w "log(".toList _ 'l' "og(".toList rfl (by decide) (by decide) (by decide),
    w "ln(".toList _ 'l' "n(".toList rfl (by decide) (by decide) (by decide)]

theorem lexNumber_decimal (I F : List Char) (hI : ∀ c ∈ I, isDigit c = true)
    (hlead : ¬ (1 < I.length ∧ I.head? = some '0')) (hF : ∀ c ∈ F, isDigit c = true) :
    lexNumber (I ++ (if F = [] then [] else '.' :: F) ++ [')'])
      = Outcome.ok (decimalLiteralValue I F 0, [')']) := by
  by_cases hF0 : F = []
  · subst hF0
    obtain ⟨h1, h2⟩ := takeWhile_digits I [')'] hI (by intro c hc; simp at hc; rw [← hc]; decide)
    unfold lexNumber
    simp only [if_true, List.append_nil, h1, h2]
    rw [if_neg hlead]
    simp [finishNumber, wordAhead, isWordChar]
  · obtain ⟨h1, h2⟩ := takeWhile_digits I ('.' :: F ++ [')']) hI
      (by intro c hc; simp at hc; rw [← hc]; decide)
    obtain ⟨h3, h4⟩ := takeWhile_digits F [')'] hF
      (by intro c hc; simp at hc; rw [← hc]; decide)
    have hshape : I ++ (if F = [] then [] else '.' :: F) ++ [')'] = I ++ ('.' :: F ++ [')']) := by
      rw [if_neg hF0]
      simp
    rw [hshape]
    unfold lexNumber
    simp only [h1, h2]
    rw [if_neg hlead]
    simp only [List.cons_append, h3, h4]
    simp [finishNumber, wordAhead, isWordChar]

theorem lex_decimal_tail (f : ℕ) (prev : Option Token) (I F : List Char)
    (hI : ∀ c ∈ I, isDigit c = true) (hne : I ≠ [])
    (hlead : ¬ (1 < I.length ∧ I.head? = some '0')) (hF : ∀ c ∈ F, isDigit c = true) :
    lex (f + 3) prev (I ++ (if F = [] then [] else '.' :: F) ++ [')'])
      = Outcome.ok [Token.num (decimalLiteralValue I F 0), Token.rparen] := by
  obtain ⟨c, cs, hcs⟩ := List.exists_cons_of_ne_nil hne
  have hc : isDigit c = true := hI c (by rw [hcs]; simp)
  have hsp : c ≠ ' ' := by
    intro e; rw [e] at hc; exact absurd hc (by decide)
  have htab : c ≠ '\t' := by
    intro e; rw [e] at hc; exact absurd hc (by decide)
  have hnum := lexNumber_decimal I F hI hlead hF
  have step3 : lex (f + 2) (some (Token.num (decimalLiteralValue I F 0))) [')']
      = Outcome.ok [Token.rparen] := by
    simp [lex, isDigit, isIdentStart, Outcome.bind]
  have hlen : ([')'] : List Char).length
      < (I ++ (if F = [] then [] else '.' :: F) ++ [')']).length := by
    rw [hcs]
    simp
  generalize htxt : I ++ (if F = [] then [] else '.' :: F) ++ [')'] = txt at hnum hlen
  obtain ⟨c', cs', htc⟩ : ∃ c' cs', txt = c' :: cs' := by
    rw [← htxt, hcs]
    exact ⟨c, _, rfl⟩
  have hcc : c' = c := by
    rw [← htxt, hcs] at htc
    simp only [List.cons_append, List.cons.injEq] at htc
    exact htc.1.symm
  subst hcc
  rw [htc] at hnum hlen ⊢
  conv_lhs => rw [lex]
  simp only [hsp, htab, or_self, if_false, hc, true_or, if_true]
  rw [hnum]
  simp only [Outcome.bind, hlen, if_true, step3]

theorem lex_decimal (f : ℕ) (negative : Bool) (I F : List Char)
    (hI : ∀ c ∈ I, isDigit c = true) (hne : I ≠ [])
    (hlead : ¬ (1 < I.length ∧ I.head? = some '0')) (hF : ∀ c ∈ F, isDigit c = true) :
    lex (f + (if negative then 5 else 4)) none
        (['('] ++ ((if negative then ['-'] else []) ++ I ++ (if F = [] then [] else '.' :: F))
          ++ [')'])
      = Outcome.ok ([Token.lparen] ++ (if negative then [Token.minus] else [])
          ++ [Token.num (decimalLiteralValue I F 0), Token.rparen]) := by
  obtain ⟨c, cs, hcs⟩ := List.exists_cons_of_ne_nil hne
  have hc : isDigit c = true := hI c (by rw [hcs]; simp)
  cases negative with
  | false =>
    have h := lex_decimal_tail f (some Token.lparen) I F hI hne hlead hF
    have step1 : lex (f + 4) none
        (['('] ++ (([] : List Char) ++ I ++ (if F = [] then [] else '.' :: F)) ++ [')'])
        = (lex (f + 3) (some Token.lparen)
            (I ++ (if F = [] then [] else '.' :: F) ++ [')'])).bind
          fun ts => Outcome.ok (Token.lparen :: ts) := by
      simp [lex, isDigit, isIdentStart]
    simp only [Bool.false_eq_true, if_false]
    rw [step1, h]
    rfl
  | true =>
    have h := lex_decimal_tail f (some Token.minus) I F hI hne hlead hF
    have hhead : (I ++ (if F = [] then [] else '.' :: F) ++ [')']).head? ≠ some '-' := by
      rw [hcs]
      simp only [List.cons_append, List.head?_cons, ne_eq, Option.some.injEq]
      intro e
      rw [e] at hc
      exact absurd hc (by decide)
    have step1 : lex (f + 5) none
        (['('] ++ (['-'] ++ I ++ (if F = [] then [] else '.' :: F)) ++ [')'])
        = (lex (f + 4) (some Token.lparen)
            ('-' :: (I ++ (if F = [] then [] else '.' :: F) ++ [')']))).bind
          fun ts => Outcome.ok (Token.lparen :: ts) := by
      simp [lex, isDigit, isIdentStart]
    have step2 : lex (f + 4) (some Token.lparen)
          ('-' :: (I ++ (if F = [] then [] else '.' :: F) ++ [')']))
        = (lex (f + 3) (some Token.minus)
            (I ++ (if F = [] then [] else '.' :: F) ++ [')'])).bind
          fun ts => Outcome.ok (Token.minus :: ts) := by
      generalize I ++ (if F = [] then [] else '.' :: F) ++ [')'] = tl at hhead
      conv_lhs => rw [lex]
      simp [isDigit, isIdentStart, hhead]
    simp only [if_true]
    rw [step1, step2, h]
    rfl

theorem parse_negated_number (q : ℚ) :
    parseExpression 50 [Token.lparen, Token.minus, Token.num q, Token.rparen]
      = Outcome.ok (Expr.unary true (Expr.num q), []) := by
  rfl

/-- The value of an optional minus sign, an integer part without superfluous
leading zero and an optional fraction: the binary64 value nearest to the
decimal, negated after the conversion when there is a sign. -/
theorem evaluateExpression_decimal (globals : List Char → Option Value) (fuel : ℕ)
    (negative : Bool) (I F : List Char)
    (hI : ∀ c ∈ I, isDigit c = true) (hne : I ≠ [])
    (hlead : ¬ (1 < I.length ∧ I.head? = some '0')) (hF : ∀ c ∈ F, isDigit c = true) :
    evaluateExpression globals (fuel + 2)
        ((if negative then ['-'] else []) ++ I ++ (if F = [] then [] else '.' :: F))
      = Outcome.ok (Value.num (if negative
          then JSNum.neg (JSNum.roundDouble (decimalLiteralValue I F 0))
          else JSNum.roundDouble (decimalLiteralValue I F 0))) := by
  have hplain : ∀ c ∈ (if negative then ['-'] else []) ++ I ++ (if F = [] then [] else '.' :: F),
      isDigit c = true ∨ c = '.' ∨ c = '-' := by
    intro c hc
    simp only [List.mem_append] at hc
    rcases hc with (h | h) | h
    · cases negative
      · simp at h
      · simp at h
        exact Or.inr (Or.inr h)
    · exact Or.inl (hI c h)
    · split_ifs at h
      · simp at h
      · rcases List.mem_cons.mp h with h | h
        · exact Or.inr (Or.inl h)
        · exact Or.inl (hF c h)
  have hnil : (if negative then ['-'] else []) ++ I ++ (if F = [] then [] else '.' :: F) ≠ [] := by
    intro h
    simp only [List.append_eq_nil] at h
    exact hne h.1.2
  have hlenI : 0 < I.length := List.length_pos.mpr hne
  obtain ⟨k, hk⟩ : ∃ k, (['('] ++ ((if negative then ['-'] else []) ++ I
      ++ (if F = [] then [] else '.' :: F)) ++ [')']).length + 1
        = k + (if negative then 5 else 4) := by
    refine ⟨I.length + (if F = [] then [] else '.' :: F).length - 1, ?_⟩
    cases negative
    · simp only [List.length_append, List.length_cons, List.length_nil, Bool.false_eq_true,
        if_false]
      omega
    · simp only [List.length_append, List.length_cons, List.length_nil, if_true]
      omega
  unfold evaluateExpression
  rw [if_neg hnil, rewrite_plain _ hplain]
  unfold runFunction
  simp only [hk, lex_decimal k negative I F hI hne hlead hF, Outcome.bind]
  cases negative
  · have : 10 * ([Token.lparen] ++ (if false = true then [Token.minus] else [])
        ++ [Token.num (decimalLiteralValue I F 0), Token.rparen]).length + 10 = 40 := rfl
    rw [this]
    simp only [Bool.false_eq_true, if_false, List.append_nil, List.singleton_append,
      parse_number]
    rfl
  · have : 10 * ([Token.lparen] ++ (if true = true then [Token.minus] else [])
        ++ [Token.num (decimalLiteralValue I F 0), Token.rparen]).length + 10 = 50 := rfl
    rw [this]
    simp only [if_true, List.singleton_append, List.cons_append, parse_negated_number]
    rfl

/-! ## The value of a trimmed decimal text -/

theorem foldl_digits (B : List Char) : ∀ acc : ℕ,
    List.foldl (fun acc c => 10 * acc + (c.toNat - 48)) acc B
      = acc * 10 ^ B.length + digitsValue B := by
  induction B with
  | nil => intro acc; simp [digitsValue]
  | cons c cs ih =>
    intro acc
    unfold digitsValue
    simp only [List.foldl_cons, List.length_cons]
    rw [ih (10 * acc + (c.toNat - 48)), ih (10 * 0 + (c.toNat - 48))]
    ring

theorem digitsValue_append_list (A B : List Char) :
    digitsValue (A ++ B) = digitsValue A * 10 ^ B.length + digitsValue B := by
  unfold digitsValue
  rw [List.foldl_append]
  exact foldl_digits B _

theorem digitsValue_zeros (zs : List Char) (h : ∀ c ∈ zs, c = '0') : digitsValue zs = 0 := by
  induction zs with
  | nil => rfl
  | cons c cs ih =>
    have hc : c = '0' := h c (by simp)
    have := digitsValue_append_list [c] cs
    rw [List.singleton_append] at this
    rw [this, ih (fun d hd => h d (List.mem_cons_of_mem _ hd)), hc]
    have : digitsValue ['0'] = 0 := rfl
    rw [this]
    simp

/-- Trailing zeros of the fraction do not change the value of a decimal. -/
theorem decimalLiteralValue_dropZeros (I F : List Char) :
    decimalLiteralValue I (dropZeros F) 0 = decimalLiteralValue I F 0 := by
  obtain ⟨zs, h1, h2⟩ := dropZeros_append_zeros F
  unfold decimalLiteralValue
  conv_rhs => rw [h1]
  rw [← List.append_assoc, digitsValue_append_list (I ++ dropZeros F) zs,
    digitsValue_zeros zs h2, List.length_append, JSNum.pow10_eq, JSNum.pow10_eq]
  push_cast
  have h10 : (10 : ℚ) ≠ 0 := by norm_num
  rw [add_zero, zero_sub, zero_sub, neg_add, zpow_add₀ h10, zpow_neg, zpow_neg, zpow_natCast,
    zpow_natCast]
  have : ((10 : ℚ) ^ zs.length) ≠ 0 := by positivity
  field_simp
  ring

theorem natDigits_length (n P : ℕ) (hP1 : 1 ≤ P) (hn1 : 10 ^ (P - 1) ≤ n) (hn2 : n < 10 ^ P) :
    (JSNum.natDigits n).length = P := by
  have hpos : 0 < n := lt_of_lt_of_le (by positivity) hn1
  have h1 := JSNum.natDigits_length_gt n (P - 1) hn1
  have h2 : (JSNum.natDigits n).length ≤ P := by
    rw [JSNum.natDigits_eq n hpos]
    simp only [List.length_map, List.length_reverse]
    by_contra hlt
    push_neg at hlt
    have := Nat.base_pow_length_digits_le 10 n (by norm_num) (by omega)
    have h3 : 10 ^ (P + 1) ≤ 10 ^ (Nat.digits 10 n).length :=
      Nat.pow_le_pow_right (by norm_num) hlt
    have h4 : 10 ^ (P + 1) = 10 * 10 ^ P := by ring
    omega
  omega

theorem digitChar_of_digit (c : Char) (h : isDigit c = true) :
    JSNum.digitChar (c.toNat - 48) = c := by
  have h1 : 48 ≤ c.toNat ∧ c.toNat ≤ 57 := by
    simp only [isDigit, decide_eq_true_eq] at h
    exact ⟨h.1, h.2⟩
  apply Char.ext
  apply UInt32.ext
  show (JSNum.digitChar (c.toNat - 48)).toNat = c.toNat
  obtain ⟨a, b⟩ := h1
  generalize c.toNat = v at a b
  interval_cases v <;> rfl

theorem digit_lt_ten (c : Char) (h : isDigit c = true) : c.toNat - 48 < 10 := by
  have h1 : 48 ≤ c.toNat ∧ c.toNat ≤ 57 := by
    simp only [isDigit, decide_eq_true_eq] at h
    exact ⟨h.1, h.2⟩
  omega

/-- A digit string without a superfluous leading zero is the numeral of its
value. -/
theorem natDigits_digitsValue (I : List Char) : (∀ c ∈ I, isDigit c = true) → I ≠ [] →
    ¬ (1 < I.length ∧ I.head? = some '0') → JSNum.natDigits (digitsValue I) = I := by
  induction I using List.reverseRecOn with
  | nil => intro _ h; exact absurd rfl h
  | append_singleton xs c ih =>
    intro hd _ hlead
    have hc : isDigit c = true := hd c (by simp)
    have hc10 := digit_lt_ten c hc
    rw [digitsValue_append]
    by_cases hxs : xs = []
    · subst hxs
      have h0 : digitsValue [] = 0 := rfl
      rw [h0, Nat.mul_zero, Nat.zero_add]
      by_cases hz : c.toNat - 48 = 0
      · rw [hz]
        have := digitChar_of_digit c hc
        rw [hz] at this
        rw [← this]
        rfl
      · rw [JSNum.natDigits_eq _ (Nat.pos_of_ne_zero hz), Nat.digits_of_lt 10 _ hz hc10]
        simp [digitChar_of_digit c hc]
    · have hxd : ∀ d ∈ xs, isDigit d = true := fun d h => hd d (by simp [h])
      obtain ⟨x, xs', hx⟩ := List.exists_cons_of_ne_nil hxs
      have hxlead : ¬ (1 < xs.length ∧ xs.head? = some '0') := by
        intro h
        apply hlead
        rw [hx] at h ⊢
        simp at h ⊢
        exact h.2
      have ihx := ih hxd hxs hxlead
      have hpos : 0 < digitsValue xs := by
        rcases Nat.eq_zero_or_pos (digitsValue xs) with h0 | h
        · exfalso
          rw [h0] at ihx
          apply hlead
          have : xs = ['0'] := ihx.symm
          rw [this]
          simp
        · exact h
      have hpos2 : 0 < 10 * digitsValue xs + (c.toNat - 48) := by omega
      rw [JSNum.natDigits_eq _ hpos2, Nat.digits_def' (by norm_num) hpos2]
      have e1 : (10 * digitsValue xs + (c.toNat - 48)) % 10 = c.toNat - 48 := by omega
      have e2 : (10 * digitsValue xs + (c.toNat - 48)) / 10 = digitsValue xs := by omega
      rw [e1, e2]
      simp only [List.reverse_cons, List.map_append, List.map_cons, List.map_nil]
      rw [← JSNum.natDigits_eq _ hpos, ihx, digitChar_of_digit c hc]

/-- A decimal whose fraction ends in a non-zero digit is not an integer. -/
theorem decimalLiteralValue_not_int (I F : List Char) (hF : ∀ c ∈ F, isDigit c = true)
    (hne : F ≠ []) (hlast : F.getLast? ≠ some '0') (k : ℤ) :
    (k : ℚ) ≠ decimalLiteralValue I F 0 := by
  rcases List.eq_nil_or_concat F with h | ⟨ys, c, rfl⟩
  · exact absurd h hne
  · rw [List.concat_eq_append] at hlast hF ⊢
    have hc : isDigit c = true := hF c (by simp)
    have hc0 : c ≠ '0' := by
      intro e
      apply hlast
      rw [e]
      simp
    have hcv : c.toNat - 48 ≠ 0 := by
      intro e
      have := digitChar_of_digit c hc
      rw [e] at this
      exact hc0 this.symm
    have hc10 := digit_lt_ten c hc
    intro heq
    unfold decimalLiteralValue at heq
    rw [← List.append_assoc, digitsValue_append, JSNum.pow10_eq, zero_sub, zpow_neg,
      zpow_natCast, List.length_append, List.length_singleton] at heq
    have hpow : ((10 : ℚ) ^ (ys.length + 1)) ≠ 0 := by positivity
    have h2 : (k : ℚ) * (10 : ℚ) ^ (ys.length + 1)
        = ((10 * digitsValue (I ++ ys) + (c.toNat - 48) : ℕ) : ℚ) := by
      rw [heq]
      field_simp
    have h3 : k * (10 : ℤ) ^ (ys.length + 1)
        = ((10 * digitsValue (I ++ ys) + (c.toNat - 48) : ℕ) : ℤ) := by
      exact_mod_cast h2
    have h4 : (k * (10 : ℤ) ^ (ys.length + 1)) % 10 = 0 := by
      rw [pow_succ, ← mul_assoc]
      exact Int.mul_emod_left _ _
    rw [h3] at h4
    omega

theorem dropZeros_subset (l : List Char) : ∀ c ∈ dropZeros l, c ∈ l := by
  obtain ⟨zs, h1, _⟩ := dropZeros_append_zeros l
  intro c hc
  rw [h1]
  exact List.mem_append_left _ hc

theorem dropZeros_last_ne_zero (l : List Char) : (dropZeros l).getLast? ≠ some '0' := by
  by_cases h : dropZeros l = []
  · rw [h]
    simp
  · exact (dropZeros_getLast l h).1

/-- In exponent notation the text of `toPrecision` is left untrimmed and has
the letter `e`. -/
theorem trimFraction_precisionLayout_exponent (negative : Bool) (n : ℕ) (e p : ℤ)
    (h : e < -6 ∨ p ≤ e) :
    'e' ∈ trimFraction (JSNum.precisionLayout negative n e p) := by
  unfold JSNum.precisionLayout
  simp only [if_pos h]
  rw [trimFraction_exponent _ _ (JSNum.exponentText_no_point e)
    ⟨'e', JSNum.exponentText_has_e e, by decide⟩]
  exact List.mem_append_right _ (JSNum.exponentText_has_e e)

/-- In fixed notation the trimmed text of `toPrecision` is a sign, an integer
part without superfluous leading zero and a fraction that does not end in a
zero, and it denotes `n * 10^(e-P+1)`. -/
theorem trimFraction_precisionLayout (negative : Bool) (n P : ℕ) (e : ℤ) (hP1 : 1 ≤ P)
    (hn1 : 10 ^ (P - 1) ≤ n) (hn2 : n < 10 ^ P) (he : -6 ≤ e) (he2 : e < P) :
    ∃ I F : List Char,
      trimFraction (JSNum.precisionLayout negative n e P)
        = (if negative then ['-'] else []) ++ I ++ (if F = [] then [] else '.' :: F)
      ∧ (∀ c ∈ I, isDigit c = true) ∧ I ≠ []
      ∧ ¬ (1 < I.length ∧ I.head? = some '0')
      ∧ (∀ c ∈ F, isDigit c = true) ∧ F.getLast? ≠ some '0'
      ∧ decimalLiteralValue I F 0 = (n : ℚ) * (10 : ℚ) ^ (e - (P : ℤ) + 1) := by
  set sg : List Char := (if negative then ['-'] else []) with hsg
  have hsgp : '.' ∉ sg := by
    rw [hsg]; split_ifs <;> simp
  set m : List Char := JSNum.natDigits n with hm
  have hmd : ∀ c ∈ m, isDigit c = true := JSNum.natDigits_isDigit n
  have hmne : m ≠ [] := JSNum.natDigits_ne_nil n
  have hmlen : m.length = P := natDigits_length n P hP1 hn1 hn2
  have hmlead := natDigits_leading n
  rw [← hm] at hmlead
  have hmp : '.' ∉ m := fun h => isDigit_ne_point _ (hmd _ h) rfl
  have hmv : digitsValue m = n := digitsValue_natDigits n
  have hnotexp : ¬ (e < -6 ∨ (P : ℤ) ≤ e) := by omega
  unfold JSNum.precisionLayout
  simp only [if_neg hnotexp]
  rw [← hsg, ← hm]
  by_cases c2 : e = (P : ℤ) - 1
  · -- all digits before the point
    rw [if_pos c2]
    have hnp : '.' ∉ sg ++ m := by
      intro h
      rcases List.mem_append.mp h with h | h
      · exact hsgp h
      · exact hmp h
    refine ⟨m, [], ?_, hmd, hmne, hmlead, by simp, by simp, ?_⟩
    · rw [trimFraction_of_no_point _ hnp]
      simp
    · unfold decimalLiteralValue
      rw [List.append_nil, hmv, JSNum.pow10_eq, c2]
      simp
  · rw [if_neg c2]
    by_cases c3 : 0 ≤ e
    · -- the point inside the digits
      rw [if_pos c3]
      obtain ⟨k, hk⟩ : ∃ k : ℕ, (e + 1).toNat = k ∧ (k : ℤ) = e + 1 :=
        ⟨(e + 1).toNat, rfl, by omega⟩
      rw [hk.1]
      have hk1 : 1 ≤ k := by omega
      have hkP : k < P := by omega
      have htake : m.take k ≠ [] := by
        intro h
        rw [List.take_eq_nil_iff] at h
        rcases h with h | h
        · omega
        · exact hmne h
      have hdrop : m.drop k ≠ [] := by
        intro h
        rw [List.drop_eq_nil_iff] at h
        omega
      have htd : ∀ c ∈ m.take k, isDigit c = true :=
        fun c hc => hmd c (List.mem_of_mem_take hc)
      have hdd : ∀ c ∈ m.drop k, isDigit c = true :=
        fun c hc => hmd c (List.mem_of_mem_drop hc)
      have hap : '.' ∉ sg ++ m.take k := by
        intro h
        rcases List.mem_append.mp h with h | h
        · exact hsgp h
        · exact isDigit_ne_point _ (htd _ h) rfl
      have hshape : sg ++ m.take k ++ ['.'] ++ m.drop k = (sg ++ m.take k) ++ '.' :: m.drop k := by
        simp
      have hlead : ¬ (1 < (m.take k).length ∧ (m.take k).head? = some '0') := by
        intro h
        apply hmlead
        obtain ⟨c, cs, hcs⟩ := List.exists_cons_of_ne_nil hmne
        obtain ⟨k', hk'⟩ : ∃ k', k = k' + 1 := ⟨k - 1, by omega⟩
        rw [hcs, hk'] at h
        simp only [List.take_succ_cons, List.head?_cons] at h
        refine ⟨by omega, ?_⟩
        rw [hcs]
        exact h.2
      refine ⟨m.take k, dropZeros (m.drop k), ?_, htd, htake, hlead,
        fun c hc => hdd c (dropZeros_subset _ c hc), dropZeros_last_ne_zero _, ?_⟩
      · rw [hshape]
        unfold trimFraction
        rw [if_pos (by simp), stripTrailingZeros_fixed _ _ hap hdrop hdd, List.append_assoc]
      · rw [decimalLiteralValue_dropZeros]
        unfold decimalLiteralValue
        rw [List.take_append_drop, hmv, JSNum.pow10_eq, List.length_drop, hmlen]
        congr 2
        omega
    · -- zeros between the point and the digits
      rw [if_neg c3]
      obtain ⟨k, hk⟩ : ∃ k : ℕ, (-(e + 1)).toNat = k ∧ (k : ℤ) = -(e + 1) :=
        ⟨(-(e + 1)).toNat, rfl, by omega⟩
      rw [hk.1]
      have hfd : ∀ c ∈ List.replicate k '0' ++ m, isDigit c = true := by
        intro c hc
        rcases List.mem_append.mp hc with h | h
        · rw [List.mem_replicate] at h
          rw [h.2]; decide
        · exact hmd c h
      have hfne : List.replicate k '0' ++ m ≠ [] := by
        intro h
        exact hmne (List.append_eq_nil.mp h).2
      have hap : '.' ∉ sg ++ ['0'] := by
        intro h
        rcases List.mem_append.mp h with h | h
        · exact hsgp h
        · simp at h
      have hshape : sg ++ ['0', '.'] ++ List.replicate k '0' ++ m
          = (sg ++ ['0']) ++ '.' :: (List.replicate k '0' ++ m) := by
        simp
      refine ⟨['0'], dropZeros (List.replicate k '0' ++ m), ?_, ?_, by simp, by simp,
        fun c hc => hfd c (dropZeros_subset _ c hc), dropZeros_last_ne_zero _, ?_⟩
      · rw [hshape]
        unfold trimFraction
        rw [if_pos (by simp), stripTrailingZeros_fixed _ _ hap hfne hfd, List.append_assoc]
      · intro c hc
        simp at hc
        rw [hc]
        decide
      · rw [decimalLiteralValue_dropZeros]
        unfold decimalLiteralValue
        have hz : digitsValue (['0'] ++ List.replicate k '0') = 0 := by
          apply digitsValue_zeros
          intro c hc
          rcases List.mem_append.mp hc with h | h
          · simpa using h
          · exact (List.mem_replicate.mp h).2
        rw [← List.append_assoc, digitsValue_append_list, hz, hmv, JSNum.pow10_eq,
          List.length_append, List.length_replicate, hmlen]
        simp only [zero_mul, zero_add]
        congr 2
        push_cast
        omega

/-- A value at least `4e-12` away from every integer fails the near-integer
test of `formatResult`. -/
theorem nearInteger_far (y : ℚ) (h : ∀ k : ℤ, 4 / 10 ^ 12 ≤ |(k : ℚ) - y|) :
    nearInteger (JSNum.fin y) = false := by
  have h1 : JSNum.lt (JSNum.lit (1 / 10 ^ 12)) (JSNum.fin (2 / 10 ^ 12)) = true := by decide!
  have h2 : JSNum.lt (JSNum.fin 0) (JSNum.lit (1 / 10 ^ 12)) = true := by decide!
  obtain ⟨τ, hτ, hτ2⟩ : ∃ τ, JSNum.lit (1 / 10 ^ 12) = JSNum.fin τ ∧ τ < 2 / 10 ^ 12 := by
    cases hT : JSNum.lit (1 / 10 ^ 12) with
    | nan => rw [hT] at h1; simp [JSNum.lt] at h1
    | inf n =>
      rw [hT] at h1 h2
      simp only [JSNum.lt] at h1 h2
      rw [h1] at h2
      simp at h2
    | fin τ =>
      rw [hT] at h1
      simp only [JSNum.lt, decide_eq_true_eq] at h1
      exact ⟨τ, rfl, h1⟩
  set x : ℚ := ((⌊y + 1 / 2⌋ : ℤ) : ℚ) + -y with hx
  have hxabs : 4 / 10 ^ 12 ≤ |x| := by
    have := h ⌊y + 1 / 2⌋
    rw [hx, ← sub_eq_add_neg]
    exact this
  have hx0 : x ≠ 0 := by
    intro h0
    rw [h0, abs_zero] at hxabs
    norm_num at hxabs
  have hapos : 0 < |x| := abs_pos.mpr hx0
  have hb : (2 : ℚ) ^ (-1022 : ℤ) ≤ |x| := by
    have a1 : (2 : ℚ) ^ (-1022 : ℤ) ≤ 2 ^ (-50 : ℤ) := zpow_le_zpow_right₀ (by norm_num) (by norm_num)
    have a2 : (2 : ℚ) ^ (-50 : ℤ) ≤ 4 / 10 ^ 12 := by norm_num
    exact le_trans a1 (le_trans a2 hxabs)
  have hbin := JSNum.binade_ge |x| (-1022) hb
  have hle := JSNum.le_roundMagnitude |x| hapos hbin
  obtain ⟨_, b2⟩ := JSNum.binade_spec |x| hapos
  have hhalf : |x| / 2 < (2 : ℚ) ^ JSNum.binade |x| := by
    rw [zpow_add_one₀ (by norm_num)] at b2
    linarith
  have hrm : τ ≤ JSNum.roundMagnitude |x| := by linarith
  have hrmpos : 0 < JSNum.roundMagnitude |x| := by linarith
  unfold nearInteger
  simp only [JSNum.round, JSNum.sub, JSNum.neg, JSNum.add]
  rw [← hx, hτ]
  unfold JSNum.roundDouble
  rw [if_neg hx0]
  split_ifs with c1 c2
  · simp [JSNum.abs, JSNum.lt]
  · simp only [JSNum.abs, JSNum.lt, abs_neg, abs_of_pos hrmpos, decide_eq_false_iff_not, not_lt]
    exact hrm
  · simp only [JSNum.abs, JSNum.lt, abs_of_pos hrmpos, decide_eq_false_iff_not, not_lt]
    exact hrm

theorem floor_intCast_add_half (z : ℤ) : ⌊(z : ℚ) + 1 / 2⌋ = z := by
  rw [Int.floor_eq_iff]
  constructor <;> linarith

theorem nearInteger_intCast (z : ℤ) : nearInteger (JSNum.fin (z : ℚ)) = true := by
  have h0 : JSNum.lt (JSNum.fin 0) (JSNum.lit (1 / 10 ^ 12)) = true := by decide!
  unfold nearInteger
  simp only [JSNum.round, floor_intCast_add_half, JSNum.sub, JSNum.neg, JSNum.add]
  have : (z : ℚ) + -(z : ℚ) = 0 := by ring
  rw [this]
  simpa [JSNum.roundDouble, JSNum.abs] using h0

/-- The formatted text of an integer below `2^53` in magnitude is its numeral. -/
theorem formatResult_intCast (precision : List Char) (z : ℤ) (hz : |z| < 2 ^ 53) :
    formatResult precision (Value.num (JSNum.fin (z : ℚ)))
      = Outcome.ok ((if z < 0 then ['-'] else []) ++ JSNum.natDigits z.natAbs) := by
  have hd := JSNum.roundDouble_intCast z hz.le
  obtain ⟨d, h1, _, h3⟩ := JSNum.numberToString_intCast z
    (lt_trans hz (by norm_num)) hd
  have hdn : d = z.natAbs := by
    have := h3 hz
    rw [Int.abs_eq_natAbs] at this
    exact_mod_cast this
  rw [hdn] at h1
  unfold formatResult
  simp only [nearInteger_intCast, if_true, JSNum.round, floor_intCast_add_half, h1,
    Outcome.ofOption]

/-- The formatted text of a value that fails the near-integer test: the trimmed
layout of its `toPrecision` digits. -/
theorem formatResult_of_far (precision : List Char) (q : ℚ) (P : ℕ)
    (hp : parseInt10 (if precision = [] then "12".toList else precision) = some (P : ℤ))
    (hP1 : 1 ≤ P) (hP100 : P ≤ 100) (hn : nearInteger (JSNum.fin q) = false) :
    q ≠ 0 ∧ formatResult precision (Value.num (JSNum.fin q))
      = Outcome.ok (trimFraction (JSNum.precisionLayout (decide (q < 0))
          (JSNum.precisionDigits |q| (P : ℤ)).1 (JSNum.precisionDigits |q| (P : ℤ)).2 (P : ℤ))) := by
  have hq0 : q ≠ 0 := by
    intro h
    have := nearInteger_intCast 0
    rw [h] at hn
    simp only [Int.cast_zero] at this
    rw [this] at hn
    exact absurd hn (by decide)
  refine ⟨hq0, ?_⟩
  unfold formatResult
  simp only [hn, hp, Option.getD_some,
    JSNum.toPrecision_eq_layout q hq0 (P : ℤ) (by omega) (by omega), Outcome.bind]
  rfl

/-! ## Formatting a formatted text again -/

theorem decimalLiteralValue_integer (I : List Char) :
    decimalLiteralValue I [] 0 = (digitsValue I : ℚ) := by
  simp [decimalLiteralValue, JSNum.pow10, JSNum.powInt]

/-- A near-integer result below `10^21`: its formatted text evaluates to the
rounded value and is formatted to the same text. -/
theorem reformat_integer (globals : List Char → Option Value) (fuel : ℕ) (precision : List Char)
    (q : ℚ) (t : List Char) (hq : JSNum.roundDouble q = JSNum.fin q)
    (hn : nearInteger (JSNum.fin q) = true) (hz : |⌊q + 1 / 2⌋| < 10 ^ 21)
    (hfmt : formatResult precision (Value.num (JSNum.fin q)) = Outcome.ok t) :
    (evaluateExpression globals (fuel + 2) t).bind (formatResult precision) = Outcome.ok t := by
  set z : ℤ := ⌊q + 1 / 2⌋ with hzdef
  have hdz := JSNum.roundDouble_round q hq
  rw [← hzdef] at hdz
  obtain ⟨d, h1, h2, _⟩ := JSNum.numberToString_intCast z hz hdz
  have ht : t = (if z < 0 then ['-'] else []) ++ JSNum.natDigits d := by
    unfold formatResult at hfmt
    simp only [hn, if_true, JSNum.round] at hfmt
    rw [← hzdef, h1] at hfmt
    simp only [Outcome.ofOption, Outcome.ok.injEq] at hfmt
    exact hfmt.symm
  have hev := evaluateExpression_decimal globals fuel (decide (z < 0)) (JSNum.natDigits d) []
    (JSNum.natDigits_isDigit d) (JSNum.natDigits_ne_nil d) (natDigits_leading d) (by simp)
  simp only [if_true, List.append_nil, decide_eq_true_eq, decimalLiteralValue_integer,
    digitsValue_natDigits, h2] at hev
  rw [← ht] at hev
  have hval : (if z < 0 then JSNum.neg (JSNum.fin ((|z| : ℤ) : ℚ)) else JSNum.fin ((|z| : ℤ) : ℚ))
      = JSNum.fin (z : ℚ) := by
    split_ifs with h
    · rw [abs_of_neg h]
      simp [JSNum.neg]
    · rw [abs_of_nonneg (not_lt.mp h)]
  rw [hev, hval]
  simp only [Outcome.bind]
  unfold formatResult
  simp only [nearInteger_intCast, if_true, JSNum.round, floor_intCast_add_half, h1,
    Outcome.ofOption, ht]

/-- A result that fails the near-integer test and is rendered in fixed notation
with at most 15 significant digits: its formatted text is formatted to the
same text again, provided that the text has no fractional part, or that its
value fails the near-integer test too, which it always does with at most 11
digits. -/
theorem reformat_fixed (globals : List Char → Option Value) (fuel : ℕ) (precision : List Char)
    (q : ℚ) (P : ℕ) (t : List Char)
    (hp : parseInt10 (if precision = [] then "12".toList else precision) = some (P : ℤ))
    (hP1 : 1 ≤ P) (hP : P ≤ 15) (hn : nearInteger (JSNum.fin q) = false)
    (hfmt : formatResult precision (Value.num (JSNum.fin q)) = Outcome.ok t)
    (hfix : 'e' ∉ t)
    (hfar : P ≤ 11 ∨ '.' ∉ t
      ∨ ∃ w, evaluateExpression globals (fuel + 2) t = Outcome.ok (Value.num w)
          ∧ nearInteger w = false) :
    (evaluateExpression globals (fuel + 2) t).bind (formatResult precision) = Outcome.ok t := by
  obtain ⟨hq0, hf⟩ := formatResult_of_far precision q P hp hP1 (by omega) hn
  have ha : 0 < |q| := abs_pos.mpr hq0
  obtain ⟨hn1, hn2⟩ := JSNum.precisionDigits_bounds |q| ha P hP1
  set n : ℕ := (JSNum.precisionDigits |q| (P : ℤ)).1 with hndef
  set e : ℤ := (JSNum.precisionDigits |q| (P : ℤ)).2 with hedef
  have ht : t = trimFraction (JSNum.precisionLayout (decide (q < 0)) n e (P : ℤ)) := by
    rw [hf] at hfmt
    simp only [Outcome.ok.injEq] at hfmt
    exact hfmt.symm
  have hrange : -6 ≤ e ∧ e < (P : ℤ) := by
    by_contra hc
    apply hfix
    rw [ht]
    exact trimFraction_precisionLayout_exponent _ n e (P : ℤ) (by omega)
  obtain ⟨I, F, s1, hI, hIne, hIlead, hF, hFlast, hV⟩ :=
    trimFraction_precisionLayout (decide (q < 0)) n P e hP1 hn1 hn2 hrange.1 hrange.2
  rw [← ht] at s1
  simp only [decide_eq_true_eq] at s1
  set D : ℚ := (n : ℚ) * (10 : ℚ) ^ (e - (P : ℤ) + 1) with hD
  obtain ⟨hrd, hwpos, hwrel⟩ := JSNum.roundDouble_decimal n P e hP1 hn1 hn2 hrange.1 (by omega)
  rw [← hD] at hrd hwpos hwrel
  set w : ℚ := JSNum.roundMagnitude D with hw
  -- the value of the text
  set y : ℚ := (if q < 0 then -w else w) with hy
  have hev : evaluateExpression globals (fuel + 2) t = Outcome.ok (Value.num (JSNum.fin y)) := by
    have := evaluateExpression_decimal globals fuel (decide (q < 0)) I F hI hIne hIlead hF
    simp only [decide_eq_true_eq] at this
    rw [← s1, hV, hrd] at this
    rw [this, hy]
    split_ifs <;> simp [JSNum.neg]
  have hyneg : (y < 0) ↔ (q < 0) := by
    rw [hy]
    split_ifs with h
    · simp [h, hwpos]
    · simp only [h, iff_false, not_lt]
      exact hwpos.le
  have hyabs : |y| = w := by
    rw [hy]
    split_ifs
    · rw [abs_neg, abs_of_pos hwpos]
    · exact abs_of_pos hwpos
  rw [hev]
  simp only [Outcome.bind]
  by_cases hF0 : F = []
  · -- the text is an integer numeral
    subst hF0
    rw [decimalLiteralValue_integer] at hV
    have hcan := natDigits_digitsValue I hI hIne hIlead
    set N : ℕ := digitsValue I with hN
    have hPu : ((10 : ℚ) ^ P) * (10 : ℚ) ^ (e - (P : ℤ) + 1) = (10 : ℚ) ^ (e + 1) := by
      rw [← zpow_natCast, ← zpow_add₀ (by norm_num)]
      congr 1
      ring
    have hDlt : D < (10 : ℚ) ^ (15 : ℕ) := by
      have h1 : D < (10 : ℚ) ^ (e + 1) := by
        rw [← hPu, hD]
        apply mul_lt_mul_of_pos_right _ (by positivity)
        exact_mod_cast hn2
      have h2 : (10 : ℚ) ^ (e + 1) ≤ (10 : ℚ) ^ ((15 : ℕ) : ℤ) :=
        zpow_le_zpow_right₀ (by norm_num) (by push_cast; omega)
      rw [zpow_natCast] at h2
      linarith
    have hN15 : N < 10 ^ 15 := by
      rw [← hV] at hDlt
      exact_mod_cast hDlt
    have hN53 : N < 2 ^ 53 := lt_of_lt_of_le hN15 (by norm_num)
    have hwN : w = N := by
      have h1 := JSNum.roundDouble_natCast N hN53.le
      have h2 : JSNum.roundDouble D = JSNum.fin (N : ℚ) := by
        rw [← hV]
        exact h1
      rw [hrd] at h2
      simp only [JSNum.fin.injEq] at h2
      exact h2
    have hNpos : 0 < N := by
      have : (0 : ℚ) < N := by rw [← hwN]; exact hwpos
      exact_mod_cast this
    have hyz : y = (((if q < 0 then -(N : ℤ) else (N : ℤ)) : ℤ) : ℚ) := by
      rw [hy, hwN]
      split_ifs <;> simp
    rw [hyz, formatResult_intCast precision _ (by split_ifs <;> simp <;> omega)]
    rw [s1]
    simp only [if_true, List.append_nil]
    congr 2
    · split_ifs with h1 h2 h2
      · rfl
      · omega
      · omega
      · rfl
    · have : (if q < 0 then -(N : ℤ) else (N : ℤ)).natAbs = N := by
        split_ifs <;> simp
      rw [this, hcan]
  · -- the text has a fractional part
    have hpoint : '.' ∈ t := by
      rw [s1, if_neg hF0]
      simp
    have hny : nearInteger (JSNum.fin y) = false := by
      rcases hfar with h11 | hnp | ⟨w', hw1, hw2⟩
      · have hnon : ∀ k : ℤ, (k : ℚ) ≠ D := by
          intro k
          rw [← hV]
          exact decimalLiteralValue_not_int I F hF hF0 hFlast k
        have hfarw := JSNum.decimal_far n P e hP1 h11 hn1 hn2 hrange.1 hrange.2 hnon w hwrel
        apply nearInteger_far
        intro k
        rw [hy]
        split_ifs
        · have := hfarw (-k)
          rw [← abs_neg]
          have e1 : -((k : ℚ) - -w) = ((-k : ℤ) : ℚ) - w := by push_cast; ring
          rw [e1]
          exact this
        · exact hfarw k
      · exact absurd hpoint hnp
      · rw [hev] at hw1
        simp only [Outcome.ok.injEq, Value.num.injEq] at hw1
        rw [hw1]
        exact hw2
    obtain ⟨_, hf2⟩ := formatResult_of_far precision y P hp hP1 (by omega) hny
    have hpd := JSNum.precisionDigits_roundMagnitude n P e hP1 hP hn1 hn2 hrange.1
    rw [← hD, ← hw] at hpd
    rw [hf2, hyabs, hpd, ht]
    simp only [hyneg]

theorem evaluateExpression_NaN (globals : List Char → Option Value) (fuel : ℕ)
    (hnan : globals "NaN".toList = some (Value.num JSNum.nan)) :
    evaluateExpression globals (fuel + 2) "NaN".toList = Outcome.ok (Value.num JSNum.nan) := by
  have hr : rewrite "NaN".toList = "NaN".toList := by decide!
  have hl : lex ((['('] ++ "NaN".toList ++ [')']).length + 1) none (['('] ++ "NaN".toList ++ [')'])
      = Outcome.ok [Token.lparen, Token.ident "NaN".toList, Token.rparen] := by decide!
  have hc : context "NaN".toList = none := by decide!
  unfold evaluateExpression
  rw [if_neg (by decide), hr]
  unfold runFunction
  simp only [hl, Outcome.bind]
  have : 10 * [Token.lparen, Token.ident "NaN".toList, Token.rparen].length + 10 = 40 := rfl
  have hres : resolve globals "NaN".toList = Outcome.ok (Value.num JSNum.nan) := by
    unfold resolve
    rw [hc, hnan]
  rw [this, parse_identifier]
  simp only [eval, hres]

theorem evaluateExpression_Infinity_text (globals : List Char → Option Value) (fuel : ℕ)
    (hinf : globals "Infinity".toList = some (Value.num (JSNum.inf false))) :
    evaluateExpression globals (fuel + 2) "Infinity".toList
        = Outcome.ok (Value.num (JSNum.inf false))
    ∧ evaluateExpression globals (fuel + 2) "-Infinity".toList
        = Outcome.ok (Value.num (JSNum.inf true)) := by
  have hr1 : rewrite "Infinity".toList = "Infinity".toList := by decide!
  have hr2 : rewrite "-Infinity".toList = "-Infinity".toList := by decide!
  have hl1 : lex ((['('] ++ "Infinity".toList ++ [')']).length + 1) none
      (['('] ++ "Infinity".toList ++ [')'])
      = Outcome.ok [Token.lparen, Token.ident "Infinity".toList, Token.rparen] := by decide!
  have hl2 : lex ((['('] ++ "-Infinity".toList ++ [')']).length + 1) none
      (['('] ++ "-Infinity".toList ++ [')'])
      = Outcome.ok [Token.lparen, Token.minus, Token.ident "Infinity".toList, Token.rparen] := by
    decide!
  have hc : context "Infinity".toList = none := by decide!
  have hp2 : parseExpression 50
      [Token.lparen, Token.minus, Token.ident "Infinity".toList, Token.rparen]
      = Outcome.ok (Expr.unary true (Expr.ident "Infinity".toList), []) := rfl
  have hres : resolve globals "Infinity".toList = Outcome.ok (Value.num (JSNum.inf false)) := by
    unfold resolve
    rw [hc, hinf]
  constructor
  · unfold evaluateExpression
    rw [if_neg (by decide), hr1]
    unfold runFunction
    simp only [hl1, Outcome.bind]
    have : 10 * [Token.lparen, Token.ident "Infinity".toList, Token.rparen].length + 10 = 40 := rfl
    rw [this, parse_identifier]
    simp only [eval, hres]
  · unfold evaluateExpression
    rw [if_neg (by decide), hr2]
    unfold runFunction
    simp only [hl2, Outcome.bind]
    have : 10 * [Token.lparen, Token.minus, Token.ident "Infinity".toList, Token.rparen].length
        + 10 = 50 := rfl
    rw [this, hp2]
    simp only [eval, hres, Outcome.bind]
    rfl

/-- A result that is not finite: its text names it again when the global scope
binds `NaN` and `Infinity` to their standard values. -/
theorem reformat_nonfinite (globals : List Char → Option Value) (fuel : ℕ)
    (precision : List Char) (x : JSNum) (t : List Char) (hx : ∀ q, x ≠ JSNum.fin q)
    (hnan : globals "NaN".toList = some (Value.num JSNum.nan))
    (hinf : globals "Infinity".toList = some (Value.num (JSNum.inf false)))
    (hfmt : formatResult precision (Value.num x) = Outcome.ok t) :
    (evaluateExpression globals (fuel + 2) t).bind (formatResult precision) = Outcome.ok t := by
  cases x with
  | nan =>
    have ht : t = "NaN".toList := by
      simp [formatResult, toStringValue, JSNum.numberToString, Outcome.ofOption] at hfmt
      exact hfmt.symm
    rw [ht, evaluateExpression_NaN globals fuel hnan]
    rfl
  | inf b =>
    cases b with
    | false =>
      have ht : t = "Infinity".toList := by
        simp [formatResult, toStringValue, JSNum.numberToString, Outcome.ofOption] at hfmt
        exact hfmt.symm
      rw [ht, (evaluateExpression_Infinity_text globals fuel hinf).1]
      rfl
    | true =>
      have ht : t = "-Infinity".toList := by
        simp [formatResult, toStringValue, JSNum.numberToString, Outcome.ofOption] at hfmt
        exact hfmt.symm
      rw [ht, (evaluateExpression_Infinity_text globals fuel hinf).2]
      rfl
  | fin q => exact absurd rfl (hx q)

/-! ## `factorial` -/

theorem roundDouble_ne_nan (q : ℚ) : JSNum.roundDouble q ≠ JSNum.nan := by
  unfold JSNum.roundDouble
  split_ifs <;> simp

theorem factorialLoop_mono (f : ℕ) : ∀ (n i r v : JSNum),
    factorialLoop f n i r = some v → ∀ k, factorialLoop (f + k) n i r = some v := by
  induction f with
  | zero => intro n i r v h; simp [factorialLoop] at h
  | succ f ih =>
    intro n i r v h k
    have e : f + 1 + k = (f + k) + 1 := by omega
    rw [e]
    unfold factorialLoop at h ⊢
    by_cases c : JSNum.le i n = true
    · rw [if_pos c] at h ⊢
      exact ih _ _ _ _ h k
    · rw [if_neg c] at h ⊢
      exact h

theorem factorial_mono (f : ℕ) (x v : JSNum) (h : factorial f x = some v) (k : ℕ) :
    factorial (f + k) x = some v := by
  unfold factorial at h ⊢
  dsimp only at h ⊢
  split_ifs at h ⊢ with c1 c2
  · exact h
  · exact h
  · exact factorialLoop_mono f _ _ _ _ h k

theorem factorial_floor (f : ℕ) (q : ℚ) :
    factorial f (JSNum.fin q) = factorial f (JSNum.fin ((⌊q⌋ : ℤ) : ℚ)) := by
  simp [factorial, JSNum.floor]

theorem factorial_small : ∀ k : Fin 23,
    factorial (k.val + 1) (JSNum.fin ((k.val : ℤ) : ℚ))
      = some (JSNum.fin ((Nat.factorial k.val : ℕ) : ℚ)) := by
  decide!

/-- On the positive infinity the loop of `factorial` never ends: no amount of
fuel yields a result. -/
theorem factorial_infinity_diverges (f : ℕ) : factorial f (JSNum.inf false) = none := by
  have key : ∀ (f : ℕ) (i r : JSNum), i ≠ JSNum.nan →
      factorialLoop f (JSNum.inf false) i r = none := by
    intro f
    induction f with
    | zero => intro i r _; rfl
    | succ f ih =>
      intro i r hi
      unfold factorialLoop
      have hle : JSNum.le i (JSNum.inf false) = true := by
        cases i with
        | nan => exact absurd rfl hi
        | inf n => simp [JSNum.le]
        | fin q => simp [JSNum.le]
      rw [if_pos hle]
      apply ih
      cases i with
      | nan => exact absurd rfl hi
      | inf n => simp [JSNum.add]
      | fin q => simpa [JSNum.add] using roundDouble_ne_nan (q + 1)
  simpa [factorial, JSNum.floor, JSNum.lt, JSNum.strictEq] using key f (JSNum.fin 2) (JSNum.fin 1) (by simp)

/-- On NaN `factorial` returns 1. -/
theorem factorial_nan (f : ℕ) : factorial (f + 1) JSNum.nan = some (JSNum.fin 1) := by
  simp [factorial, JSNum.floor, JSNum.lt, JSNum.strictEq, factorialLoop, JSNum.le]

/-- C1, as stated, fails: `factorial(28)` is neither the integer 28! nor the
binary64 value nearest to it, because every multiplication of the loop rounds. -/
theorem factorial_28_not_canonical :
    factorial 100 (JSNum.fin 28) = some (JSNum.fin 304888344611713836734530715648)
    ∧ factorial 100 (JSNum.fin 28) ≠ some (JSNum.fin ((Nat.factorial 28 : ℕ) : ℚ))
    ∧ factorial 100 (JSNum.fin 28) ≠ some (JSNum.roundDouble ((Nat.factorial 28 : ℕ) : ℚ)) := by
  decide!

/-- C1, amended: for every finite operand `x` and enough fuel, `factorial(x)` is
NaN when `x` is negative, and when `x ≥ 0` with `trunc(x) ≤ 22` it is exactly the
canonical factorial of `trunc(x)`; in particular this covers all integers from 0
to 20. -/
theorem factorial_spec (fuel : ℕ) (q : ℚ) :
    (q < 0 → factorial fuel (JSNum.fin q) = some JSNum.nan)
    ∧ (0 ≤ q → ⌊q⌋₊ ≤ 22 → ⌊q⌋₊ < fuel →
        factorial fuel (JSNum.fin q) = some (JSNum.fin ((Nat.factorial ⌊q⌋₊ : ℕ) : ℚ))) := by
  constructor
  · intro h
    have : ((⌊q⌋ : ℤ) : ℚ) < 0 := lt_of_le_of_lt (Int.floor_le q) h
    simp [factorial, JSNum.floor, JSNum.lt, this]
  · intro h0 h22 hf
    have hfl : (⌊q⌋ : ℤ) = ((⌊q⌋₊ : ℕ) : ℤ) := (Int.natCast_floor_eq_floor h0).symm
    rw [factorial_floor, hfl]
    have := factorial_small ⟨⌊q⌋₊, by omega⟩
    have e : fuel = (⌊q⌋₊ + 1) + (fuel - (⌊q⌋₊ + 1)) := by omega
    rw [e]
    exact factorial_mono _ _ _ this _

theorem factorial_spec_witness :
    factorial 10 (JSNum.fin (-3)) = some JSNum.nan
    ∧ factorial 10 (JSNum.fin (11 / 2))
        = some (JSNum.fin ((Nat.factorial ⌊(11 / 2 : ℚ)⌋₊ : ℕ) : ℚ)) :=
  ⟨(factorial_spec 10 (-3)).1 (by norm_num),
   (factorial_spec 10 (11 / 2)).2 (by norm_num)
     (by rw [show ⌊(11 / 2 : ℚ)⌋₊ = 5 by rw [Nat.floor_eq_iff] <;> norm_num]; norm_num)
     (by rw [show ⌊(11 / 2 : ℚ)⌋₊ = 5 by rw [Nat.floor_eq_iff] <;> norm_num]; norm_num)⟩

/-! ## Angle-mode wrappers -/

/-- C8: over the real numbers, in DEGREES mode (`"DEG"`) the `sin`, `cos` and `tan`
wrappers are the underlying function at `x * pi / 180` and the `asin`, `acos`
and `atan` wrappers are the underlying result times `180 / pi`; in any other
mode every wrapper is the underlying function unchanged; hence sine of 90 is 1
in DEGREES mode and sine of `pi / 2` is 1 in RADIANS mode. -/
theorem angle_mode_wrappers (M : MathFns ℝ) (hsin : M.sin = Real.sin) (hpi : M.PI = Real.pi)
    (mode : String) (hmode : mode ≠ "DEG") (x : ℝ) :
    (sin_w M "DEG" x = M.sin (x * M.PI / 180)
      ∧ cos_w M "DEG" x = M.cos (x * M.PI / 180)
      ∧ tan_w M "DEG" x = M.tan (x * M.PI / 180)
      ∧ asin_w M "DEG" x = M.asin x * (180 / M.PI)
      ∧ acos_w M "DEG" x = M.acos x * (180 / M.PI)
      ∧ atan_w M "DEG" x = M.atan x * (180 / M.PI))
    ∧ (sin_w M mode x = M.sin x ∧ cos_w M mode x = M.cos x ∧ tan_w M mode x = M.tan x
      ∧ asin_w M mode x = M.asin x ∧ acos_w M mode x = M.acos x ∧ atan_w M mode x = M.atan x)
    ∧ sin_w M "DEG" 90 = 1
    ∧ sin_w M mode (Real.pi / 2) = 1 := by
  refine ⟨⟨rfl, rfl, rfl, ?_, ?_, ?_⟩, ⟨?_, ?_, ?_, ?_, ?_, ?_⟩, ?_, ?_⟩
  · simp [asin_w, fromRadians, mul_div_assoc]
  · simp [acos_w, fromRadians, mul_div_assoc]
  · simp [atan_w, fromRadians, mul_div_assoc]
  · simp [sin_w, hmode]
  · simp [cos_w, hmode]
  · simp [tan_w, hmode]
  · simp [asin_w, hmode]
  · simp [acos_w, hmode]
  · simp [atan_w, hmode]
  · have e : (90 : ℝ) * Real.pi / 180 = Real.pi / 2 := by ring
    simp [sin_w, toRadians, hsin, hpi, e]
  · simp [sin_w, hmode, hsin]

theorem angle_mode_wrappers_witness :
    sin_w (MathFns.mk Real.sin Real.cos Real.tan Real.arcsin Real.arccos Real.arctan Real.pi)
        "DEG" 90 = 1
    ∧ sin_w (MathFns.mk Real.sin Real.cos Real.tan Real.arcsin Real.arccos Real.arctan Real.pi)
        "RAD" (Real.pi / 2) = 1 :=
  (angle_mode_wrappers
    (MathFns.mk Real.sin Real.cos Real.tan Real.arcsin Real.arccos Real.arctan Real.pi)
    rfl rfl "RAD" (by decide) 30).2.2

/-! ## `formatResult` on 3.0000000001 -/

/-- C6, as stated, fails: at the default precision (an empty selector value, read
as 12) and at the setting 12, `formatResult(3.0000000001)` is `3.0000000001`;
the value is `1e-10` away from 3, which is not below `1e-12`. -/
theorem formatResult_3_0000000001_default :
    nearInteger (JSNum.lit (30000000001 / 10 ^ 10)) = false
    ∧ formatResult [] (Value.num (JSNum.lit (30000000001 / 10 ^ 10)))
        = Outcome.ok "3.0000000001".toList
    ∧ formatResult "12".toList (Value.num (JSNum.lit (30000000001 / 10 ^ 10)))
        = Outcome.ok "3.0000000001".toList := by
  decide!

/-- C6, amended: `formatResult(3.0000000001)` is `3` for every precision setting
from 1 to 10 significant digits; at the settings 11 and 12 and at the default it
is `3.0000000001`. -/
theorem formatResult_3_0000000001 (p : ℕ) (h1 : 1 ≤ p) (h10 : p ≤ 10) :
    formatResult (JSNum.natDigits p) (Value.num (JSNum.lit (30000000001 / 10 ^ 10)))
        = Outcome.ok "3".toList
    ∧ formatResult "11".toList (Value.num (JSNum.lit (30000000001 / 10 ^ 10)))
        = Outcome.ok "3.0000000001".toList
    ∧ formatResult "12".toList (Value.num (JSNum.lit (30000000001 / 10 ^ 10)))
        = Outcome.ok "3.0000000001".toList
    ∧ formatResult [] (Value.num (JSNum.lit (30000000001 / 10 ^ 10)))
        = Outcome.ok "3.0000000001".toList := by
  refine ⟨?_, by decide!, by decide!, by decide!⟩
  interval_cases p <;> decide!

theorem formatResult_3_0000000001_witness :
    formatResult "6".toList (Value.num (JSNum.lit (30000000001 / 10 ^ 10)))
      = Outcome.ok "3".toList :=
  (formatResult_3_0000000001 6 (by decide) (by decide)).1

/-! ## The rewrite of the percent sign -/

/-- C7 at the failing input: for the literal `.5` the rewrite of `.5%` is
`.(5/100)`, a syntax error, and `evaluateExpression` returns NaN; `50%` and
`12.5%` evaluate to 0.5 and 0.125. -/
theorem percent_leading_dot :
    rewrite ".5%".toList = ".(5/100)".toList
    ∧ evaluateExpression standardGlobals 10 ".5%".toList = Outcome.ok (Value.num JSNum.nan)
    ∧ evaluateExpression standardGlobals 10 ".5".toList
        = Outcome.ok (Value.num (JSNum.fin (1 / 2)))
    ∧ evaluateExpression standardGlobals 10 "50%".toList
        = Outcome.ok (Value.num (JSNum.fin (1 / 2)))
    ∧ evaluateExpression standardGlobals 10 "12.5%".toList
        = Outcome.ok (Value.num (JSNum.fin (1 / 8))) := by
  decide!

/-! ## `evaluateExpression` and exceptions -/

/-- C2, as stated, fails: `Infinity` is not a name of the evaluation namespace,
yet the expression `Infinity` evaluates to the infinity, not to NaN, because the
constructed function resolves free identifiers in the global scope. -/
theorem evaluateExpression_Infinity :
    context "Infinity".toList = none
    ∧ evaluateExpression standardGlobals 10 "Infinity".toList
        = Outcome.ok (Value.num (JSNum.inf false)) := by
  decide!

/-- C2, amended: for every input string `evaluateExpression` never throws to its
caller; for a non-empty input, whenever the construction or the call of the
function throws (a syntax error such as in `2+`, or a reference to an identifier
that is neither a name of the namespace nor bound in the global scope), the
value returned is NaN. -/
theorem evaluateExpression_no_throw (globals : List Char → Option Value) (fuel : ℕ)
    (inputExpr : List Char) (c : Char) (cs : List Char)
    (hc : isIdentStart c = true) (hcs : cs.all isIdentPart = true)
    (hsp : String.mk (c :: cs) ∉ specialWords) (hctx : context (c :: cs) = none)
    (hglob : globals (c :: cs) = none) :
    evaluateExpression globals fuel inputExpr ≠ Outcome.threw
    ∧ (inputExpr ≠ [] → runFunction globals fuel (rewrite inputExpr) = Outcome.threw →
        evaluateExpression globals fuel inputExpr = Outcome.ok (Value.num JSNum.nan))
    ∧ (inputExpr ≠ [] → rewrite inputExpr = c :: cs →
        evaluateExpression globals (fuel + 1) inputExpr = Outcome.ok (Value.num JSNum.nan))
    ∧ runFunction standardGlobals 10 (rewrite "2+".toList) = Outcome.threw
    ∧ evaluateExpression standardGlobals 10 "2+".toList = Outcome.ok (Value.num JSNum.nan) := by
  refine ⟨?_, ?_, ?_, by decide!, by decide!⟩
  · unfold evaluateExpression
    split_ifs
    · simp
    · split <;> simp
  · intro hne h
    unfold evaluateExpression
    rw [if_neg hne, h]
  · intro hne h
    unfold evaluateExpression
    rw [if_neg hne, h, runFunction_unresolvable globals fuel c cs hc hcs hsp hctx hglob]

theorem evaluateExpression_no_throw_witness :
    evaluateExpression standardGlobals 9 "foo".toList ≠ Outcome.threw
    ∧ evaluateExpression standardGlobals (9 + 1) "foo".toList
        = Outcome.ok (Value.num JSNum.nan) :=
  have h := evaluateExpression_no_throw standardGlobals 9 "foo".toList 'f' "oo".toList
    (by decide) (by decide) (by decide) (by decide) (by decide)
  ⟨h.1, h.2.2.1 (by decide) (by decide!)⟩

/-! ## The `=` branch -/

/-- C3, as stated, fails: on the buffer `2+`, whose evaluation yields NaN, the
handler displays `NaN` and makes `NaN` the next buffer. -/
theorem pressEquals_nan_shows_NaN :
    evaluateExpression standardGlobals 10 "2+".toList = Outcome.ok (Value.num JSNum.nan)
    ∧ pressEquals standardGlobals "12".toList 10
        { currentInput := "2+".toList, lastResult := [], display := "2+".toList,
          exprText := "2+".toList }
      = Outcome.ok
        { currentInput := "NaN".toList, lastResult := "NaN".toList, display := "NaN".toList,
          exprText := "2+ =".toList } := by
  decide!

/-- C3, amended: for every input buffer whose evaluation yields NaN, the `=`
handler sets the display to the text `NaN` of the sentinel and makes that text
the next input buffer and the last result; the expression line shows the old
buffer followed by ` =`. -/
theorem pressEquals_of_nan (globals : List Char → Option Value) (precision : List Char)
    (fuel : ℕ) (st : CalcState)
    (h : evaluateExpression globals fuel st.currentInput = Outcome.ok (Value.num JSNum.nan)) :
    pressEquals globals precision fuel st
      = Outcome.ok
        { currentInput := "NaN".toList, lastResult := "NaN".toList, display := "NaN".toList,
          exprText := st.currentInput ++ " =".toList } := by
  simp [pressEquals, h, Outcome.bind, formatResult, toStringValue, JSNum.numberToString,
    Outcome.ofOption]

theorem pressEquals_of_nan_witness :
    pressEquals standardGlobals "6".toList 10
        { currentInput := "0/0".toList, lastResult := [], display := [], exprText := [] }
      = Outcome.ok
        { currentInput := "NaN".toList, lastResult := "NaN".toList, display := "NaN".toList,
          exprText := "0/0".toList ++ " =".toList } :=
  pressEquals_of_nan standardGlobals "6".toList 10
    { currentInput := "0/0".toList, lastResult := [], display := [], exprText := [] }
    (by decide!)

/-- C9, as stated, fails.  At precision 12 the buffer `1234567890123.5` is
displayed in exponent notation as `1.23456789012e+12`, and `=` pressed again
on that buffer displays `1234567890120`.  At precision 12 too, the buffer
`0.9999999999989999` is displayed in fixed notation as `0.999999999999`, a
text whose value passes the near-integer test, and `=` pressed again displays
`1`. -/
theorem pressEquals_twice_differs :
    pressEquals standardGlobals "12".toList 10
        { currentInput := "1234567890123.5".toList, lastResult := [], display := [],
          exprText := [] }
      = Outcome.ok
        { currentInput := "1.23456789012e+12".toList, lastResult := "1.23456789012e+12".toList,
          display := "1.23456789012e+12".toList, exprText := "1234567890123.5 =".toList }
    ∧ pressEquals standardGlobals "12".toList 10
        { currentInput := "1.23456789012e+12".toList, lastResult := "1.23456789012e+12".toList,
          display := "1.23456789012e+12".toList, exprText := "1234567890123.5 =".toList }
      = Outcome.ok
        { currentInput := "1234567890120".toList, lastResult := "1234567890120".toList,
          display := "1234567890120".toList, exprText := "1.23456789012e+12 =".toList }
    ∧ pressEquals standardGlobals "12".toList 10
        { currentInput := "0.9999999999989999".toList, lastResult := [], display := [],
          exprText := [] }
      = Outcome.ok
        { currentInput := "0.999999999999".toList, lastResult := "0.999999999999".toList,
          display := "0.999999999999".toList, exprText := "0.9999999999989999 =".toList }
    ∧ pressEquals standardGlobals "12".toList 10
        { currentInput := "0.999999999999".toList, lastResult := "0.999999999999".toList,
          display := "0.999999999999".toList, exprText := "0.9999999999989999 =".toList }
      = Outcome.ok
        { currentInput := "1".toList, lastResult := "1".toList,
          display := "1".toList, exprText := "0.999999999999 =".toList } := by
  decide!

/-- C9, amended.  For every input buffer, precision and global scope:
(1) when evaluation and `formatResult` yield the text `t`, the `=` handler makes
`t` the display, the last result and the new input buffer; (2) when they throw,
it shows `Error` and empties the buffer; (3) pressing `=` again on the buffer
`t` evaluates `t` and formats the value again, and this reproduces `t` in the
display and in the buffer whenever the first result is a finite binary64 value
that either passes the near-integer test with a nearest integer below `10^21`
in magnitude, or fails it and is rendered without an exponent at a precision
of at most 15 digits, provided in the latter case that the precision is at
most 11, or `t` has no fractional part, or the value of `t` fails the
near-integer test again; (4) it also reproduces `t` when the first result is
NaN or an infinity and the global scope binds `NaN` and `Infinity` to them;
(5) as for `2+2`, which gives `4`, and `=` again, which gives `4`. -/
theorem pressEquals_chaining (globals : List Char → Option Value) (precision : List Char)
    (fuel : ℕ) (st : CalcState) :
    (∀ t : List Char,
        (evaluateExpression globals fuel st.currentInput).bind (formatResult precision)
          = Outcome.ok t →
        pressEquals globals precision fuel st
          = Outcome.ok { currentInput := t, lastResult := t, display := t,
                         exprText := st.currentInput ++ " =".toList })
    ∧ ((evaluateExpression globals fuel st.currentInput).bind (formatResult precision)
          = Outcome.threw →
        pressEquals globals precision fuel st
          = Outcome.ok { currentInput := [], lastResult := st.lastResult,
                         display := "Error".toList, exprText := [] })
    ∧ (∀ (q : ℚ) (t : List Char), 2 ≤ fuel →
        evaluateExpression globals fuel st.currentInput = Outcome.ok (Value.num (JSNum.fin q)) →
        formatResult precision (Value.num (JSNum.fin q)) = Outcome.ok t →
        ((JSNum.roundDouble q = JSNum.fin q ∧ nearInteger (JSNum.fin q) = true
            ∧ |⌊q + 1 / 2⌋| < 10 ^ 21)
          ∨ (nearInteger (JSNum.fin q) = false ∧ 'e' ∉ t
            ∧ ∃ p : ℤ, parseInt10 (if precision = [] then "12".toList else precision) = some p
              ∧ p ≤ 15
              ∧ (p ≤ 11 ∨ '.' ∉ t
                  ∨ ∃ w, evaluateExpression globals fuel t = Outcome.ok (Value.num w)
                      ∧ nearInteger w = false))) →
        pressEquals globals precision fuel
            { currentInput := t, lastResult := t, display := t,
              exprText := st.currentInput ++ " =".toList }
          = Outcome.ok { currentInput := t, lastResult := t, display := t,
                         exprText := t ++ " =".toList })
    ∧ (∀ (x : JSNum) (t : List Char), 2 ≤ fuel →
        evaluateExpression globals fuel st.currentInput = Outcome.ok (Value.num x) →
        formatResult precision (Value.num x) = Outcome.ok t →
        (∀ q, x ≠ JSNum.fin q) →
        globals "NaN".toList = some (Value.num JSNum.nan) →
        globals "Infinity".toList = some (Value.num (JSNum.inf false)) →
        pressEquals globals precision fuel
            { currentInput := t, lastResult := t, display := t,
              exprText := st.currentInput ++ " =".toList }
          = Outcome.ok { currentInput := t, lastResult := t, display := t,
                         exprText := t ++ " =".toList })
    ∧ pressEquals standardGlobals "12".toList 10
        { currentInput := "2+2".toList, lastResult := [], display := "2+2".toList,
          exprText := "2+2".toList }
      = Outcome.ok
        { currentInput := "4".toList, lastResult := "4".toList, display := "4".toList,
          exprText := "2+2 =".toList }
    ∧ pressEquals standardGlobals "12".toList 10
        { currentInput := "4".toList, lastResult := "4".toList, display := "4".toList,
          exprText := "2+2 =".toList }
      = Outcome.ok
        { currentInput := "4".toList, lastResult := "4".toList, display := "4".toList,
          exprText := "4 =".toList } := by
  refine ⟨?_, ?_, ?_, ?_, by decide!, by decide!⟩
  · intro t h
    simp only [pressEquals, h]
  · intro h
    simp only [pressEquals, h]
  · intro q t hfuel _ hfmt hclass
    obtain ⟨f, rfl⟩ : ∃ f, fuel = f + 2 := ⟨fuel - 2, by omega⟩
    have hre : (evaluateExpression globals (f + 2) t).bind (formatResult precision)
        = Outcome.ok t := by
      rcases hclass with ⟨hq, hn, hz⟩ | ⟨hn, hfix, p, hp, hp15, hfar⟩
      · exact reformat_integer globals f precision q t hq hn hz hfmt
      · have hp1 : 1 ≤ p := by
          by_contra hlt
          unfold formatResult at hfmt
          simp only [hn, hp, Option.getD_some] at hfmt
          unfold JSNum.toPrecision at hfmt
          rw [if_pos (Or.inl (by omega))] at hfmt
          simp [Outcome.bind] at hfmt
        obtain ⟨P, rfl⟩ : ∃ P : ℕ, p = (P : ℤ) := ⟨p.toNat, by omega⟩
        exact reformat_fixed globals f precision q P t hp (by omega) (by omega) hn hfmt hfix
          (by
            rcases hfar with h | h | h
            · exact Or.inl (by omega)
            · exact Or.inr (Or.inl h)
            · exact Or.inr (Or.inr h))
    simp only [pressEquals, hre]
  · intro x t hfuel _ hfmt hx hnan hinf
    obtain ⟨f, rfl⟩ : ∃ f, fuel = f + 2 := ⟨fuel - 2, by omega⟩
    have hre := reformat_nonfinite globals f precision x t hx hnan hinf hfmt
    simp only [pressEquals, hre]

theorem pressEquals_chaining_witness :
    pressEquals standardGlobals "6".toList 10
        { currentInput := "1/3".toList, lastResult := [], display := [], exprText := [] }
      = Outcome.ok
        { currentInput := "0.333333".toList, lastResult := "0.333333".toList,
          display := "0.333333".toList, exprText := "1/3".toList ++ " =".toList }
    ∧ pressEquals standardGlobals "6".toList 10
        { currentInput := "0.333333".toList, lastResult := "0.333333".toList,
          display := "0.333333".toList, exprText := "1/3".toList ++ " =".toList }
      = Outcome.ok
        { currentInput := "0.333333".toList, lastResult := "0.333333".toList,
          display := "0.333333".toList, exprText := "0.333333".toList ++ " =".toList }
    ∧ pressEquals standardGlobals "0".toList 10
        { currentInput := "1/3".toList, lastResult := "7".toList, display := [], exprText := [] }
      = Outcome.ok
        { currentInput := [], lastResult := "7".toList, display := "Error".toList,
          exprText := [] }
    ∧ pressEquals standardGlobals "12".toList 10
        { currentInput := "-7".toList, lastResult := "-7".toList, display := "-7".toList,
          exprText := "0-7".toList ++ " =".toList }
      = Outcome.ok
        { currentInput := "-7".toList, lastResult := "-7".toList, display := "-7".toList,
          exprText := "-7".toList ++ " =".toList }
    ∧ pressEquals standardGlobals "12".toList 10
        { currentInput := "-Infinity".toList, lastResult := "-Infinity".toList,
          display := "-Infinity".toList, exprText := "0-Infinity".toList ++ " =".toList }
      = Outcome.ok
        { currentInput := "-Infinity".toList, lastResult := "-Infinity".toList,
          display := "-Infinity".toList, exprText := "-Infinity".toList ++ " =".toList } :=
  ⟨(pressEquals_chaining standardGlobals "6".toList 10
      { currentInput := "1/3".toList, lastResult := [], display := [], exprText := [] }).1
      "0.333333".toList (by decide!),
   (pressEquals_chaining standardGlobals "6".toList 10
      { currentInput := "1/3".toList, lastResult := [], display := [], exprText := [] }).2.2.1
      (6004799503160661 / 18014398509481984) "0.333333".toList (by decide) (by decide!)
      (by decide!)
      (Or.inr ⟨by decide!, by decide, 6, by decide!, by decide, Or.inl (by decide)⟩),
   (pressEquals_chaining standardGlobals "0".toList 10
      { currentInput := "1/3".toList, lastResult := "7".toList, display := [],
        exprText := [] }).2.1 (by decide!),
   (pressEquals_chaining standardGlobals "12".toList 10
      { currentInput := "0-7".toList, lastResult := [], display := [], exprText := [] }).2.2.1
      (-7) "-7".toList (by decide) (by decide!) (by decide!)
      (Or.inl ⟨by decide!, by decide!, by decide!⟩),
   (pressEquals_chaining standardGlobals "12".toList 10
      { currentInput := "0-Infinity".toList, lastResult := [], display := [],
        exprText := [] }).2.2.2.1
      (JSNum.inf true) "-Infinity".toList (by decide) (by decide!) (by decide!)
      (by intro q h; exact JSNum.noConfusion h) (by decide!) (by decide!)⟩

/-! ## `formatResult`: counterexamples -/

/-- C4, as stated, fails: `1e21` is an integer, and `formatResult` renders it
with an exponent; `2^60` is rendered with digits only, but they are the digits
of the shortest decimal that converts back to `2^60`, not of `2^60`. -/
theorem formatResult_1e21 :
    nearInteger (JSNum.fin (10 ^ 21)) = true
    ∧ formatResult "12".toList (Value.num (JSNum.fin (10 ^ 21))) = Outcome.ok "1e+21".toList
    ∧ nearInteger (JSNum.fin (2 ^ 60)) = true
    ∧ formatResult "12".toList (Value.num (JSNum.fin (2 ^ 60)))
        = Outcome.ok "1152921504606847000".toList
    ∧ JSNum.natDigits (2 ^ 60) = "1152921504606846976".toList := by
  decide!

/-- C4, amended: for every finite binary64 value `v` that passes the test
`Math.abs(Math.round(v) - v) < 1e-12` of the code and whose nearest integer `z`
has magnitude below `10^21`, and for every precision setting, `formatResult(v)`
is an optional minus sign followed by decimal digits only: the numeral of a
natural number that converts back to `|z|`, and that is `|z|` itself when
`|z| < 2^53`. -/
theorem formatResult_integer (precision : List Char) (q : ℚ)
    (hq : JSNum.roundDouble q = JSNum.fin q) (hn : nearInteger (JSNum.fin q) = true)
    (hz : |⌊q + 1 / 2⌋| < 10 ^ 21) :
    ∃ d : ℕ,
      formatResult precision (Value.num (JSNum.fin q))
        = Outcome.ok ((if ⌊q + 1 / 2⌋ < 0 then ['-'] else []) ++ JSNum.natDigits d)
      ∧ (∀ c ∈ JSNum.natDigits d, isDigit c = true)
      ∧ JSNum.roundDouble (d : ℚ) = JSNum.fin ((|⌊q + 1 / 2⌋| : ℤ) : ℚ)
      ∧ (|⌊q + 1 / 2⌋| < 2 ^ 53 → (d : ℤ) = |⌊q + 1 / 2⌋|) := by
  obtain ⟨d, h1, h2, h3⟩ :=
    JSNum.numberToString_intCast ⌊q + 1 / 2⌋ hz (JSNum.roundDouble_round q hq)
  refine ⟨d, ?_, JSNum.natDigits_isDigit d, h2, h3⟩
  unfold formatResult
  simp only [hn, if_true, JSNum.round, h1, Outcome.ofOption]

theorem formatResult_integer_witness :
    ∃ d : ℕ,
      formatResult "6".toList (Value.num (JSNum.fin (-42)))
        = Outcome.ok ((if ⌊(-42 : ℚ) + 1 / 2⌋ < 0 then ['-'] else []) ++ JSNum.natDigits d)
      ∧ (∀ c ∈ JSNum.natDigits d, isDigit c = true)
      ∧ JSNum.roundDouble (d : ℚ) = JSNum.fin ((|⌊(-42 : ℚ) + 1 / 2⌋| : ℤ) : ℚ)
      ∧ (|⌊(-42 : ℚ) + 1 / 2⌋| < 2 ^ 53 → (d : ℤ) = |⌊(-42 : ℚ) + 1 / 2⌋|) :=
  formatResult_integer "6".toList (-42) (by decide!) (by decide!) (by decide!)

/-- C5, at the failing input: the value `1.5e-7` fails the near-integer test
and `toPrecision(6)` renders it as `1.50000e-7`; the end-anchored pattern of
`formatResult` matches nothing in that text, so the trailing zeros of its
fractional part stay, whereas the same digits in fixed notation, `1.50000` for
`1.5`, are trimmed to `1.5`, and 1/3 is rendered as `0.333333`. -/
theorem formatResult_exponent_zeros :
    nearInteger (JSNum.lit (15 / 10 ^ 8)) = false
    ∧ trimFraction "1.50000e-7".toList = "1.50000e-7".toList
    ∧ formatResult "6".toList (Value.num (JSNum.lit (15 / 10 ^ 8)))
        = Outcome.ok "1.50000e-7".toList
    ∧ trimFraction "1.50000".toList = "1.5".toList
    ∧ formatResult "6".toList (Value.num (JSNum.lit (15 / 10))) = Outcome.ok "1.5".toList
    ∧ formatResult "6".toList (Value.num (JSNum.lit (1 / 3))) = Outcome.ok "0.333333".toList := by
  decide!

end Calculator

namespace Weather

/-- C10 at the mock record: the location text is `Paris, FR`, and the temperature
text is `18` followed by the two characters U+00C2 U+00B0 of the source, not by
the single degree sign. -/
theorem displayWeather_paris :
    (displayWeather parisRecord).map (fun v => v.locationName) = some "Paris, FR".toList
    ∧ (displayWeather parisRecord).map (fun v => v.temperature)
        = some ("18".toList ++ [Char.ofNat 0xC2, Char.ofNat 0xB0])
    ∧ (displayWeather parisRecord).map (fun v => v.temperature) ≠ some "18°".toList := by
  decide!

end Weather
